import Mathlib

/-! The comment-synthesis engine of gocmt, file `parse.go`.

A shallow embedding of `parse.go` (package `main` of gocmt) together with the
parts of `go/ast`, `go/token`, `strings` and `fmt` that it calls.

Conventions of the embedding.

* A Go `string` is a Lean `String` (valid UTF-8 text).  Byte-indexed library
  code is expressed through the UTF-8 width of the characters involved.
* `token.Pos` is a machine `int` (64 bit); `Pos - 1` wraps explicitly.
* A Go run-time panic is the `panic` side of `Result`.
* Pointers that the parser never leaves nil (`fd.Name`, `ts.Name`, the elements
  of `Names`, of `Specs` and of `Decls`) are plain values; pointers the source
  tests against nil (`Doc`, `fd.Type`, `Params`, `Results`) are `Option`s.
* `ast.CommentGroup.List` carries the documented invariant `len(List) > 0`.
-/

namespace Gocmt

/-! ## go/token and go/ast -/

/-- Run-time panics of the Go program. -/
inductive Fault where
  | indexOutOfRange
  | sliceBounds
  | nilDeref
  | typeAssertion
  | nilMap
  deriving DecidableEq, Repr

/-- Outcome of a computation that may panic. -/
inductive Result (α : Type) where
  | ok (a : α)
  | panic (f : Fault)
  deriving DecidableEq, Repr

/-- Sequencing of computations that may panic. -/
def Result.bind {α β : Type} (x : Result α) (f : α → Result β) : Result β :=
  match x with
  | .ok a => f a
  | .panic e => .panic e

instance : Monad Result where
  pure := Result.ok
  bind := Result.bind

/-- Type `token.Pos`: an offset in the file set; a machine int. -/
abbrev Pos := Int

/-- Constant `token.NoPos`. -/
def NoPos : Pos := 0

/-- Method `token.Pos.IsValid`. -/
def Pos.IsValid (p : Pos) : Bool := p != NoPos

/-- Two's-complement wrap-around of a 64-bit machine int. -/
def wrapInt (x : Int) : Int := (x + 2 ^ 63) % 2 ^ 64 - 2 ^ 63

/-- The expression `p - token.Pos(1)` on machine ints. -/
def posMinusOne (p : Pos) : Pos := wrapInt (p - 1)

/-- Type `ast.Comment`. -/
structure Comment where
  Slash : Pos
  Text : String
  deriving DecidableEq, Repr

/-- Type `ast.CommentGroup`; `List` is `first :: more`, never empty. -/
structure CommentGroup where
  first : Comment
  more : List Comment
  deriving DecidableEq, Repr

/-- Field `List` of a comment group. -/
def CommentGroup.List (g : CommentGroup) : List Comment := g.first :: g.more

/-- Method `CommentGroup.Pos`: the position of `List[0]`. -/
def CommentGroup.Pos (g : CommentGroup) : Pos := g.first.Slash

/-- Type `ast.Ident`. -/
structure Ident where
  NamePos : Pos
  Name : String
  deriving DecidableEq, Repr

/-- Type expressions (`ast.Expr`) that occur as parameter and result types.
Every node except an identifier records the address of its struct, which is
what `%v` prints for a pointer met below the top level. -/
inductive Expr where
  | ident (id : Ident)
  | star (addr : Nat) (Star : Pos) (X : Expr)
  | slice (addr : Nat) (Lbrack : Pos) (Elt : Expr)
  | array (addr : Nat) (Lbrack : Pos) (Len : Expr) (Elt : Expr)
  | ellipsis (addr : Nat) (Ellipsis : Pos) (Elt : Expr)
  | selector (addr : Nat) (X : Expr) (Sel : Ident)
  | map (addr : Nat) (Map : Pos) (Key : Expr) (Value : Expr)
  | paren (addr : Nat) (Lparen : Pos) (X : Expr) (Rparen : Pos)
  deriving DecidableEq, Repr

/-- Method `Pos` of the expression nodes. -/
def Expr.Pos : Expr → Pos
  | .ident id => id.NamePos
  | .star _ p _ => p
  | .slice _ p _ => p
  | .array _ p _ _ => p
  | .ellipsis _ p _ => p
  | .selector _ x _ => x.Pos
  | .map _ p _ _ => p
  | .paren _ p _ _ => p

/-- Type `ast.Field`. -/
structure Field where
  Names : List Ident
  Typ : Option Expr
  deriving DecidableEq, Repr

/-- Type `ast.FieldList`. -/
structure FieldList where
  Opening : Pos
  List : List Field
  Closing : Pos
  deriving DecidableEq, Repr

/-- Method `Field.Pos`. -/
def Field.Pos (f : Field) : Pos :=
  match f.Names with
  | n :: _ => n.NamePos
  | [] =>
    match f.Typ with
    | some t => t.Pos
    | none => NoPos

/-- Method `FieldList.Pos`. -/
def FieldList.Pos (f : FieldList) : Pos :=
  if f.Opening.IsValid then f.Opening
  else
    match f.List with
    | x :: _ => x.Pos
    | [] => NoPos

/-- Type `ast.FuncType`. -/
structure FuncType where
  Func : Pos
  Params : Option FieldList
  Results : Option FieldList
  deriving DecidableEq, Repr

/-- Method `FuncType.Pos`. -/
def FuncType.Pos (f : FuncType) : Pos :=
  match f.Params with
  | none => f.Func
  | some ps => if f.Func.IsValid then f.Func else ps.Pos

/-- Type `ast.FuncDecl`; of the body only its presence is kept. -/
structure FuncDecl where
  Doc : Option CommentGroup
  Recv : Option FieldList
  Name : Ident
  Typ : Option FuncType
  HasBody : Bool
  deriving DecidableEq, Repr

/-- Method `FuncDecl.Pos`: `d.Type.Pos()`, a nil dereference without a type. -/
def FuncDecl.Pos (d : FuncDecl) : Result Pos :=
  match d.Typ with
  | some t => .ok t.Pos
  | none => .panic .nilDeref

/-- Type `ast.ValueSpec`. -/
structure ValueSpec where
  Doc : Option CommentGroup
  Names : List Ident
  Typ : Option Expr
  Values : List Expr
  Comment : Option CommentGroup
  deriving DecidableEq, Repr

/-- Type `ast.TypeSpec`. -/
structure TypeSpec where
  Doc : Option CommentGroup
  Name : Ident
  Assign : Pos
  Typ : Expr
  Comment : Option CommentGroup
  deriving DecidableEq, Repr

/-- Type `ast.ImportSpec`. -/
structure ImportSpec where
  Doc : Option CommentGroup
  Name : Option Ident
  Path : String
  Comment : Option CommentGroup
  deriving DecidableEq, Repr

/-- Interface `ast.Spec`. -/
inductive Spec where
  | Import (s : ImportSpec)
  | Value (s : ValueSpec)
  | Typ (s : TypeSpec)
  deriving DecidableEq, Repr

/-- Keywords a `GenDecl` is introduced by (`token.Token`). -/
inductive Token where
  | IMPORT
  | CONST
  | TYPE
  | VAR
  deriving DecidableEq, Repr

/-- Type `ast.GenDecl`. -/
structure GenDecl where
  Doc : Option CommentGroup
  TokPos : Pos
  Tok : Token
  Lparen : Pos
  Specs : List Spec
  Rparen : Pos
  deriving DecidableEq, Repr

/-- Method `GenDecl.Pos`. -/
def GenDecl.Pos (d : GenDecl) : Pos := d.TokPos

/-- Interface `ast.Decl`. -/
inductive Decl where
  | Bad (From : Pos) (To : Pos)
  | Gen (gd : GenDecl)
  | Func (fd : FuncDecl)
  deriving DecidableEq, Repr

/-- Type `ast.File`: the package clause, the top-level declarations and the
list of all comment groups. -/
structure File where
  Package : Pos
  Name : Ident
  Decls : List Decl
  Comments : List CommentGroup
  deriving DecidableEq, Repr

/-- Identity of a node of a file, the key of an `ast.CommentMap`: the
declaration `Decls[i]`, the spec `Decls[i].Specs[j]`, or any other node of
the tree. -/
inductive NodeKey where
  | decl (i : Nat)
  | spec (i : Nat) (j : Nat)
  | inner (n : Nat)
  deriving DecidableEq, Repr

/-- Type `ast.CommentMap`: the comment groups associated with each node. -/
abbrev CommentMap := List (NodeKey × List CommentGroup)

/-- Lookup `cmap[k]`. -/
def CommentMap.get (m : CommentMap) (k : NodeKey) : Option (List CommentGroup) :=
  (m.find? (fun e => e.1 = k)).map (fun e => e.2)

/-- Assignment `cmap[k] = v`. -/
def CommentMap.set (m : CommentMap) (k : NodeKey) (v : List CommentGroup) : CommentMap :=
  (k, v) :: m.filter (fun e => e.1 ≠ k)

/-- Whether the node of a key is part of the tree of the declarations. -/
def nodeExists (decls : List Decl) : NodeKey → Bool
  | .decl i => i < decls.length
  | .spec i j =>
    match decls.get? i with
    | some (.Gen gd) => j < gd.Specs.length
    | _ => false
  | .inner _ => true

/-- Method `CommentMap.Filter`: the entries whose node is in the tree. -/
def CommentMap.Filter (m : CommentMap) (decls : List Decl) : CommentMap :=
  m.filter (fun e => nodeExists decls e.1)

/-- Sorted insertion by `CommentGroup.Pos`. -/
def insertByPos (g : CommentGroup) : List CommentGroup → List CommentGroup
  | [] => [g]
  | h :: t => if g.Pos ≤ h.Pos then g :: h :: t else h :: insertByPos g t

/-- Function `sortComments` of go/ast: orders the groups by position.  (The
library sort leaves the order of groups at one position open; this one keeps
them in list order.) -/
def sortComments (l : List CommentGroup) : List CommentGroup :=
  l.foldr insertByPos []

/-- Method `CommentMap.Comments`: all groups of the map, sorted. -/
def CommentMap.Comments (m : CommentMap) : List CommentGroup :=
  sortComments (m.map (fun e => e.2)).flatten

/-! ## strings -/

/-- Function `unicode.IsSpace`. -/
def isSpace (c : Char) : Bool :=
  let n := c.toNat
  n == 9 || n == 10 || n == 11 || n == 12 || n == 13 || n == 32 ||
  n == 0x85 || n == 0xA0 || n == 0x1680 || (0x2000 ≤ n && n ≤ 0x200a) ||
  n == 0x2028 || n == 0x2029 || n == 0x202f || n == 0x205f || n == 0x3000

/-- Function `strings.TrimSpace`: drops leading and trailing white space. -/
def TrimSpace (s : String) : String :=
  ⟨((s.data.dropWhile isSpace).reverse.dropWhile isSpace).reverse⟩

/-- Splits `s` at the first occurrence of `old`: the text before it and the
text after it (`strings.Index`); an empty `old` is found at offset 0. -/
def cutAtFirst (old : List Char) : List Char → Option (List Char × List Char)
  | [] => if old.isEmpty then some ([], []) else none
  | c :: cs =>
    if old.isPrefixOf (c :: cs) then some ([], (c :: cs).drop old.length)
    else
      match cutAtFirst old cs with
      | some (pre, post) => some (c :: pre, post)
      | none => none

/-- Function `strings.Replace(s, old, new, 1)`: replaces the first occurrence
of `old`; `s` itself when `old == new` or when `old` does not occur. -/
def ReplaceFirst (s old new : String) : String :=
  if old = new then s
  else
    match cutAtFirst old.data s.data with
    | some (pre, post) => ⟨pre ++ new.data ++ post⟩
    | none => s

/-- Function `strings.Split(s, "\n")` on the characters of `s`; `cur` holds
the reversed characters of the piece being read. -/
def splitLinesAux : List Char → List Char → List (List Char)
  | cur, [] => [cur.reverse]
  | cur, c :: cs =>
    if c = '\n' then cur.reverse :: splitLinesAux [] cs
    else splitLinesAux (c :: cur) cs

/-- Function `strings.Split(s, "\n")`. -/
def splitLines (s : List Char) : List (List Char) := splitLinesAux [] s

/-- Function `strings.Join(lines, "\n")`. -/
def joinLines : List (List Char) → List Char
  | [] => []
  | [l] => l
  | l :: ls => l ++ '\n' :: joinLines ls

/-! ## go/ast: the text of a comment group -/

/-- Function `isWhitespace` of go/ast. -/
def isWhitespace (c : Char) : Bool :=
  c = ' ' || c = '\t' || c = '\n' || c = '\r'

/-- Function `stripTrailingWhitespace` of go/ast. -/
def stripTrailingWhitespace (s : List Char) : List Char :=
  (s.reverse.dropWhile isWhitespace).reverse

/-- A byte in `a`..`z` or `0`..`9`. -/
def isLowerAlnum (c : Char) : Bool :=
  ('a'.toNat ≤ c.toNat && c.toNat ≤ 'z'.toNat) ||
  ('0'.toNat ≤ c.toNat && c.toNat ≤ '9'.toNat)

/-- Function `isDirective` of go/ast, on the comment text after `//`. -/
def isDirective (c : List Char) : Bool :=
  if "line ".data.isPrefixOf c || "extern ".data.isPrefixOf c ||
      "export ".data.isPrefixOf c then true
  else
    match cutAtFirst [':'] c with
    | none => false
    | some (pre, post) =>
      match pre, post with
      | [], _ => false
      | _, [] => false
      | _ :: _, b :: _ => pre.all isLowerAlnum && isLowerAlnum b

/-- Number of bytes of the UTF-8 encoding. -/
def byteLen (s : List Char) : Nat := (s.map Char.utf8Size).sum

/-- Drops the last two bytes of a text that has at least two: `none` when
the cut falls inside a multi-byte character, so that what remains is not
valid UTF-8. -/
def dropLastTwoBytes (s : List Char) : Option (List Char) :=
  match s.reverse with
  | [] => some []
  | c :: r =>
    if c.utf8Size = 2 then some r.reverse
    else if c.utf8Size = 1 then
      match r with
      | [] => some []
      | d :: r2 => if d.utf8Size = 1 then some r2.reverse else none
    else none

/-- What the marker-removing `switch c[1]` of `CommentGroup.Text` leaves of
one comment. -/
inductive Stripped where
  | text (c : List Char)
  | skipped
  | notUTF8
  deriving DecidableEq, Repr

/-- The `switch c[1]` of `CommentGroup.Text`: removes the comment markers.
`c[1]` is out of range for a text of fewer than two bytes; a `/*` text of
fewer than four bytes has no `c[2 : len(c)-2]`. -/
def stripMarkers (c : List Char) : Result Stripped :=
  match c with
  | [] => .panic .indexOutOfRange
  | c0 :: tl =>
    if c0.utf8Size = 1 then
      match tl with
      | [] => .panic .indexOutOfRange
      | c1 :: body =>
        if c1 = '/' then
          match body with
          | [] => .ok (.text [])
          | b :: bs =>
            if b = ' ' then .ok (.text bs)
            else if isDirective (b :: bs) then .ok .skipped
            else .ok (.text (b :: bs))
        else if c1 = '*' then
          if byteLen (c0 :: c1 :: body) < 4 then .panic .sliceBounds
          else
            match dropLastTwoBytes body with
            | some inner => .ok (.text inner)
            | none => .ok .notUTF8
        else .ok (.text (c0 :: c1 :: body))
    else .ok (.text (c0 :: tl))

/-- The first loop of `CommentGroup.Text`: the lines of all comments, each
stripped of trailing white space; `none` once a line is not valid UTF-8. -/
def commentLines : List Comment → Result (Option (List (List Char)))
  | [] => .ok (some [])
  | c :: cs =>
    match stripMarkers c.Text.data with
    | .panic e => .panic e
    | .ok st =>
      match commentLines cs with
      | .panic e => .panic e
      | .ok tl =>
        match st, tl with
        | .notUTF8, _ => .ok none
        | _, none => .ok none
        | .skipped, some ls => .ok (some ls)
        | .text t, some ls =>
          .ok (some ((splitLines t).map stripTrailingWhitespace ++ ls))

/-- The second loop of `CommentGroup.Text`: drops leading blank lines and
squeezes runs of interior blank lines to one; `kept` is `lines[0:n]`. -/
def squeezeBlank (lines : List (List Char)) : List (List Char) :=
  lines.foldl
    (fun kept line =>
      if line ≠ [] || (kept ≠ [] && kept.getLast? ≠ some []) then kept ++ [line]
      else kept)
    []

/-- Method `CommentGroup.Text` on a non-nil group.  `none` stands for a text
that is not valid UTF-8 (a `/*` comment cut inside a character). -/
def CommentGroup.Text (g : CommentGroup) : Result (Option String) :=
  match commentLines g.List with
  | .panic e => .panic e
  | .ok none => .ok none
  | .ok (some lines) =>
    let lines := squeezeBlank lines
    let lines := if lines ≠ [] && lines.getLast? ≠ some [] then lines ++ [[]] else lines
    .ok (some ⟨joinLines lines⟩)

/-! ## fmt -/

/-- Decimal text of a machine int (`%d`, and `%v` of an integer field). -/
def fmtInt (n : Int) : String :=
  match n with
  | .ofNat k => ⟨Nat.toDigits 10 k⟩
  | .negSucc k => ⟨'-' :: Nat.toDigits 10 (k + 1)⟩

/-- Function `fmtPointer` for the verb `v`: a pointer met below the top
level prints as its address. -/
def fmtPointer (addr : Nat) : String :=
  if addr = 0 then "<nil>" else ⟨'0' :: 'x' :: Nat.toDigits 16 addr⟩

/-- What `%v` prints for a struct field holding an expression: the name for
an identifier (its `String` method is found first), the address for any
other node. -/
def fmtField : Expr → String
  | .ident id => id.Name
  | .star a _ _ => fmtPointer a
  | .slice a _ _ => fmtPointer a
  | .array a _ _ _ => fmtPointer a
  | .ellipsis a _ _ => fmtPointer a
  | .selector a _ _ => fmtPointer a
  | .map a _ _ _ => fmtPointer a
  | .paren a _ _ _ => fmtPointer a

/-- What `%v` prints for an expression operand: the name for an identifier,
and `&{field field ...}` for a pointer to any other node, whose position
fields print as integers. -/
def fmtV : Expr → String
  | .ident id => id.Name
  | .star _ p x => "&\x7b" ++ fmtInt p ++ " " ++ fmtField x ++ "\x7d"
  | .slice _ p e => "&\x7b" ++ fmtInt p ++ " <nil> " ++ fmtField e ++ "\x7d"
  | .array _ p l e =>
    "&\x7b" ++ fmtInt p ++ " " ++ fmtField l ++ " " ++ fmtField e ++ "\x7d"
  | .ellipsis _ p e => "&\x7b" ++ fmtInt p ++ " " ++ fmtField e ++ "\x7d"
  | .selector _ x sel => "&\x7b" ++ fmtField x ++ " " ++ sel.Name ++ "\x7d"
  | .map _ p k v =>
    "&\x7b" ++ fmtInt p ++ " " ++ fmtField k ++ " " ++ fmtField v ++ "\x7d"
  | .paren _ l x r =>
    "&\x7b" ++ fmtInt l ++ " " ++ fmtField x ++ " " ++ fmtInt r ++ "\x7d"

/-- The operands `parse.go` hands to `fmt.Sprintf`. -/
inductive Operand where
  | str (s : String)
  | ident (id : Ident)
  | expr (e : Option Expr)
  | int (n : Int)
  deriving DecidableEq, Repr

/-- The plain verbs `%s`, `%v`, `%d` on the operands they print directly;
`none` for every other pairing. -/
def renderVerb (v : Char) (a : Operand) : Option String :=
  match a with
  | .str s => if v = 's' ∨ v = 'v' then some s else none
  | .ident id => if v = 's' ∨ v = 'v' then some id.Name else none
  | .expr none => if v = 'v' then some "<nil>" else none
  | .expr (some e) => if v = 'v' then some (fmtV e) else none
  | .int n => if v = 'd' ∨ v = 'v' then some (fmtInt n) else none

/-- What `reflect.TypeOf(arg).String()` gives for an expression node. -/
def exprTypeName : Expr → String
  | .ident _ => "*ast.Ident"
  | .star _ _ _ => "*ast.StarExpr"
  | .slice _ _ _ => "*ast.ArrayType"
  | .array _ _ _ _ => "*ast.ArrayType"
  | .ellipsis _ _ _ => "*ast.Ellipsis"
  | .selector _ _ _ => "*ast.SelectorExpr"
  | .map _ _ _ _ => "*ast.MapType"
  | .paren _ _ _ _ => "*ast.ParenExpr"

/-- One operand inside `%!(EXTRA ...)`: `type=value`, or `<nil>`. -/
def extraOperand : Operand → String
  | .str s => "string=" ++ s
  | .ident id => "*ast.Ident=" ++ id.Name
  | .expr none => "<nil>"
  | .expr (some e) => exprTypeName e ++ "=" ++ fmtV e
  | .int n => "int=" ++ fmtInt n

/-- The operands of `%!(EXTRA ...)`, separated by `", "`. -/
def extraList : List Operand → List Char
  | [] => []
  | [a] => (extraOperand a).data
  | a :: as => (extraOperand a).data ++ ", ".data ++ extraList as

/-- The end of `doPrintf`: operands no verb consumed are reported. -/
def extraArgs (unused : List Operand) : List Char :=
  if unused.isEmpty then [] else "%!(EXTRA ".data ++ extraList unused ++ [')']

/-- What the embedding takes as given.

`commentBase` and `commentIndentedBase` are the constants of package `main`
that `parse.go` refers to and that are declared in another file.
`fmtRest args k rest` is what `fmt.Sprintf` writes from a directive on that
is not a `%s`, `%v`, `%d` or `%%` printed directly (flags, widths,
precisions, argument indexes, other verbs), `k` operands being consumed and
`rest` being the format from that directive on.  `NewCommentMap` is
`ast.NewCommentMap(fset, af, af.Comments)` for a comment list that is not
empty (for an empty one the function returns a nil map, which
`buildComments` accounts for). -/
structure Env where
  commentBase : String
  commentIndentedBase : String
  fmtRest : List Operand → Nat → String → String
  NewCommentMap : File → CommentMap

/-- Function `doPrintf` of fmt, `k` operands being consumed so far: literal
text is copied, `%%` writes a percent sign, a plain `%s`, `%v` or `%d`
prints the next operand (`%!v(MISSING)` without one), a lone `%` at the end
writes `%!(NOVERB)`; anything else is left to `fmtRest`. -/
def doPrintf (E : Env) (args : List Operand) : Nat → List Char → List Char
  | k, [] => extraArgs (args.drop k)
  | k, c :: cs =>
    if c ≠ '%' then c :: doPrintf E args k cs
    else
      match cs with
      | [] => "%!(NOVERB)".data ++ extraArgs (args.drop k)
      | v :: rest =>
        if v = '%' then '%' :: doPrintf E args k rest
        else if v = 's' ∨ v = 'v' ∨ v = 'd' then
          match args.get? k with
          | none => '%' :: '!' :: v :: "(MISSING)".data ++ doPrintf E args k rest
          | some a =>
            match renderVerb v a with
            | some out => out.data ++ doPrintf E args (k + 1) rest
            | none => (E.fmtRest args k ⟨c :: v :: rest⟩).data
        else (E.fmtRest args k ⟨c :: v :: rest⟩).data

/-- Function `fmt.Sprintf`. -/
def Sprintf (E : Env) (format : String) (args : List Operand) : String :=
  ⟨doPrintf E args 0 format.data⟩

/-! ## parse.go -/

/-- The expression `names[0]`. -/
def firstName (names : List Ident) : Result Ident :=
  match names with
  | n :: _ => .ok n
  | [] => .panic .indexOutOfRange

/-- Method `ValueSpec.Pos`: the position of `Names[0]`. -/
def ValueSpec.Pos (vs : ValueSpec) : Result Pos :=
  match firstName vs.Names with
  | .ok n => .ok n.NamePos
  | .panic e => .panic e

/-- The condition `doc == nil || strings.TrimSpace(doc.Text()) == name` that
opens each of the four `add...Comment` functions; `name` is evaluated only
when the doc is present.  A text that is not valid UTF-8 equals no name. -/
def docIsNilOrName (doc : Option CommentGroup) (name : Result String) : Result Bool :=
  match doc with
  | none => .ok true
  | some g =>
    match g.Text with
    | .panic e => .panic e
    | .ok text =>
      match name with
      | .panic e => .panic e
      | .ok n =>
        match text with
        | none => .ok false
        | some t => .ok (TrimSpace t == n)

/-- Lines 100-106 of `addFuncDeclComment`: the loop over the parameter
fields and, inside it, over the names of a field. -/
def addParamLines (E : Env) (text : String) (params : Option FieldList) : String :=
  match params with
  | none => text
  | some ps =>
    ps.List.foldl
      (fun text v =>
        v.Names.foldl
          (fun text name => text ++ Sprintf E "\n// @%v: %v" [.ident name, .expr v.Typ])
          text)
      text

/-- Lines 108-121 of `addFuncDeclComment`: the `returns:` line and the loop
over the result fields; `index` is set to 1 and not assigned again. -/
def addResultLines (E : Env) (text : String) (results : Option FieldList) : String :=
  match results with
  | none => text
  | some rs =>
    let text := text ++ "\n// returns:"
    let index : Int := 1
    rs.List.foldl
      (fun text v =>
        if v.Names.length = 0 then
          text ++ Sprintf E "\n// #%d: %v" [.int index, .expr v.Typ]
        else
          v.Names.foldl
            (fun text name => text ++ Sprintf E "\n// @%v: %v" [.ident name, .expr v.Typ])
            text)
      text

/-- Lines 98-122 of `addFuncDeclComment`: the text of the new comment. -/
def funcDeclText (E : Env) (fd : FuncDecl) (commentTemplate : String) : String :=
  let text := Sprintf E commentTemplate [.ident fd.Name]
  match fd.Typ with
  | none => text
  | some ft => addResultLines E (addParamLines E text ft.Params) ft.Results

/-- Function `addFuncDeclComment`. -/
def addFuncDeclComment (E : Env) (fd : FuncDecl) (commentTemplate : String) :
    Result FuncDecl :=
  match docIsNilOrName fd.Doc (.ok fd.Name.Name) with
  | .panic e => .panic e
  | .ok false => .ok fd
  | .ok true =>
    let text := funcDeclText E fd commentTemplate
    match fd.Pos with
    | .panic e => .panic e
    | .ok p => .ok { fd with Doc := some ⟨⟨posMinusOne p, text⟩, []⟩ }

/-- The name `vs.Names[0].Name`. -/
def valueSpecName (vs : ValueSpec) : Result String :=
  match firstName vs.Names with
  | .ok n => .ok n.Name
  | .panic e => .panic e

/-- Function `addValueSpecComment`. -/
def addValueSpecComment (E : Env) (gd : GenDecl) (vs : ValueSpec)
    (commentTemplate : String) : Result GenDecl :=
  match docIsNilOrName gd.Doc (valueSpecName vs) with
  | .panic e => .panic e
  | .ok false => .ok gd
  | .ok true =>
    match valueSpecName vs with
    | .panic e => .panic e
    | .ok name =>
      let text := Sprintf E commentTemplate [.str name]
      let pos := posMinusOne gd.Pos
      .ok { gd with Doc := some ⟨⟨pos, text⟩, []⟩ }

/-- Function `addParenValueSpecComment`. -/
def addParenValueSpecComment (E : Env) (vs : ValueSpec) (commentTemplate : String) :
    Result ValueSpec :=
  match docIsNilOrName vs.Doc (valueSpecName vs) with
  | .panic e => .panic e
  | .ok false => .ok vs
  | .ok true =>
    let commentTemplate := ReplaceFirst commentTemplate E.commentBase E.commentIndentedBase
    match valueSpecName vs with
    | .panic e => .panic e
    | .ok name =>
      let text := Sprintf E commentTemplate [.str name]
      match vs.Pos with
      | .panic e => .panic e
      | .ok p => .ok { vs with Doc := some ⟨⟨posMinusOne p, text⟩, []⟩ }

/-- Function `addTypeSpecComment`. -/
def addTypeSpecComment (E : Env) (gd : GenDecl) (ts : TypeSpec)
    (commentTemplate : String) : Result GenDecl :=
  match docIsNilOrName gd.Doc (.ok ts.Name.Name) with
  | .panic e => .panic e
  | .ok false => .ok gd
  | .ok true =>
    let text := Sprintf E commentTemplate [.str ts.Name.Name]
    let pos := posMinusOne gd.Pos
    .ok { gd with Doc := some ⟨⟨pos, text⟩, []⟩ }

/-- The slice `[]*ast.CommentGroup{doc}` stored in the comment map.  The doc
is never nil where `buildComments` builds it: each `add...Comment` leaves a
doc behind. -/
def docEntry (doc : Option CommentGroup) : List CommentGroup := doc.toList

/-- The expression `gd.Specs[0].(*ast.ValueSpec)`. -/
def firstValueSpec (gd : GenDecl) : Result ValueSpec :=
  match gd.Specs with
  | [] => .panic .indexOutOfRange
  | .Value vs :: _ => .ok vs
  | _ :: _ => .panic .typeAssertion

/-- The expression `gd.Specs[0].(*ast.TypeSpec)`. -/
def firstTypeSpec (gd : GenDecl) : Result TypeSpec :=
  match gd.Specs with
  | [] => .panic .indexOutOfRange
  | .Typ ts :: _ => .ok ts
  | _ :: _ => .panic .typeAssertion

/-- Lines 62-69 of `buildComments`: the loop over the specs of a
parenthesized CONST or VAR declaration, `Decls[i]`, from spec `j` on. -/
def buildSpecs (E : Env) (commentTemplate : String) (i : Nat) :
    Nat → List Spec → CommentMap → Result (List Spec × CommentMap)
  | _, [], cmap => .ok ([], cmap)
  | j, spec :: rest, cmap =>
    match spec with
    | .Value vs =>
      match addParenValueSpecComment E vs commentTemplate with
      | .panic e => .panic e
      | .ok vs1 =>
        match buildSpecs E commentTemplate i (j + 1) rest
            (cmap.set (.spec i j) (docEntry vs1.Doc)) with
        | .panic e => .panic e
        | .ok (rest1, cmap1) => .ok (.Value vs1 :: rest1, cmap1)
    | _ => .panic .typeAssertion

/-- Lines 38-87 of `buildComments`: the body of the loop over the top-level
declarations, for `d = Decls[i]`. -/
def buildDecl (E : Env) (commentTemplate : String) (i : Nat) (d : Decl)
    (cmap : CommentMap) : Result (Decl × CommentMap) :=
  match d with
  | .Func fd =>
    match addFuncDeclComment E fd commentTemplate with
    | .panic e => .panic e
    | .ok fd1 => .ok (.Func fd1, cmap.set (.decl i) (docEntry fd1.Doc))
  | .Gen gd =>
    match gd.Tok with
    | .CONST | .VAR =>
      if gd.Lparen = NoPos ∧ gd.Rparen = NoPos then
        match firstValueSpec gd with
        | .panic e => .panic e
        | .ok vs =>
          match addValueSpecComment E gd vs commentTemplate with
          | .panic e => .panic e
          | .ok gd1 => .ok (.Gen gd1, cmap.set (.decl i) (docEntry gd1.Doc))
      else
        match buildSpecs E commentTemplate i 0 gd.Specs cmap with
        | .panic e => .panic e
        | .ok (specs1, cmap1) => .ok (.Gen { gd with Specs := specs1 }, cmap1)
    | .TYPE =>
      match firstTypeSpec gd with
      | .panic e => .panic e
      | .ok ts =>
        match addTypeSpecComment E gd ts commentTemplate with
        | .panic e => .panic e
        | .ok gd1 => .ok (.Gen gd1, cmap.set (.decl i) (docEntry gd1.Doc))
    | .IMPORT => .ok (.Gen gd, cmap)
  | .Bad f t => .ok (.Bad f t, cmap)

/-- Lines 37-88 of `buildComments`: the loop over `af.Decls`, from
declaration `i` on. -/
def buildDecls (E : Env) (commentTemplate : String) :
    Nat → List Decl → CommentMap → Result (List Decl × CommentMap)
  | _, [], cmap => .ok ([], cmap)
  | i, d :: rest, cmap =>
    match buildDecl E commentTemplate i d cmap with
    | .panic e => .panic e
    | .ok (d1, cmap1) =>
      match buildDecls E commentTemplate (i + 1) rest cmap1 with
      | .panic e => .panic e
      | .ok (rest1, cmap2) => .ok (d1 :: rest1, cmap2)

/-- The body of the loop of `buildComments` when `cmap` is nil: the
declaration is processed as in `buildDecl` up to the first assignment
`cmap[...] = ...`, which panics (assignment to an entry in a nil map).
A bad declaration, an import declaration and a parenthesized CONST or VAR
declaration without specs reach no assignment. -/
def buildDeclNil (E : Env) (commentTemplate : String) (d : Decl) : Result Decl :=
  match d with
  | .Func fd =>
    match addFuncDeclComment E fd commentTemplate with
    | .panic e => .panic e
    | .ok _ => .panic .nilMap
  | .Gen gd =>
    match gd.Tok with
    | .CONST | .VAR =>
      if gd.Lparen = NoPos ∧ gd.Rparen = NoPos then
        match firstValueSpec gd with
        | .panic e => .panic e
        | .ok vs =>
          match addValueSpecComment E gd vs commentTemplate with
          | .panic e => .panic e
          | .ok _ => .panic .nilMap
      else
        match gd.Specs with
        | [] => .ok (.Gen gd)
        | .Value vs :: _ =>
          match addParenValueSpecComment E vs commentTemplate with
          | .panic e => .panic e
          | .ok _ => .panic .nilMap
        | _ :: _ => .panic .typeAssertion
    | .TYPE =>
      match firstTypeSpec gd with
      | .panic e => .panic e
      | .ok ts =>
        match addTypeSpecComment E gd ts commentTemplate with
        | .panic e => .panic e
        | .ok _ => .panic .nilMap
    | .IMPORT => .ok (.Gen gd)
  | .Bad f t => .ok (.Bad f t)

/-- The loop over `af.Decls` when `cmap` is nil. -/
def buildDeclsNil (E : Env) (commentTemplate : String) : List Decl → Result (List Decl)
  | [] => .ok []
  | d :: rest =>
    match buildDeclNil E commentTemplate d with
    | .panic e => .panic e
    | .ok d1 =>
      match buildDeclsNil E commentTemplate rest with
      | .panic e => .panic e
      | .ok rest1 => .ok (d1 :: rest1)

/-- Function `buildComments`.  `ast.NewCommentMap` returns a nil map for an
empty comment list (`if len(comments) == 0 { return nil }`); reading a nil
map gives nothing, so that `cmap.Filter(af).Comments()` is then empty. -/
def buildComments (E : Env) (af : File) (commentTemplate : String) : Result File :=
  if af.Comments.length = 0 then
    match buildDeclsNil E commentTemplate af.Decls with
    | .panic e => .panic e
    | .ok decls => .ok { af with Decls := decls, Comments := [] }
  else
    let cmap := E.NewCommentMap af
    match buildDecls E commentTemplate 0 af.Decls cmap with
    | .panic e => .panic e
    | .ok (decls, cmap1) =>
      .ok { af with Decls := decls, Comments := (cmap1.Filter decls).Comments }

/-- The comment `parseFile` injects into a file without comments. -/
def injectedComment : CommentGroup := ⟨⟨-1, "// gocmt"⟩, []⟩

/-- Function `parseFile`, given what `parser.ParseFile` returned: the error
is passed on; a file without comments is given the injected comment, which
the deferred function removes again with `af.Comments[1:]`. -/
def parseFile (E : Env) (parsed : Except String File) (template : String) :
    Result (Except String File) :=
  match parsed with
  | .error err => .ok (.error err)
  | .ok af =>
    if af.Comments.length = 0 then
      match buildComments E { af with Comments := [injectedComment] }
          (E.commentBase ++ template) with
      | .panic e => .panic e
      | .ok af1 =>
        match af1.Comments with
        | [] => .panic .sliceBounds
        | _ :: cs => .ok (.ok { af1 with Comments := cs })
    else
      match buildComments E af (E.commentBase ++ template) with
      | .panic e => .panic e
      | .ok af1 => .ok (.ok af1)

/-! ## The rendered text, line by line -/

/-- The text `%v` prints for the type of a field. -/
def fmtType (t : Option Expr) : String :=
  match t with
  | none => "<nil>"
  | some e => fmtV e

/-- The lines of a comment text after its first: each goes on a new line. -/
def concatLines : List String → String
  | [] => ""
  | l :: ls => "\n" ++ l ++ concatLines ls

/-- The line of one named parameter or result. -/
def nameLine (t : Option Expr) (name : Ident) : String :=
  "// @" ++ name.Name ++ ": " ++ fmtType t

/-- The parameter lines: one per name of each field, in order. -/
def paramLines (params : Option FieldList) : List String :=
  match params with
  | none => []
  | some ps => (ps.List.map (fun v => v.Names.map (nameLine v.Typ))).flatten

/-- The lines of one result field with the counter at `index`: one `#index`
line for a field without names, one `@name` line per name otherwise. -/
def resultFieldLines (index : Int) (v : Field) : List String :=
  if v.Names = [] then ["// #" ++ fmtInt index ++ ": " ++ fmtType v.Typ]
  else v.Names.map (nameLine v.Typ)

/-- The result section: the `returns:` line and the lines of the result
fields in order, every unnamed field printed with index 1. -/
def resultLines (results : Option FieldList) : List String :=
  match results with
  | none => []
  | some rs => "// returns:" :: (rs.List.map (resultFieldLines 1)).flatten

/-! ## Predicates of the specification -/

/-- The doc is absent or a placeholder: it is nil, or the trimmed text of
the group equals `name`. -/
def IsNilOrName (doc : Option CommentGroup) (name : String) : Prop :=
  doc = none ∨ ∃ g t, doc = some g ∧ g.Text = .ok (some t) ∧ TrimSpace t = name

/-- The doc is meaningful: it is present, its text can be read, and the
trimmed text differs from `name`. -/
def IsMeaningful (doc : Option CommentGroup) (name : String) : Prop :=
  ∃ g t, doc = some g ∧ g.Text = .ok t ∧ ∀ s, t = some s → TrimSpace s ≠ name

/-- Whether `Doc.Text()` returns on this doc (it does on a nil doc). -/
def docReadable (doc : Option CommentGroup) : Bool :=
  match doc with
  | none => true
  | some g =>
    match g.Text with
    | .ok _ => true
    | .panic _ => false

/-- The declaration is a CONST or VAR declaration. -/
def GenDecl.isValue (gd : GenDecl) : Bool :=
  gd.Tok = .CONST || gd.Tok = .VAR

/-- The declaration is written without parentheses. -/
def GenDecl.ungrouped (gd : GenDecl) : Bool :=
  gd.Lparen = NoPos && gd.Rparen = NoPos

/-- The doc of a spec of a parenthesized CONST or VAR declaration. -/
def Spec.valueDoc : Spec → Option CommentGroup
  | .Value vs => vs.Doc
  | _ => none

/-- The docs `buildComments` reads on a declaration: the doc of a function,
of a TYPE declaration, of a CONST or VAR declaration without parentheses,
and the docs of the specs of one with parentheses. -/
def visitedDocs : Decl → List (Option CommentGroup)
  | .Func fd => [fd.Doc]
  | .Gen gd =>
    match gd.Tok with
    | .TYPE => [gd.Doc]
    | .IMPORT => []
    | _ => if gd.ungrouped then [gd.Doc] else gd.Specs.map Spec.valueDoc
  | .Bad _ _ => []

/-- Every doc `buildComments` reads on the declarations can be read. -/
def docsReadable (decls : List Decl) : Prop :=
  ∀ d ∈ decls, ∀ doc ∈ visitedDocs d, docReadable doc = true

/-- The registry holds, for the declaration `Decls[i]`, the one-element list
of its doc at each node `buildComments` assigns: the declaration itself for
a function, a TYPE declaration and a CONST or VAR declaration without
parentheses, each spec (a value spec) for one with parentheses. -/
def registryHolds (c : CommentMap) (i : Nat) : Decl → Prop
  | .Func fd => ∃ g, fd.Doc = some g ∧ c.get (.decl i) = some [g]
  | .Gen gd =>
    match gd.Tok with
    | .IMPORT => True
    | .TYPE => ∃ g, gd.Doc = some g ∧ c.get (.decl i) = some [g]
    | _ =>
      if gd.ungrouped = true then ∃ g, gd.Doc = some g ∧ c.get (.decl i) = some [g]
      else
        ∀ j s, gd.Specs.get? j = some s →
          ∃ vs g, s = .Value vs ∧ vs.Doc = some g ∧ c.get (.spec i j) = some [g]
  | .Bad _ _ => True

/-- Whether the body of the loop of `buildComments` reaches an assignment
`cmap[...] = ...` for the declaration, when nothing panics before. -/
def Decl.assigns : Decl → Bool
  | .Func _ => true
  | .Gen gd =>
    match gd.Tok with
    | .IMPORT => false
    | .TYPE => true
    | _ => gd.ungrouped || !gd.Specs.isEmpty
  | .Bad _ _ => false

/-- The declaration is neither a function nor a CONST, VAR or TYPE
declaration: a bad declaration, or a general declaration with another token
(an import declaration). -/
def Decl.isOther : Decl → Bool
  | .Func _ => false
  | .Gen gd => decide (gd.Tok ≠ .CONST ∧ gd.Tok ≠ .VAR ∧ gd.Tok ≠ .TYPE)
  | .Bad _ _ => true

/-- A spec without the doc `buildComments` may write on it: the doc of a
value spec is set to nil. -/
def Spec.withoutValueDoc : Spec → Spec
  | .Value vs => .Value { vs with Doc := none }
  | s => s

/-- A declaration without the docs `buildComments` may write on it: the doc
of a function, of a TYPE declaration and of a CONST or VAR declaration
without parentheses, and the docs of the specs of a CONST or VAR declaration
with parentheses, are set to nil; everything else is kept. -/
def Decl.withoutVisitedDocs : Decl → Decl
  | .Func fd => .Func { fd with Doc := none }
  | .Gen gd =>
    match gd.Tok with
    | .IMPORT => .Gen gd
    | .TYPE => .Gen { gd with Doc := none }
    | _ =>
      if gd.ungrouped then .Gen { gd with Doc := none }
      else .Gen { gd with Specs := gd.Specs.map Spec.withoutValueDoc }
  | .Bad f t => .Bad f t

/-- A value spec has at least one name (other specs have no `Names`). -/
def Spec.hasName : Spec → Bool
  | .Value vs => !vs.Names.isEmpty
  | _ => true

/-- The spec is an `*ast.ValueSpec`. -/
def Spec.isValue : Spec → Bool
  | .Value _ => true
  | _ => false

/-- The spec is an `*ast.TypeSpec`. -/
def Spec.isType : Spec → Bool
  | .Typ _ => true
  | _ => false

/-- The precondition on the specs: a TYPE declaration and a CONST or VAR
declaration without parentheses have at least one spec, and every value
spec `buildComments` visits has at least one name. -/
def Decl.specsPresent : Decl → Bool
  | .Func _ => true
  | .Gen gd =>
    match gd.Tok with
    | .IMPORT => true
    | .TYPE => !gd.Specs.isEmpty
    | _ =>
      if gd.ungrouped then
        match gd.Specs with
        | [] => false
        | s :: _ => s.hasName
      else gd.Specs.all Spec.hasName
  | .Bad _ _ => true

/-- The tree is as the parser builds it: a function has a type, the first
spec of a TYPE declaration is a type spec, the first spec of a CONST or VAR
declaration without parentheses and every spec of one with parentheses is a
value spec. -/
def Decl.wellTyped : Decl → Bool
  | .Func fd => fd.Typ.isSome
  | .Gen gd =>
    match gd.Tok with
    | .IMPORT => true
    | .TYPE =>
      match gd.Specs with
      | [] => true
      | s :: _ => s.isType
    | _ =>
      if gd.ungrouped then
        match gd.Specs with
        | [] => true
        | s :: _ => s.isValue
      else gd.Specs.all Spec.isValue
  | .Bad _ _ => true

/-- The comment groups are in non-decreasing order of position. -/
def sortedByPos (l : List CommentGroup) : Prop :=
  l.Pairwise (fun a b => a.Pos ≤ b.Pos)

/-- A position from which the machine subtraction of 1 does not wrap. -/
def posInRange (p : Int) : Prop := -(2 ^ 63) < p ∧ p < 2 ^ 63

/-- The characters of a text that are not white space, in order.  Reading a
comment with `Doc.Text()` and trimming it removes and inserts white space
only, so this part of the comment body survives. -/
def nonSpace (l : List Char) : List Char := l.filter (fun c => !isSpace c)

/-- The text has `/` as its second byte, after a first byte that is not a
percent sign: `Doc.Text()` reads such a comment through the `//` case of its
`switch c[1]`, and a template of that form renders such a text. -/
def startsComment (s : List Char) : Prop :=
  ∃ c0 r, s = c0 :: '/' :: r ∧ c0.utf8Size = 1 ∧ c0 ≠ '%'

/-! ## Shape of a declaration

What is left of a node when every source position stored in it is set to
`NoPos`: two declarations that differ in positions only have the same shape. -/

/-- An identifier without its position. -/
def Ident.erasePos (id : Ident) : Ident := ⟨NoPos, id.Name⟩

/-- An expression without the positions stored in its nodes. -/
def Expr.erasePos : Expr → Expr
  | .ident id => .ident id.erasePos
  | .star a _ x => .star a NoPos x.erasePos
  | .slice a _ e => .slice a NoPos e.erasePos
  | .array a _ l e => .array a NoPos l.erasePos e.erasePos
  | .ellipsis a _ e => .ellipsis a NoPos e.erasePos
  | .selector a x sel => .selector a x.erasePos sel.erasePos
  | .map a _ k v => .map a NoPos k.erasePos v.erasePos
  | .paren a _ x _ => .paren a NoPos x.erasePos NoPos

/-- A field without positions. -/
def Field.erasePos (f : Field) : Field :=
  ⟨f.Names.map Ident.erasePos, f.Typ.map Expr.erasePos⟩

/-- A field list without positions. -/
def FieldList.erasePos (l : FieldList) : FieldList :=
  ⟨NoPos, l.List.map Field.erasePos, NoPos⟩

/-- A comment group without positions. -/
def CommentGroup.erasePos (g : CommentGroup) : CommentGroup :=
  ⟨⟨NoPos, g.first.Text⟩, g.more.map (fun c => ⟨NoPos, c.Text⟩)⟩

/-- A function declaration without positions. -/
def FuncDecl.erasePos (fd : FuncDecl) : FuncDecl :=
  { Doc := fd.Doc.map CommentGroup.erasePos
    Recv := fd.Recv.map FieldList.erasePos
    Name := fd.Name.erasePos
    Typ := fd.Typ.map (fun ft =>
      ⟨NoPos, ft.Params.map FieldList.erasePos, ft.Results.map FieldList.erasePos⟩)
    HasBody := fd.HasBody }

/-! ## Sample inputs -/

/-- The doc of a top-level declaration. -/
def Decl.Doc : Decl → Option CommentGroup
  | .Func fd => fd.Doc
  | .Gen gd => gd.Doc
  | .Bad _ _ => none

/-- The doc of `Decls[i]`, when it is in the comment list, is associated
with `Decls[i]`, from declaration `i` on. -/
def docAssociations (comments : List CommentGroup) : Nat → List Decl → CommentMap
  | _, [] => []
  | i, d :: rest =>
    match d.Doc with
    | some g =>
      if comments.contains g then (.decl i, [g]) :: docAssociations comments (i + 1) rest
      else docAssociations comments (i + 1) rest
    | none => docAssociations comments (i + 1) rest

/-- An environment for evaluating concrete inputs: the two constants as
upstream gocmt declares them, `"// %s "` and `"\t// %s "`; no format
evaluated with it reaches `fmtRest`; of the comment list, the doc of a
top-level declaration is associated with that declaration, and the other
comments (the one injected into a file without comments among them) with
the package name (node `inner 0`).  This is what `ast.NewCommentMap` does
on the sample files below, whose comments are docs of top-level
declarations and the injected comment; it is no model of that function on
other files, nor of `fmt` directives beyond `%s`, `%v`, `%d`. -/
def sampleEnv : Env :=
  { commentBase := "// %s "
    commentIndentedBase := "\t// %s "
    fmtRest := fun _ _ _ => ""
    NewCommentMap := fun af =>
      let docs := af.Decls.filterMap Decl.Doc
      let others := af.Comments.filter (fun g => !docs.contains g)
      (if others.isEmpty then [] else [(.inner 0, others)])
        ++ docAssociations af.Comments 0 af.Decls }

/-- The type name `int`. -/
def tyInt : Expr := .ident ⟨0, "int"⟩

/-- The type name `error`. -/
def tyError : Expr := .ident ⟨0, "error"⟩

/-- Declaration `func F(a, b int)` at offset 10, without a doc. -/
def funcAB : FuncDecl :=
  { Doc := none
    Recv := none
    Name := ⟨15, "F"⟩
    Typ := some
      { Func := 10
        Params := some ⟨16, [⟨[⟨17, "a"⟩, ⟨20, "b"⟩], some tyInt⟩], 25⟩
        Results := none }
    HasBody := false }

/-- Declaration `func F() (x int, error)` at offset 10, without a doc. -/
def funcNamedThenUnnamed : FuncDecl :=
  { Doc := none
    Recv := none
    Name := ⟨15, "F"⟩
    Typ := some
      { Func := 10
        Params := some ⟨16, [], 17⟩
        Results := some ⟨19, [⟨[⟨20, "x"⟩], some tyInt⟩, ⟨[], some tyError⟩], 32⟩ }
    HasBody := false }

/-- Declaration `func F() (int, error)` at offset 10, without a doc. -/
def funcIntError : FuncDecl :=
  { Doc := none
    Recv := none
    Name := ⟨15, "F"⟩
    Typ := some
      { Func := 10
        Params := some ⟨16, [], 17⟩
        Results := some ⟨19, [⟨[], some tyInt⟩, ⟨[], some tyError⟩], 30⟩ }
    HasBody := false }

/-- Declaration `const ( A = 1; B = 2 )`: CONST at offset 20, `(` at 26,
`A` at 29, `B` at 36, `)` at 42, no docs. -/
def constAB : GenDecl :=
  { Doc := none
    TokPos := 20
    Tok := .CONST
    Lparen := 26
    Specs :=
      [.Value ⟨none, [⟨29, "A"⟩], none, [], none⟩,
       .Value ⟨none, [⟨36, "B"⟩], none, [], none⟩]
    Rparen := 42 }

/-- Declaration `const A = 1`: CONST at offset 20, `A` at 26, no doc. -/
def constA : GenDecl :=
  { Doc := none
    TokPos := 20
    Tok := .CONST
    Lparen := NoPos
    Specs := [.Value ⟨none, [⟨26, "A"⟩], none, [], none⟩]
    Rparen := NoPos }

/-- Declaration `func F()` at offset 10 with the doc `// F is documented.`
at offset 1. -/
def funcDocumented : FuncDecl :=
  { Doc := some ⟨⟨1, "// F is documented."⟩, []⟩
    Recv := none
    Name := ⟨15, "F"⟩
    Typ := some { Func := 10, Params := some ⟨16, [], 17⟩, Results := none }
    HasBody := false }

/-- A file `package main` holding the given declarations, without comments
in its comment list. -/
def fileOf (decls : List Decl) : File :=
  { Package := 1, Name := ⟨9, "main"⟩, Decls := decls, Comments := [] }

/-- What `parseFile` makes of the file holding `const ( A = 1; B = 2 )`
with the template `...`. -/
def constABDone : File :=
  { Package := 1
    Name := ⟨9, "main"⟩
    Decls :=
      [.Gen
        { constAB with
          Specs :=
            [.Value ⟨some ⟨⟨28, "\t// A ..."⟩, []⟩, [⟨29, "A"⟩], none, [], none⟩,
             .Value ⟨some ⟨⟨35, "\t// B ..."⟩, []⟩, [⟨36, "B"⟩], none, [], none⟩] }]
    Comments := [⟨⟨28, "\t// A ..."⟩, []⟩, ⟨⟨35, "\t// B ..."⟩, []⟩] }

/-- Declaration `func F()` at offset 10, without a doc. -/
def funcBare : FuncDecl :=
  { Doc := none
    Recv := none
    Name := ⟨15, "F"⟩
    Typ := some { Func := 10, Params := some ⟨16, [], 17⟩, Results := none }
    HasBody := false }

/-- Declaration `func F(p *T)` with `func` at offset 10 and the star at
offset `star`, without a doc. -/
def funcStarAt (star : Pos) : FuncDecl :=
  { Doc := none
    Recv := none
    Name := ⟨15, "F"⟩
    Typ := some
      { Func := 10
        Params := some ⟨16, [⟨[⟨17, "p"⟩], some (.star 4096 star (.ident ⟨star + 1, "T"⟩))⟩], 30⟩
        Results := none }
    HasBody := false }

/-- What `parseFile` makes of the file holding `func F()` with the empty
template. -/
def funcBareDone : File :=
  { Package := 1
    Name := ⟨9, "main"⟩
    Decls := [.Func { funcBare with Doc := some ⟨⟨9, "// F "⟩, []⟩ }]
    Comments := [⟨⟨9, "// F "⟩, []⟩] }

/-- The file holding the documented `func F()`, its doc in the comment
list. -/
def fileDocumented : File :=
  { fileOf [.Func funcDocumented] with Comments := [⟨⟨1, "// F is documented."⟩, []⟩] }

/-- The file holding `const A = 1` as `parseFile` hands it to `buildComments`:
the injected comment is its comment list. -/
def fileConstA : File :=
  { fileOf [.Gen constA] with Comments := [injectedComment] }

/-- What `buildComments` makes of `fileConstA` with the template `%s`: the
doc is the one-byte comment `A`. -/
def constADone : File :=
  { Package := 1
    Name := ⟨9, "main"⟩
    Decls := [.Gen { constA with Doc := some ⟨⟨19, "A"⟩, []⟩ }]
    Comments := [injectedComment, ⟨⟨19, "A"⟩, []⟩] }

/-- Declaration `import "fmt"` at offset 14. -/
def importFmt : GenDecl :=
  { Doc := none
    TokPos := 14
    Tok := .IMPORT
    Lparen := NoPos
    Specs := [.Import ⟨none, none, "\"fmt\"", none⟩]
    Rparen := NoPos }

/-- Declaration `func F() ()` at offset 10, without a doc: the result list
is present and empty. -/
def funcEmptyResults : FuncDecl :=
  { Doc := none
    Recv := none
    Name := ⟨15, "F"⟩
    Typ := some { Func := 10, Params := some ⟨16, [], 17⟩, Results := some ⟨19, [], 20⟩ }
    HasBody := false }

/-- Declaration `type ( T int; U int )`: TYPE at offset 20, `(` at 25, `T`
at 27, `U` at 34, `)` at 40, no docs. -/
def typeTU : GenDecl :=
  { Doc := none
    TokPos := 20
    Tok := .TYPE
    Lparen := 25
    Specs :=
      [.Typ ⟨none, ⟨27, "T"⟩, NoPos, tyInt, none⟩,
       .Typ ⟨none, ⟨34, "U"⟩, NoPos, tyInt, none⟩]
    Rparen := 40 }

/-- Declaration `type ()`: TYPE at offset 20, `(` at 25, `)` at 26, no
specs. -/
def typeEmpty : GenDecl :=
  { Doc := none, TokPos := 20, Tok := .TYPE, Lparen := 25, Specs := [], Rparen := 26 }

/-- Declaration `const ()`: CONST at offset 20, `(` at 26, `)` at 27, no
specs. -/
def constEmpty : GenDecl :=
  { Doc := none, TokPos := 20, Tok := .CONST, Lparen := 26, Specs := [], Rparen := 27 }

/-- The file holding `const ( A = 1; B = 2 )` as `parseFile` hands it to
`buildComments`: the injected comment is its comment list. -/
def fileConstAB : File :=
  { fileOf [.Gen constAB] with Comments := [injectedComment] }

/-- What `buildComments` makes of `fileConstAB` with the template
`// %s ...`. -/
def fileConstABDone : File :=
  { constABDone with Comments := injectedComment :: constABDone.Comments }

/-! ## Library facts -/

theorem sprintf_nameLine (E : Env) (name : Ident) (t : Option Expr) :
    Sprintf E "\n// @%v: %v" [.ident name, .expr t] = "\n" ++ nameLine t name := by
  apply String.ext
  cases t <;> simp [Sprintf, doPrintf, renderVerb, nameLine, fmtType, extraArgs]

theorem sprintf_indexLine (E : Env) (n : Int) (t : Option Expr) :
    Sprintf E "\n// #%d: %v" [.int n, .expr t]
      = "\n" ++ ("// #" ++ fmtInt n ++ ": " ++ fmtType t) := by
  apply String.ext
  cases t <;> simp [Sprintf, doPrintf, renderVerb, fmtType, extraArgs]

theorem concatLines_append (a b : List String) :
    concatLines (a ++ b) = concatLines a ++ concatLines b := by
  induction a with
  | nil => simp [concatLines]
  | cons x xs ih => simp [concatLines, ih, String.append_assoc]

theorem foldl_concatLines {α : Type} (f : α → List String) (l : List α) (text : String) :
    l.foldl (fun text x => text ++ concatLines (f x)) text
      = text ++ concatLines (l.map f).flatten := by
  induction l generalizing text with
  | nil => simp [concatLines]
  | cons x xs ih =>
    rw [List.foldl_cons, ih, List.map_cons, List.flatten_cons, concatLines_append,
      String.append_assoc]

theorem foldl_nameLines (E : Env) (t : Option Expr) (names : List Ident) (text : String) :
    names.foldl
        (fun text name => text ++ Sprintf E "\n// @%v: %v" [.ident name, .expr t]) text
      = text ++ concatLines (names.map (nameLine t)) := by
  have h : (fun (text : String) (name : Ident) =>
        text ++ Sprintf E "\n// @%v: %v" [.ident name, .expr t])
      = (fun text name => text ++ concatLines [nameLine t name]) := by
    funext text name
    simp [sprintf_nameLine, concatLines]
  rw [h, foldl_concatLines]
  congr 2
  induction names with
  | nil => rfl
  | cons n ns ih => simp [ih]

theorem addParamLines_eq (E : Env) (text : String) (params : Option FieldList) :
    addParamLines E text params = text ++ concatLines (paramLines params) := by
  cases params with
  | none => simp [addParamLines, paramLines, concatLines]
  | some ps =>
    simp only [addParamLines, paramLines, foldl_nameLines]
    exact foldl_concatLines _ _ _

theorem resultField_step (E : Env) (text : String) (v : Field) :
    (if v.Names.length = 0 then
        text ++ Sprintf E "\n// #%d: %v" [.int 1, .expr v.Typ]
      else
        v.Names.foldl
          (fun text name => text ++ Sprintf E "\n// @%v: %v" [.ident name, .expr v.Typ])
          text)
      = text ++ concatLines (resultFieldLines 1 v) := by
  by_cases h : v.Names = []
  · simp [h, resultFieldLines, sprintf_indexLine, concatLines]
  · have h2 : v.Names.length ≠ 0 := by simpa using h
    simp [h, h2, resultFieldLines, foldl_nameLines]

theorem addResultLines_eq (E : Env) (text : String) (results : Option FieldList) :
    addResultLines E text results = text ++ concatLines (resultLines results) := by
  cases results with
  | none => simp [addResultLines, resultLines, concatLines]
  | some rs =>
    simp only [addResultLines, resultLines, concatLines, resultField_step]
    rw [foldl_concatLines, String.append_assoc]
    rfl

/-! ## The four rewriting functions -/

theorem funcDeclText_eq (E : Env) (fd : FuncDecl) (ft : FuncType) (T : String)
    (hT : fd.Typ = some ft) :
    funcDeclText E fd T
      = Sprintf E T [.ident fd.Name] ++ concatLines (paramLines ft.Params)
          ++ concatLines (resultLines ft.Results) := by
  simp [funcDeclText, hT, addResultLines_eq, addParamLines_eq]

theorem addFuncDeclComment_rewrite (E : Env) (fd : FuncDecl) (ft : FuncType) (T : String)
    (hT : fd.Typ = some ft)
    (hg : docIsNilOrName fd.Doc (.ok fd.Name.Name) = .ok true) :
    addFuncDeclComment E fd T
      = .ok { fd with Doc := some ⟨⟨posMinusOne ft.Pos, funcDeclText E fd T⟩, []⟩ } := by
  simp [addFuncDeclComment, hg, FuncDecl.Pos, hT]

theorem guard_of_isNilOrName (doc : Option CommentGroup) (name : String)
    (h : IsNilOrName doc name) : docIsNilOrName doc (.ok name) = .ok true := by
  rcases h with h | ⟨g, t, hd, ht, hn⟩
  · simp [docIsNilOrName, h]
  · simp [docIsNilOrName, hd, ht, hn]

theorem guard_of_isMeaningful (doc : Option CommentGroup) (name : String)
    (h : IsMeaningful doc name) : docIsNilOrName doc (.ok name) = .ok false := by
  obtain ⟨g, t, hd, ht, hn⟩ := h
  cases t with
  | none => simp [docIsNilOrName, hd, ht]
  | some s => simp [docIsNilOrName, hd, ht, hn s rfl]

theorem isNilOrName_of_guard (doc : Option CommentGroup) (name : String)
    (h : docIsNilOrName doc (.ok name) = .ok true) : IsNilOrName doc name := by
  cases doc with
  | none => exact Or.inl rfl
  | some g =>
    right
    simp only [docIsNilOrName] at h
    cases ht : g.Text with
    | panic e => simp [ht] at h
    | ok t =>
      cases t with
      | none => simp [ht] at h
      | some s =>
        simp only [ht, Result.ok.injEq, beq_iff_eq] at h
        exact ⟨g, s, rfl, ht, h⟩

theorem isMeaningful_of_guard (doc : Option CommentGroup) (name : String)
    (h : docIsNilOrName doc (.ok name) = .ok false) : IsMeaningful doc name := by
  cases doc with
  | none => simp [docIsNilOrName] at h
  | some g =>
    simp only [docIsNilOrName] at h
    cases ht : g.Text with
    | panic e => simp [ht] at h
    | ok t =>
      refine ⟨g, t, rfl, ht, ?_⟩
      intro s hs
      subst hs
      simpa [ht] using h

theorem wrapInt_eq (x : Int) (h1 : -(2 ^ 63) ≤ x) (h2 : x < 2 ^ 63) : wrapInt x = x := by
  unfold wrapInt
  have e : ((x + 2 ^ 63) % 2 ^ 64 : Int) = x + 2 ^ 63 := by
    apply Int.emod_eq_of_lt
    · norm_num at h1 ⊢
      omega
    · norm_num at h2 ⊢
      omega
  rw [e]
  ring

theorem posMinusOne_eq (p : Int) (h : posInRange p) : posMinusOne p = p - 1 := by
  obtain ⟨h1, h2⟩ := h
  exact wrapInt_eq (p - 1)
    (by norm_num at h1 ⊢; omega) (by norm_num at h2 ⊢; omega)

theorem valueSpecName_cons (vs : ValueSpec) (n : Ident) (ns : List Ident)
    (h : vs.Names = n :: ns) : valueSpecName vs = .ok n.Name := by
  simp [valueSpecName, firstName, h]

theorem funcDecl_pos_ok (fd : FuncDecl) (p : Int) (h : fd.Pos = .ok p) :
    ∃ ft, fd.Typ = some ft ∧ ft.Pos = p := by
  cases hT : fd.Typ with
  | none => simp [FuncDecl.Pos, hT] at h
  | some ft =>
    simp only [FuncDecl.Pos, hT, Result.ok.injEq] at h
    exact ⟨ft, rfl, h⟩

theorem addFuncDeclComment_keep (E : Env) (fd : FuncDecl) (T : String)
    (hg : docIsNilOrName fd.Doc (.ok fd.Name.Name) = .ok false) :
    addFuncDeclComment E fd T = .ok fd := by
  simp [addFuncDeclComment, hg]

theorem addTypeSpecComment_rewrite (E : Env) (gd : GenDecl) (ts : TypeSpec) (T : String)
    (hg : docIsNilOrName gd.Doc (.ok ts.Name.Name) = .ok true) :
    addTypeSpecComment E gd ts T
      = .ok { gd with
          Doc := some ⟨⟨posMinusOne gd.Pos, Sprintf E T [.str ts.Name.Name]⟩, []⟩ } := by
  simp [addTypeSpecComment, hg]

theorem addTypeSpecComment_keep (E : Env) (gd : GenDecl) (ts : TypeSpec) (T : String)
    (hg : docIsNilOrName gd.Doc (.ok ts.Name.Name) = .ok false) :
    addTypeSpecComment E gd ts T = .ok gd := by
  simp [addTypeSpecComment, hg]

theorem addValueSpecComment_rewrite (E : Env) (gd : GenDecl) (vs : ValueSpec) (T : String)
    (n : Ident) (ns : List Ident) (hn : vs.Names = n :: ns)
    (hg : docIsNilOrName gd.Doc (.ok n.Name) = .ok true) :
    addValueSpecComment E gd vs T
      = .ok { gd with
          Doc := some ⟨⟨posMinusOne gd.Pos, Sprintf E T [.str n.Name]⟩, []⟩ } := by
  simp [addValueSpecComment, valueSpecName_cons vs n ns hn, hg]

theorem addValueSpecComment_keep (E : Env) (gd : GenDecl) (vs : ValueSpec) (T : String)
    (n : Ident) (ns : List Ident) (hn : vs.Names = n :: ns)
    (hg : docIsNilOrName gd.Doc (.ok n.Name) = .ok false) :
    addValueSpecComment E gd vs T = .ok gd := by
  simp [addValueSpecComment, valueSpecName_cons vs n ns hn, hg]

theorem addParenValueSpecComment_rewrite (E : Env) (vs : ValueSpec) (T : String)
    (n : Ident) (ns : List Ident) (hn : vs.Names = n :: ns)
    (hg : docIsNilOrName vs.Doc (.ok n.Name) = .ok true) :
    addParenValueSpecComment E vs T
      = .ok { vs with
          Doc := some ⟨⟨posMinusOne n.NamePos,
            Sprintf E (ReplaceFirst T E.commentBase E.commentIndentedBase)
              [.str n.Name]⟩, []⟩ } := by
  simp [addParenValueSpecComment, valueSpecName_cons vs n ns hn, hg, ValueSpec.Pos,
    firstName, hn]

theorem addParenValueSpecComment_keep (E : Env) (vs : ValueSpec) (T : String)
    (n : Ident) (ns : List Ident) (hn : vs.Names = n :: ns)
    (hg : docIsNilOrName vs.Doc (.ok n.Name) = .ok false) :
    addParenValueSpecComment E vs T = .ok vs := by
  simp [addParenValueSpecComment, valueSpecName_cons vs n ns hn, hg]

/-! ## The loops of `buildComments` -/

theorem buildSpecs_get (E : Env) (T : String) (i : Nat) (specs : List Spec) :
    ∀ (j0 : Nat) (cmap : CommentMap) (specs1 : List Spec) (cmap1 : CommentMap),
      buildSpecs E T i j0 specs cmap = .ok (specs1, cmap1) →
      specs1.length = specs.length ∧
      ∀ (j : Nat) (s : Spec), specs.get? j = some s →
        ∃ vs vs1, s = .Value vs ∧ addParenValueSpecComment E vs T = .ok vs1 ∧
          specs1.get? j = some (.Value vs1) := by
  induction specs with
  | nil =>
    intro j0 cmap specs1 cmap1 h
    simp only [buildSpecs, Result.ok.injEq, Prod.mk.injEq] at h
    obtain ⟨h1, _⟩ := h
    subst h1
    simp
  | cons sp rest ih =>
    intro j0 cmap specs1 cmap1 h
    cases sp with
    | Import x => simp [buildSpecs] at h
    | Typ x => simp [buildSpecs] at h
    | Value vs =>
      simp only [buildSpecs] at h
      cases ha : addParenValueSpecComment E vs T with
      | panic e => simp [ha] at h
      | ok vs1 =>
        simp only [ha] at h
        cases hr : buildSpecs E T i (j0 + 1) rest
            (CommentMap.set cmap (.spec i j0) (docEntry vs1.Doc)) with
        | panic e => simp [hr] at h
        | ok pr =>
          obtain ⟨rest1, cm⟩ := pr
          simp only [hr, Result.ok.injEq, Prod.mk.injEq] at h
          obtain ⟨h1, _⟩ := h
          subst h1
          obtain ⟨hl, hget⟩ := ih _ _ _ _ hr
          refine ⟨by simp [hl], ?_⟩
          intro j s hs
          cases j with
          | zero =>
            simp only [List.get?_cons_zero, Option.some.injEq] at hs
            subst hs
            exact ⟨vs, vs1, rfl, ha, by simp⟩
          | succ k =>
            simp only [List.get?_cons_succ] at hs ⊢
            exact hget k s hs

theorem buildDecls_get (E : Env) (T : String) (decls : List Decl) :
    ∀ (i0 : Nat) (cmap : CommentMap) (decls1 : List Decl) (cmap1 : CommentMap),
      buildDecls E T i0 decls cmap = .ok (decls1, cmap1) →
      decls1.length = decls.length ∧
      ∀ (i : Nat) (d : Decl), decls.get? i = some d →
        ∃ c d1 c1, buildDecl E T (i0 + i) d c = .ok (d1, c1) ∧
          decls1.get? i = some d1 := by
  induction decls with
  | nil =>
    intro i0 cmap decls1 cmap1 h
    simp only [buildDecls, Result.ok.injEq, Prod.mk.injEq] at h
    obtain ⟨h1, _⟩ := h
    subst h1
    simp
  | cons d rest ih =>
    intro i0 cmap decls1 cmap1 h
    simp only [buildDecls] at h
    cases hd : buildDecl E T i0 d cmap with
    | panic e => simp [hd] at h
    | ok pr =>
      obtain ⟨d1, cm⟩ := pr
      simp only [hd] at h
      cases hr : buildDecls E T (i0 + 1) rest cm with
      | panic e => simp [hr] at h
      | ok pr2 =>
        obtain ⟨rest1, cm2⟩ := pr2
        simp only [hr, Result.ok.injEq, Prod.mk.injEq] at h
        obtain ⟨h1, _⟩ := h
        subst h1
        obtain ⟨hl, hget⟩ := ih _ _ _ _ hr
        refine ⟨by simp [hl], ?_⟩
        intro i x hx
        cases i with
        | zero =>
          simp only [List.get?_cons_zero, Option.some.injEq] at hx
          subst hx
          exact ⟨cmap, d1, cm, by simpa using hd, by simp⟩
        | succ k =>
          simp only [List.get?_cons_succ] at hx ⊢
          obtain ⟨c, y, c1, hy, hy2⟩ := hget k x hx
          exact ⟨c, y, c1, by rw [← hy]; congr 1; omega, hy2⟩

theorem buildDeclNil_ok (E : Env) (T : String) (d d1 : Decl)
    (h : buildDeclNil E T d = .ok d1) :
    d1 = d ∧ ∀ (i : Nat) (c : CommentMap), buildDecl E T i d c = .ok (d, c) := by
  cases d with
  | Bad f t =>
    simp only [buildDeclNil, Result.ok.injEq] at h
    exact ⟨h.symm, fun i c => rfl⟩
  | Func fd =>
    simp only [buildDeclNil] at h
    cases ha : addFuncDeclComment E fd T with
    | panic e => simp [ha] at h
    | ok fd1 => simp [ha] at h
  | Gen gd =>
    cases hk : gd.Tok with
    | IMPORT =>
      simp only [buildDeclNil, hk, Result.ok.injEq] at h
      exact ⟨h.symm, fun i c => by simp [buildDecl, hk]⟩
    | TYPE =>
      simp only [buildDeclNil, hk] at h
      cases hf : firstTypeSpec gd with
      | panic e => simp [hf] at h
      | ok ts =>
        simp only [hf] at h
        cases ha : addTypeSpecComment E gd ts T with
        | panic e => simp [ha] at h
        | ok gd1 => simp [ha] at h
    | CONST =>
      simp only [buildDeclNil, hk] at h
      by_cases hu : gd.Lparen = NoPos ∧ gd.Rparen = NoPos
      · simp only [hu, and_self, if_true] at h
        cases hf : firstValueSpec gd with
        | panic e => simp [hf] at h
        | ok vs =>
          simp only [hf] at h
          cases ha : addValueSpecComment E gd vs T with
          | panic e => simp [ha] at h
          | ok gd1 => simp [ha] at h
      · simp only [hu, if_false] at h
        cases hs : gd.Specs with
        | nil =>
          simp only [hs, Result.ok.injEq] at h
          refine ⟨h.symm, fun i c => ?_⟩
          cases gd
          simp_all [buildDecl, buildSpecs]
        | cons sp rest =>
          cases sp with
          | Import x => simp [hs] at h
          | Typ x => simp [hs] at h
          | Value vs =>
            simp only [hs] at h
            cases ha : addParenValueSpecComment E vs T with
            | panic e => simp [ha] at h
            | ok vs1 => simp [ha] at h
    | VAR =>
      simp only [buildDeclNil, hk] at h
      by_cases hu : gd.Lparen = NoPos ∧ gd.Rparen = NoPos
      · simp only [hu, and_self, if_true] at h
        cases hf : firstValueSpec gd with
        | panic e => simp [hf] at h
        | ok vs =>
          simp only [hf] at h
          cases ha : addValueSpecComment E gd vs T with
          | panic e => simp [ha] at h
          | ok gd1 => simp [ha] at h
      · simp only [hu, if_false] at h
        cases hs : gd.Specs with
        | nil =>
          simp only [hs, Result.ok.injEq] at h
          refine ⟨h.symm, fun i c => ?_⟩
          cases gd
          simp_all [buildDecl, buildSpecs]
        | cons sp rest =>
          cases sp with
          | Import x => simp [hs] at h
          | Typ x => simp [hs] at h
          | Value vs =>
            simp only [hs] at h
            cases ha : addParenValueSpecComment E vs T with
            | panic e => simp [ha] at h
            | ok vs1 => simp [ha] at h

theorem buildDeclsNil_ok (E : Env) (T : String) (decls : List Decl) :
    ∀ decls1 : List Decl, buildDeclsNil E T decls = .ok decls1 →
      decls1 = decls ∧
      ∀ (i : Nat) (c : CommentMap), buildDecls E T i decls c = .ok (decls, c) := by
  induction decls with
  | nil =>
    intro decls1 h
    simp only [buildDeclsNil, Result.ok.injEq] at h
    exact ⟨h.symm, fun i c => rfl⟩
  | cons d rest ih =>
    intro decls1 h
    simp only [buildDeclsNil] at h
    cases hd : buildDeclNil E T d with
    | panic e => simp [hd] at h
    | ok d1 =>
      simp only [hd] at h
      cases hr : buildDeclsNil E T rest with
      | panic e => simp [hr] at h
      | ok rest1 =>
        simp only [hr, Result.ok.injEq] at h
        obtain ⟨h1, hb1⟩ := buildDeclNil_ok E T d d1 hd
        obtain ⟨h2, hb2⟩ := ih rest1 hr
        subst h1 h2
        exact ⟨h.symm, fun i c => by simp [buildDecls, hb1 i c, hb2 (i + 1) c]⟩

theorem buildComments_decls (E : Env) (af af1 : File) (T : String)
    (h : buildComments E af T = .ok af1) :
    ∃ cmap1, buildDecls E T 0 af.Decls (E.NewCommentMap af) = .ok (af1.Decls, cmap1) := by
  simp only [buildComments] at h
  by_cases hc : af.Comments.length = 0
  · simp only [hc, if_true] at h
    cases hb : buildDeclsNil E T af.Decls with
    | panic e => simp [hb] at h
    | ok ds =>
      simp only [hb, Result.ok.injEq] at h
      obtain ⟨h1, hb1⟩ := buildDeclsNil_ok E T af.Decls ds hb
      subst h
      exact ⟨E.NewCommentMap af, by simpa [h1] using hb1 0 (E.NewCommentMap af)⟩
  · simp only [hc, if_false] at h
    cases hb : buildDecls E T 0 af.Decls (E.NewCommentMap af) with
    | panic e => simp [hb] at h
    | ok pr =>
      obtain ⟨ds, cm⟩ := pr
      simp only [hb, Result.ok.injEq] at h
      subst h
      exact ⟨cm, rfl⟩

theorem buildComments_get (E : Env) (af af1 : File) (T : String)
    (h : buildComments E af T = .ok af1) (i : Nat) (d : Decl)
    (hd : af.Decls.get? i = some d) :
    ∃ c d1 c1, buildDecl E T i d c = .ok (d1, c1) ∧ af1.Decls.get? i = some d1 := by
  obtain ⟨cm, hb⟩ := buildComments_decls E af af1 T h
  obtain ⟨_, hget⟩ := buildDecls_get E T af.Decls 0 _ _ _ hb
  obtain ⟨c, d1, c1, h1, h2⟩ := hget i d hd
  exact ⟨c, d1, c1, by simpa using h1, h2⟩

theorem buildDecl_func (E : Env) (T : String) (i : Nat) (fd fd1 : FuncDecl)
    (cmap : CommentMap) (h : addFuncDeclComment E fd T = .ok fd1) :
    buildDecl E T i (.Func fd) cmap
      = .ok (.Func fd1, cmap.set (.decl i) (docEntry fd1.Doc)) := by
  simp [buildDecl, h]

theorem buildDecl_type (E : Env) (T : String) (i : Nat) (gd gd1 : GenDecl)
    (ts : TypeSpec) (rest : List Spec) (cmap : CommentMap)
    (hk : gd.Tok = .TYPE) (hs : gd.Specs = .Typ ts :: rest)
    (h : addTypeSpecComment E gd ts T = .ok gd1) :
    buildDecl E T i (.Gen gd) cmap
      = .ok (.Gen gd1, cmap.set (.decl i) (docEntry gd1.Doc)) := by
  simp [buildDecl, hk, firstTypeSpec, hs, h]

theorem buildDecl_ungrouped (E : Env) (T : String) (i : Nat) (gd gd1 : GenDecl)
    (vs : ValueSpec) (rest : List Spec) (cmap : CommentMap)
    (hk : gd.isValue = true) (hu : gd.ungrouped = true)
    (hs : gd.Specs = .Value vs :: rest)
    (h : addValueSpecComment E gd vs T = .ok gd1) :
    buildDecl E T i (.Gen gd) cmap
      = .ok (.Gen gd1, cmap.set (.decl i) (docEntry gd1.Doc)) := by
  have hu2 : gd.Lparen = NoPos ∧ gd.Rparen = NoPos := by
    simpa [GenDecl.ungrouped] using hu
  cases hk2 : gd.Tok with
  | IMPORT => simp [GenDecl.isValue, hk2] at hk
  | TYPE => simp [GenDecl.isValue, hk2] at hk
  | CONST => simp [buildDecl, hk2, hu2, firstValueSpec, hs, h]
  | VAR => simp [buildDecl, hk2, hu2, firstValueSpec, hs, h]

theorem buildDecl_grouped (E : Env) (T : String) (i : Nat) (gd : GenDecl) (d1 : Decl)
    (cmap cmap1 : CommentMap)
    (hk : gd.isValue = true) (hu : gd.ungrouped = false)
    (h : buildDecl E T i (.Gen gd) cmap = .ok (d1, cmap1)) :
    ∃ specs1, buildSpecs E T i 0 gd.Specs cmap = .ok (specs1, cmap1) ∧
      d1 = .Gen { gd with Specs := specs1 } := by
  have hu2 : ¬ (gd.Lparen = NoPos ∧ gd.Rparen = NoPos) := by
    simpa [GenDecl.ungrouped] using hu
  cases hk2 : gd.Tok with
  | IMPORT => simp [GenDecl.isValue, hk2] at hk
  | TYPE => simp [GenDecl.isValue, hk2] at hk
  | CONST =>
    simp only [buildDecl, hk2, hu2, if_false] at h
    cases hb : buildSpecs E T i 0 gd.Specs cmap with
    | panic e => simp [hb] at h
    | ok pr =>
      obtain ⟨sp, cm⟩ := pr
      simp only [hb, Result.ok.injEq, Prod.mk.injEq] at h
      exact ⟨sp, by rw [h.2], h.1.symm⟩
  | VAR =>
    simp only [buildDecl, hk2, hu2, if_false] at h
    cases hb : buildSpecs E T i 0 gd.Specs cmap with
    | panic e => simp [hb] at h
    | ok pr =>
      obtain ⟨sp, cm⟩ := pr
      simp only [hb, Result.ok.injEq, Prod.mk.injEq] at h
      exact ⟨sp, by rw [h.2], h.1.symm⟩

theorem buildDecl_grouped_get (E : Env) (T : String) (i : Nat) (gd : GenDecl) (d1 : Decl)
    (cmap cmap1 : CommentMap)
    (hk : gd.isValue = true) (hu : gd.ungrouped = false)
    (h : buildDecl E T i (.Gen gd) cmap = .ok (d1, cmap1))
    (j : Nat) (vs : ValueSpec) (hj : gd.Specs.get? j = some (.Value vs)) :
    ∃ gd1 vs1, d1 = .Gen gd1 ∧ gd1.Specs.length = gd.Specs.length ∧
      addParenValueSpecComment E vs T = .ok vs1 ∧
      gd1.Specs.get? j = some (.Value vs1) := by
  obtain ⟨specs1, hb, hd⟩ := buildDecl_grouped E T i gd d1 cmap cmap1 hk hu h
  obtain ⟨hl, hget⟩ := buildSpecs_get E T i gd.Specs 0 cmap specs1 cmap1 hb
  obtain ⟨vs0, vs1, he, ha, hg⟩ := hget j _ hj
  cases he
  exact ⟨{ gd with Specs := specs1 }, vs1, hd, hl, ha, hg⟩

/-! ## A second application -/

theorem guard_of_readable (g : CommentGroup) (name : String)
    (h : docReadable (some g) = true) :
    ∃ b, docIsNilOrName (some g) (.ok name) = .ok b := by
  simp only [docReadable] at h
  cases ht : g.Text with
  | panic e => simp [ht] at h
  | ok t =>
    cases t with
    | none => exact ⟨false, by simp [docIsNilOrName, ht]⟩
    | some s => exact ⟨TrimSpace s == name, by simp [docIsNilOrName, ht]⟩

theorem addFuncDeclComment_again (E : Env) (fd fd1 : FuncDecl) (T : String)
    (h : addFuncDeclComment E fd T = .ok fd1) (hr : docReadable fd1.Doc = true) :
    addFuncDeclComment E fd1 T = .ok fd1 := by
  cases hg : docIsNilOrName fd.Doc (.ok fd.Name.Name) with
  | panic e => simp [addFuncDeclComment, hg] at h
  | ok b =>
    cases b with
    | false =>
      rw [addFuncDeclComment_keep E fd T hg] at h
      simp only [Result.ok.injEq] at h
      subst h
      exact addFuncDeclComment_keep E fd T hg
    | true =>
      cases hT : fd.Typ with
      | none => simp [addFuncDeclComment, hg, FuncDecl.Pos, hT] at h
      | some ft =>
        rw [addFuncDeclComment_rewrite E fd ft T hT hg] at h
        simp only [Result.ok.injEq] at h
        subst h
        obtain ⟨b2, hb2⟩ := guard_of_readable _ fd.Name.Name hr
        cases b2 with
        | false => exact addFuncDeclComment_keep E _ T hb2
        | true =>
          exact addFuncDeclComment_rewrite E
            { fd with Doc := some ⟨⟨posMinusOne ft.Pos, funcDeclText E fd T⟩, []⟩ }
            ft T hT hb2

theorem addTypeSpecComment_again (E : Env) (gd gd1 : GenDecl) (ts : TypeSpec) (T : String)
    (h : addTypeSpecComment E gd ts T = .ok gd1) (hr : docReadable gd1.Doc = true) :
    addTypeSpecComment E gd1 ts T = .ok gd1 := by
  cases hg : docIsNilOrName gd.Doc (.ok ts.Name.Name) with
  | panic e => simp [addTypeSpecComment, hg] at h
  | ok b =>
    cases b with
    | false =>
      rw [addTypeSpecComment_keep E gd ts T hg] at h
      simp only [Result.ok.injEq] at h
      subst h
      exact addTypeSpecComment_keep E gd ts T hg
    | true =>
      rw [addTypeSpecComment_rewrite E gd ts T hg] at h
      simp only [Result.ok.injEq] at h
      subst h
      obtain ⟨b2, hb2⟩ := guard_of_readable _ ts.Name.Name hr
      cases b2 with
      | false => exact addTypeSpecComment_keep E _ ts T hb2
      | true =>
        exact addTypeSpecComment_rewrite E
          { gd with
            Doc := some ⟨⟨posMinusOne gd.Pos, Sprintf E T [.str ts.Name.Name]⟩, []⟩ }
          ts T hb2

theorem valueSpecName_of_add (E : Env) (gd gd1 : GenDecl) (vs : ValueSpec) (T : String)
    (h : addValueSpecComment E gd vs T = .ok gd1) :
    ∃ n ns, vs.Names = n :: ns := by
  cases hn : vs.Names with
  | cons n ns => exact ⟨n, ns, rfl⟩
  | nil =>
    cases hd : gd.Doc with
    | none => simp [addValueSpecComment, docIsNilOrName, hd, valueSpecName, firstName, hn] at h
    | some g =>
      cases ht : g.Text with
      | panic e =>
        simp [addValueSpecComment, docIsNilOrName, hd, ht] at h
      | ok t =>
        simp [addValueSpecComment, docIsNilOrName, hd, ht, valueSpecName, firstName, hn] at h

theorem addValueSpecComment_again (E : Env) (gd gd1 : GenDecl) (vs : ValueSpec) (T : String)
    (h : addValueSpecComment E gd vs T = .ok gd1) (hr : docReadable gd1.Doc = true) :
    addValueSpecComment E gd1 vs T = .ok gd1 := by
  obtain ⟨n, ns, hn⟩ := valueSpecName_of_add E gd gd1 vs T h
  cases hg : docIsNilOrName gd.Doc (.ok n.Name) with
  | panic e => simp [addValueSpecComment, valueSpecName_cons vs n ns hn, hg] at h
  | ok b =>
    cases b with
    | false =>
      rw [addValueSpecComment_keep E gd vs T n ns hn hg] at h
      simp only [Result.ok.injEq] at h
      subst h
      exact addValueSpecComment_keep E gd vs T n ns hn hg
    | true =>
      rw [addValueSpecComment_rewrite E gd vs T n ns hn hg] at h
      simp only [Result.ok.injEq] at h
      subst h
      obtain ⟨b2, hb2⟩ := guard_of_readable _ n.Name hr
      cases b2 with
      | false => exact addValueSpecComment_keep E _ vs T n ns hn hb2
      | true =>
        exact addValueSpecComment_rewrite E
          { gd with Doc := some ⟨⟨posMinusOne gd.Pos, Sprintf E T [.str n.Name]⟩, []⟩ }
          vs T n ns hn hb2

theorem valueSpecName_of_addParen (E : Env) (vs vs1 : ValueSpec) (T : String)
    (h : addParenValueSpecComment E vs T = .ok vs1) :
    ∃ n ns, vs.Names = n :: ns := by
  cases hn : vs.Names with
  | cons n ns => exact ⟨n, ns, rfl⟩
  | nil =>
    cases hd : vs.Doc with
    | none =>
      simp [addParenValueSpecComment, docIsNilOrName, hd, valueSpecName, firstName, hn] at h
    | some g =>
      cases ht : g.Text with
      | panic e =>
        simp [addParenValueSpecComment, docIsNilOrName, hd, ht] at h
      | ok t =>
        simp [addParenValueSpecComment, docIsNilOrName, hd, ht, valueSpecName, firstName,
          hn] at h

theorem addParenValueSpecComment_again (E : Env) (vs vs1 : ValueSpec) (T : String)
    (h : addParenValueSpecComment E vs T = .ok vs1) (hr : docReadable vs1.Doc = true) :
    addParenValueSpecComment E vs1 T = .ok vs1 := by
  obtain ⟨n, ns, hn⟩ := valueSpecName_of_addParen E vs vs1 T h
  cases hg : docIsNilOrName vs.Doc (.ok n.Name) with
  | panic e => simp [addParenValueSpecComment, valueSpecName_cons vs n ns hn, hg] at h
  | ok b =>
    cases b with
    | false =>
      rw [addParenValueSpecComment_keep E vs T n ns hn hg] at h
      simp only [Result.ok.injEq] at h
      subst h
      exact addParenValueSpecComment_keep E vs T n ns hn hg
    | true =>
      rw [addParenValueSpecComment_rewrite E vs T n ns hn hg] at h
      simp only [Result.ok.injEq] at h
      subst h
      obtain ⟨b2, hb2⟩ := guard_of_readable _ n.Name hr
      cases b2 with
      | false => exact addParenValueSpecComment_keep E _ T n ns hn hb2
      | true =>
        exact addParenValueSpecComment_rewrite E
          { vs with
            Doc := some ⟨⟨posMinusOne n.NamePos,
              Sprintf E (ReplaceFirst T E.commentBase E.commentIndentedBase)
                [.str n.Name]⟩, []⟩ }
          T n ns hn hb2

theorem addTypeSpecComment_shape (E : Env) (gd gd1 : GenDecl) (ts : TypeSpec) (T : String)
    (h : addTypeSpecComment E gd ts T = .ok gd1) :
    ∃ doc, gd1 = { gd with Doc := doc } := by
  cases hg : docIsNilOrName gd.Doc (.ok ts.Name.Name) with
  | panic e => simp [addTypeSpecComment, hg] at h
  | ok b =>
    cases b with
    | false =>
      rw [addTypeSpecComment_keep E gd ts T hg] at h
      simp only [Result.ok.injEq] at h
      exact ⟨gd.Doc, h.symm⟩
    | true =>
      rw [addTypeSpecComment_rewrite E gd ts T hg] at h
      simp only [Result.ok.injEq] at h
      exact ⟨_, h.symm⟩

theorem addValueSpecComment_shape (E : Env) (gd gd1 : GenDecl) (vs : ValueSpec)
    (T : String) (h : addValueSpecComment E gd vs T = .ok gd1) :
    ∃ doc, gd1 = { gd with Doc := doc } := by
  obtain ⟨n, ns, hn⟩ := valueSpecName_of_add E gd gd1 vs T h
  cases hg : docIsNilOrName gd.Doc (.ok n.Name) with
  | panic e => simp [addValueSpecComment, valueSpecName_cons vs n ns hn, hg] at h
  | ok b =>
    cases b with
    | false =>
      rw [addValueSpecComment_keep E gd vs T n ns hn hg] at h
      simp only [Result.ok.injEq] at h
      exact ⟨gd.Doc, h.symm⟩
    | true =>
      rw [addValueSpecComment_rewrite E gd vs T n ns hn hg] at h
      simp only [Result.ok.injEq] at h
      exact ⟨_, h.symm⟩

theorem buildDecl_func_inv (E : Env) (T : String) (i : Nat) (fd : FuncDecl) (d1 : Decl)
    (c c1 : CommentMap) (h : buildDecl E T i (.Func fd) c = .ok (d1, c1)) :
    ∃ fd1, addFuncDeclComment E fd T = .ok fd1 ∧ d1 = .Func fd1 := by
  simp only [buildDecl] at h
  cases ha : addFuncDeclComment E fd T with
  | panic e => simp [ha] at h
  | ok fd1 =>
    simp only [ha, Result.ok.injEq, Prod.mk.injEq] at h
    exact ⟨fd1, rfl, h.1.symm⟩

theorem buildDecl_type_inv (E : Env) (T : String) (i : Nat) (gd : GenDecl) (d1 : Decl)
    (c c1 : CommentMap) (hk : gd.Tok = .TYPE)
    (h : buildDecl E T i (.Gen gd) c = .ok (d1, c1)) :
    ∃ ts rest gd1, gd.Specs = .Typ ts :: rest ∧
      addTypeSpecComment E gd ts T = .ok gd1 ∧ d1 = .Gen gd1 := by
  simp only [buildDecl, hk] at h
  cases hs : gd.Specs with
  | nil => simp [firstTypeSpec, hs] at h
  | cons sp rest =>
    cases sp with
    | Import x => simp [firstTypeSpec, hs] at h
    | Value x => simp [firstTypeSpec, hs] at h
    | Typ ts =>
      simp only [firstTypeSpec, hs] at h
      cases ha : addTypeSpecComment E gd ts T with
      | panic e => simp [ha] at h
      | ok gd1 =>
        simp only [ha, Result.ok.injEq, Prod.mk.injEq] at h
        exact ⟨ts, rest, gd1, rfl, ha, h.1.symm⟩

theorem buildDecl_ungrouped_inv (E : Env) (T : String) (i : Nat) (gd : GenDecl) (d1 : Decl)
    (c c1 : CommentMap) (hk : gd.isValue = true) (hu : gd.ungrouped = true)
    (h : buildDecl E T i (.Gen gd) c = .ok (d1, c1)) :
    ∃ vs rest gd1, gd.Specs = .Value vs :: rest ∧
      addValueSpecComment E gd vs T = .ok gd1 ∧ d1 = .Gen gd1 := by
  have hu2 : gd.Lparen = NoPos ∧ gd.Rparen = NoPos := by
    simpa [GenDecl.ungrouped] using hu
  have h2 : (match firstValueSpec gd with
      | .panic e => Result.panic e
      | .ok vs =>
        match addValueSpecComment E gd vs T with
        | .panic e => .panic e
        | .ok gd1 => .ok (Decl.Gen gd1, CommentMap.set c (.decl i) (docEntry gd1.Doc)))
      = .ok (d1, c1) := by
    cases hk2 : gd.Tok with
    | IMPORT => simp [GenDecl.isValue, hk2] at hk
    | TYPE => simp [GenDecl.isValue, hk2] at hk
    | CONST => simpa [buildDecl, hk2, hu2] using h
    | VAR => simpa [buildDecl, hk2, hu2] using h
  cases hs : gd.Specs with
  | nil => simp [firstValueSpec, hs] at h2
  | cons sp rest =>
    cases sp with
    | Import x => simp [firstValueSpec, hs] at h2
    | Typ x => simp [firstValueSpec, hs] at h2
    | Value vs =>
      simp only [firstValueSpec, hs] at h2
      cases ha : addValueSpecComment E gd vs T with
      | panic e => simp [ha] at h2
      | ok gd1 =>
        simp only [ha, Result.ok.injEq, Prod.mk.injEq] at h2
        exact ⟨vs, rest, gd1, rfl, ha, h2.1.symm⟩

theorem buildDecl_grouped_of (E : Env) (T : String) (i : Nat) (gd : GenDecl)
    (specs1 : List Spec) (c c1 : CommentMap)
    (hk : gd.isValue = true) (hu : gd.ungrouped = false)
    (h : buildSpecs E T i 0 gd.Specs c = .ok (specs1, c1)) :
    buildDecl E T i (.Gen gd) c = .ok (.Gen { gd with Specs := specs1 }, c1) := by
  have hu2 : ¬ (gd.Lparen = NoPos ∧ gd.Rparen = NoPos) := by
    simpa [GenDecl.ungrouped] using hu
  cases hk2 : gd.Tok with
  | IMPORT => simp [GenDecl.isValue, hk2] at hk
  | TYPE => simp [GenDecl.isValue, hk2] at hk
  | CONST => simp [buildDecl, hk2, hu2, h]
  | VAR => simp [buildDecl, hk2, hu2, h]

theorem visitedDocs_grouped (gd : GenDecl) (specs1 : List Spec)
    (hv : gd.isValue = true) (hu : gd.ungrouped = false) :
    visitedDocs (.Gen { gd with Specs := specs1 }) = specs1.map Spec.valueDoc := by
  have hu1 : GenDecl.ungrouped { gd with Specs := specs1 } = false := hu
  unfold visitedDocs
  simp only [hu1]
  cases hk : gd.Tok with
  | IMPORT => simp [GenDecl.isValue, hk] at hv
  | TYPE => simp [GenDecl.isValue, hk] at hv
  | CONST => simp
  | VAR => simp

theorem buildSpecs_again (E : Env) (T : String) (i : Nat) (specs : List Spec) :
    ∀ (j : Nat) (c : CommentMap) (specs1 : List Spec) (c1 : CommentMap),
      buildSpecs E T i j specs c = .ok (specs1, c1) →
      (∀ doc ∈ specs1.map Spec.valueDoc, docReadable doc = true) →
      ∀ c2, ∃ c3, buildSpecs E T i j specs1 c2 = .ok (specs1, c3) := by
  induction specs with
  | nil =>
    intro j c specs1 c1 h _ c2
    simp only [buildSpecs, Result.ok.injEq, Prod.mk.injEq] at h
    obtain ⟨h1, _⟩ := h
    subst h1
    exact ⟨c2, rfl⟩
  | cons sp rest ih =>
    intro j c specs1 c1 h hr c2
    cases sp with
    | Import x => simp [buildSpecs] at h
    | Typ x => simp [buildSpecs] at h
    | Value vs =>
      simp only [buildSpecs] at h
      cases ha : addParenValueSpecComment E vs T with
      | panic e => simp [ha] at h
      | ok vs1 =>
        simp only [ha] at h
        cases hb : buildSpecs E T i (j + 1) rest
            (CommentMap.set c (.spec i j) (docEntry vs1.Doc)) with
        | panic e => simp [hb] at h
        | ok pr =>
          obtain ⟨rest1, cm⟩ := pr
          simp only [hb, Result.ok.injEq, Prod.mk.injEq] at h
          obtain ⟨h1, _⟩ := h
          subst h1
          have hr1 : docReadable vs1.Doc = true :=
            hr vs1.Doc (by simp [Spec.valueDoc])
          have hr2 : ∀ doc ∈ rest1.map Spec.valueDoc, docReadable doc = true := by
            intro doc hdoc
            exact hr doc (by simp only [List.map_cons, List.mem_cons]; exact Or.inr hdoc)
          obtain ⟨c3, h3⟩ := ih (j + 1) _ rest1 cm hb hr2
            (CommentMap.set c2 (.spec i j) (docEntry vs1.Doc))
          refine ⟨c3, ?_⟩
          simp [buildSpecs, addParenValueSpecComment_again E vs vs1 T ha hr1, h3]

theorem buildDecl_again (E : Env) (T : String) (i : Nat) (d d1 : Decl) (c c1 : CommentMap)
    (h : buildDecl E T i d c = .ok (d1, c1))
    (hr : ∀ doc ∈ visitedDocs d1, docReadable doc = true) (c2 : CommentMap) :
    ∃ c3, buildDecl E T i d1 c2 = .ok (d1, c3) := by
  cases d with
  | Bad f t =>
    simp only [buildDecl, Result.ok.injEq, Prod.mk.injEq] at h
    obtain ⟨h1, _⟩ := h
    subst h1
    exact ⟨c2, rfl⟩
  | Func fd =>
    obtain ⟨fd1, ha, hd⟩ := buildDecl_func_inv E T i fd d1 c c1 h
    subst hd
    have hr1 : docReadable fd1.Doc = true := hr fd1.Doc (by simp [visitedDocs])
    exact ⟨_, buildDecl_func E T i fd1 fd1 c2 (addFuncDeclComment_again E fd fd1 T ha hr1)⟩
  | Gen gd =>
    cases hk : gd.Tok with
    | IMPORT =>
      simp only [buildDecl, hk, Result.ok.injEq, Prod.mk.injEq] at h
      obtain ⟨h1, _⟩ := h
      subst h1
      exact ⟨c2, by simp [buildDecl, hk]⟩
    | TYPE =>
      obtain ⟨ts, rest, gd1, hs, ha, hd⟩ := buildDecl_type_inv E T i gd d1 c c1 hk h
      subst hd
      obtain ⟨doc, hdoc⟩ := addTypeSpecComment_shape E gd gd1 ts T ha
      have hk1 : gd1.Tok = .TYPE := by rw [hdoc]; exact hk
      have hs1 : gd1.Specs = .Typ ts :: rest := by rw [hdoc]; exact hs
      have hr1 : docReadable gd1.Doc = true := hr gd1.Doc (by simp [visitedDocs, hk1])
      exact ⟨_, buildDecl_type E T i gd1 gd1 ts rest c2 hk1 hs1
        (addTypeSpecComment_again E gd gd1 ts T ha hr1)⟩
    | CONST =>
      have hv : gd.isValue = true := by simp [GenDecl.isValue, hk]
      cases hu : gd.ungrouped with
      | true =>
        obtain ⟨vs, rest, gd1, hs, ha, hd⟩ :=
          buildDecl_ungrouped_inv E T i gd d1 c c1 hv hu h
        subst hd
        obtain ⟨doc, hdoc⟩ := addValueSpecComment_shape E gd gd1 vs T ha
        have hk1 : gd1.Tok = .CONST := by rw [hdoc]; exact hk
        have hv1 : gd1.isValue = true := by simp [GenDecl.isValue, hk1]
        have hu1 : gd1.ungrouped = true := by rw [hdoc]; exact hu
        have hs1 : gd1.Specs = .Value vs :: rest := by rw [hdoc]; exact hs
        have hr1 : docReadable gd1.Doc = true :=
          hr gd1.Doc (by simp [visitedDocs, hk1, hu1])
        exact ⟨_, buildDecl_ungrouped E T i gd1 gd1 vs rest c2 hv1 hu1 hs1
          (addValueSpecComment_again E gd gd1 vs T ha hr1)⟩
      | false =>
        obtain ⟨specs1, hb, hd⟩ := buildDecl_grouped E T i gd d1 c c1 hv hu h
        subst hd
        have hr1 : ∀ doc ∈ specs1.map Spec.valueDoc, docReadable doc = true := by
          intro doc hdoc
          refine hr doc ?_
          rw [visitedDocs_grouped gd specs1 hv hu]
          exact hdoc
        obtain ⟨c3, h3⟩ := buildSpecs_again E T i gd.Specs 0 c specs1 c1 hb hr1 c2
        exact ⟨c3, buildDecl_grouped_of E T i { gd with Specs := specs1 } specs1 c2 c3
          hv hu h3⟩
    | VAR =>
      have hv : gd.isValue = true := by simp [GenDecl.isValue, hk]
      cases hu : gd.ungrouped with
      | true =>
        obtain ⟨vs, rest, gd1, hs, ha, hd⟩ :=
          buildDecl_ungrouped_inv E T i gd d1 c c1 hv hu h
        subst hd
        obtain ⟨doc, hdoc⟩ := addValueSpecComment_shape E gd gd1 vs T ha
        have hk1 : gd1.Tok = .VAR := by rw [hdoc]; exact hk
        have hv1 : gd1.isValue = true := by simp [GenDecl.isValue, hk1]
        have hu1 : gd1.ungrouped = true := by rw [hdoc]; exact hu
        have hs1 : gd1.Specs = .Value vs :: rest := by rw [hdoc]; exact hs
        have hr1 : docReadable gd1.Doc = true :=
          hr gd1.Doc (by simp [visitedDocs, hk1, hu1])
        exact ⟨_, buildDecl_ungrouped E T i gd1 gd1 vs rest c2 hv1 hu1 hs1
          (addValueSpecComment_again E gd gd1 vs T ha hr1)⟩
      | false =>
        obtain ⟨specs1, hb, hd⟩ := buildDecl_grouped E T i gd d1 c c1 hv hu h
        subst hd
        have hr1 : ∀ doc ∈ specs1.map Spec.valueDoc, docReadable doc = true := by
          intro doc hdoc
          refine hr doc ?_
          rw [visitedDocs_grouped gd specs1 hv hu]
          exact hdoc
        obtain ⟨c3, h3⟩ := buildSpecs_again E T i gd.Specs 0 c specs1 c1 hb hr1 c2
        exact ⟨c3, buildDecl_grouped_of E T i { gd with Specs := specs1 } specs1 c2 c3
          hv hu h3⟩

theorem buildDecls_again (E : Env) (T : String) (decls : List Decl) :
    ∀ (i : Nat) (c : CommentMap) (decls1 : List Decl) (c1 : CommentMap),
      buildDecls E T i decls c = .ok (decls1, c1) →
      docsReadable decls1 →
      ∀ c2, ∃ c3, buildDecls E T i decls1 c2 = .ok (decls1, c3) := by
  induction decls with
  | nil =>
    intro i c decls1 c1 h _ c2
    simp only [buildDecls, Result.ok.injEq, Prod.mk.injEq] at h
    obtain ⟨h1, _⟩ := h
    subst h1
    exact ⟨c2, rfl⟩
  | cons d rest ih =>
    intro i c decls1 c1 h hr c2
    simp only [buildDecls] at h
    cases hd : buildDecl E T i d c with
    | panic e => simp [hd] at h
    | ok pr =>
      obtain ⟨d1, cm⟩ := pr
      simp only [hd] at h
      cases hb : buildDecls E T (i + 1) rest cm with
      | panic e => simp [hb] at h
      | ok pr2 =>
        obtain ⟨rest1, cm2⟩ := pr2
        simp only [hb, Result.ok.injEq, Prod.mk.injEq] at h
        obtain ⟨h1, _⟩ := h
        subst h1
        have hr1 : ∀ doc ∈ visitedDocs d1, docReadable doc = true :=
          hr d1 (by simp)
        have hr2 : docsReadable rest1 := by
          intro x hx
          exact hr x (by simp [hx])
        obtain ⟨c3, h3⟩ := buildDecl_again E T i d d1 c cm hd hr1 c2
        obtain ⟨c4, h4⟩ := ih (i + 1) cm rest1 cm2 hb hr2 c3
        exact ⟨c4, by simp [buildDecls, h3, h4]⟩

/-! ## The registry -/

theorem find?_filter_of_imp {α : Type} (p q : α → Bool) (l : List α)
    (h : ∀ a, p a = true → q a = true) : (l.filter q).find? p = l.find? p := by
  induction l with
  | nil => rfl
  | cons a t ih =>
    by_cases hq : q a = true
    · rw [List.filter_cons_of_pos hq]
      by_cases hp : p a = true
      · simp [List.find?_cons, hp]
      · simp [List.find?_cons, hp, ih]
    · rw [List.filter_cons_of_neg hq]
      have hp : ¬ p a = true := fun hp => hq (h a hp)
      simp [List.find?_cons, hp, ih]

theorem get_set_self (m : CommentMap) (k : NodeKey) (v : List CommentGroup) :
    (m.set k v).get k = some v := by
  simp [CommentMap.get, CommentMap.set]

theorem get_set_other (m : CommentMap) (k k1 : NodeKey) (v : List CommentGroup)
    (h : k1 ≠ k) : (m.set k v).get k1 = m.get k1 := by
  have hk : ¬ k = k1 := fun e => h e.symm
  simp only [CommentMap.get, CommentMap.set, List.find?_cons, hk, decide_False]
  rw [find?_filter_of_imp]
  intro a ha
  have ha1 : a.1 = k1 := by simpa using ha
  simpa [ha1] using h

theorem mem_of_get (m : CommentMap) (k : NodeKey) (v : List CommentGroup)
    (h : m.get k = some v) : (k, v) ∈ m := by
  simp only [CommentMap.get, Option.map_eq_some'] at h
  obtain ⟨e, he, hv⟩ := h
  have h1 : e.1 = k := by simpa using List.find?_some he
  have h2 : e ∈ m := List.mem_of_find?_eq_some he
  have h3 : e = (k, v) := by
    cases e
    simp only [Prod.mk.injEq]
    exact ⟨h1, hv⟩
  rw [← h3]
  exact h2

theorem doc_of_guard_false (doc : Option CommentGroup) (name : Result String)
    (h : docIsNilOrName doc name = .ok false) : ∃ g, doc = some g := by
  cases doc with
  | none => simp [docIsNilOrName] at h
  | some g => exact ⟨g, rfl⟩

theorem addFuncDeclComment_doc (E : Env) (fd fd1 : FuncDecl) (T : String)
    (h : addFuncDeclComment E fd T = .ok fd1) : ∃ g, fd1.Doc = some g := by
  cases hg : docIsNilOrName fd.Doc (.ok fd.Name.Name) with
  | panic e => simp [addFuncDeclComment, hg] at h
  | ok b =>
    cases b with
    | false =>
      rw [addFuncDeclComment_keep E fd T hg] at h
      simp only [Result.ok.injEq] at h
      subst h
      exact doc_of_guard_false _ _ hg
    | true =>
      cases hT : fd.Typ with
      | none => simp [addFuncDeclComment, hg, FuncDecl.Pos, hT] at h
      | some ft =>
        rw [addFuncDeclComment_rewrite E fd ft T hT hg] at h
        simp only [Result.ok.injEq] at h
        subst h
        exact ⟨_, rfl⟩

theorem addTypeSpecComment_doc (E : Env) (gd gd1 : GenDecl) (ts : TypeSpec) (T : String)
    (h : addTypeSpecComment E gd ts T = .ok gd1) : ∃ g, gd1.Doc = some g := by
  cases hg : docIsNilOrName gd.Doc (.ok ts.Name.Name) with
  | panic e => simp [addTypeSpecComment, hg] at h
  | ok b =>
    cases b with
    | false =>
      rw [addTypeSpecComment_keep E gd ts T hg] at h
      simp only [Result.ok.injEq] at h
      subst h
      exact doc_of_guard_false _ _ hg
    | true =>
      rw [addTypeSpecComment_rewrite E gd ts T hg] at h
      simp only [Result.ok.injEq] at h
      subst h
      exact ⟨_, rfl⟩

theorem addValueSpecComment_doc (E : Env) (gd gd1 : GenDecl) (vs : ValueSpec) (T : String)
    (h : addValueSpecComment E gd vs T = .ok gd1) : ∃ g, gd1.Doc = some g := by
  obtain ⟨n, ns, hn⟩ := valueSpecName_of_add E gd gd1 vs T h
  cases hg : docIsNilOrName gd.Doc (.ok n.Name) with
  | panic e => simp [addValueSpecComment, valueSpecName_cons vs n ns hn, hg] at h
  | ok b =>
    cases b with
    | false =>
      rw [addValueSpecComment_keep E gd vs T n ns hn hg] at h
      simp only [Result.ok.injEq] at h
      subst h
      exact doc_of_guard_false _ _ hg
    | true =>
      rw [addValueSpecComment_rewrite E gd vs T n ns hn hg] at h
      simp only [Result.ok.injEq] at h
      subst h
      exact ⟨_, rfl⟩

theorem addParenValueSpecComment_doc (E : Env) (vs vs1 : ValueSpec) (T : String)
    (h : addParenValueSpecComment E vs T = .ok vs1) : ∃ g, vs1.Doc = some g := by
  obtain ⟨n, ns, hn⟩ := valueSpecName_of_addParen E vs vs1 T h
  cases hg : docIsNilOrName vs.Doc (.ok n.Name) with
  | panic e => simp [addParenValueSpecComment, valueSpecName_cons vs n ns hn, hg] at h
  | ok b =>
    cases b with
    | false =>
      rw [addParenValueSpecComment_keep E vs T n ns hn hg] at h
      simp only [Result.ok.injEq] at h
      subst h
      exact doc_of_guard_false _ _ hg
    | true =>
      rw [addParenValueSpecComment_rewrite E vs T n ns hn hg] at h
      simp only [Result.ok.injEq] at h
      subst h
      exact ⟨_, rfl⟩

theorem buildSpecs_registry (E : Env) (T : String) (i : Nat) (specs : List Spec) :
    ∀ (j : Nat) (c : CommentMap) (specs1 : List Spec) (c1 : CommentMap),
      buildSpecs E T i j specs c = .ok (specs1, c1) →
      (∀ k, (∀ n, k ≠ .spec i (j + n)) → c1.get k = c.get k) ∧
      (∀ n s, specs1.get? n = some s →
        ∃ vs g, s = .Value vs ∧ vs.Doc = some g ∧ c1.get (.spec i (j + n)) = some [g]) := by
  induction specs with
  | nil =>
    intro j c specs1 c1 h
    simp only [buildSpecs, Result.ok.injEq, Prod.mk.injEq] at h
    obtain ⟨h1, h2⟩ := h
    subst h1 h2
    exact ⟨fun k _ => rfl, fun n s hs => by simp at hs⟩
  | cons sp rest ih =>
    intro j c specs1 c1 h
    cases sp with
    | Import x => simp [buildSpecs] at h
    | Typ x => simp [buildSpecs] at h
    | Value vs =>
      simp only [buildSpecs] at h
      cases ha : addParenValueSpecComment E vs T with
      | panic e => simp [ha] at h
      | ok vs1 =>
        simp only [ha] at h
        cases hb : buildSpecs E T i (j + 1) rest
            (CommentMap.set c (.spec i j) (docEntry vs1.Doc)) with
        | panic e => simp [hb] at h
        | ok pr =>
          obtain ⟨rest1, cm⟩ := pr
          simp only [hb, Result.ok.injEq, Prod.mk.injEq] at h
          obtain ⟨h1, h2⟩ := h
          subst h1 h2
          obtain ⟨hframe, hentry⟩ := ih (j + 1) _ rest1 cm hb
          obtain ⟨g, hg⟩ := addParenValueSpecComment_doc E vs vs1 T ha
          refine ⟨?_, ?_⟩
          · intro k hk
            rw [hframe k (fun n => by
              have := hk (n + 1)
              rwa [show j + (n + 1) = j + 1 + n by omega] at this)]
            exact get_set_other c _ k _ (by simpa using hk 0)
          · intro n s hs
            cases n with
            | zero =>
              simp only [List.get?_cons_zero, Option.some.injEq] at hs
              subst hs
              refine ⟨vs1, g, rfl, hg, ?_⟩
              rw [hframe (.spec i (j + 0)) (fun n => by simp; omega)]
              simp [get_set_self, docEntry, hg]
            | succ m =>
              simp only [List.get?_cons_succ] at hs
              obtain ⟨vs2, g2, e1, e2, e3⟩ := hentry m s hs
              exact ⟨vs2, g2, e1, e2, by
                rw [show j + (m + 1) = j + 1 + m by omega]
                exact e3⟩

theorem registryHolds_type (c : CommentMap) (i : Nat) (gd : GenDecl)
    (hk : gd.Tok = .TYPE) :
    registryHolds c i (.Gen gd) ↔ ∃ g, gd.Doc = some g ∧ c.get (.decl i) = some [g] := by
  simp [registryHolds, hk]

theorem registryHolds_ungrouped (c : CommentMap) (i : Nat) (gd : GenDecl)
    (hv : gd.isValue = true) (hu : gd.ungrouped = true) :
    registryHolds c i (.Gen gd) ↔ ∃ g, gd.Doc = some g ∧ c.get (.decl i) = some [g] := by
  cases hk : gd.Tok with
  | IMPORT => simp [GenDecl.isValue, hk] at hv
  | TYPE => simp [GenDecl.isValue, hk] at hv
  | CONST => simp [registryHolds, hk, hu]
  | VAR => simp [registryHolds, hk, hu]

theorem registryHolds_grouped (c : CommentMap) (i : Nat) (gd : GenDecl)
    (hv : gd.isValue = true) (hu : gd.ungrouped = false) :
    registryHolds c i (.Gen gd) ↔
      ∀ j s, gd.Specs.get? j = some s →
        ∃ vs g, s = .Value vs ∧ vs.Doc = some g ∧ c.get (.spec i j) = some [g] := by
  cases hk : gd.Tok with
  | IMPORT => simp [GenDecl.isValue, hk] at hv
  | TYPE => simp [GenDecl.isValue, hk] at hv
  | CONST => simp [registryHolds, hk, hu]
  | VAR => simp [registryHolds, hk, hu]

theorem registryHolds_congr (c1 c2 : CommentMap) (i : Nat) (d : Decl)
    (hd : c2.get (.decl i) = c1.get (.decl i))
    (hs : ∀ j, c2.get (.spec i j) = c1.get (.spec i j))
    (h : registryHolds c1 i d) : registryHolds c2 i d := by
  cases d with
  | Bad f t => trivial
  | Func fd =>
    obtain ⟨g, h1, h2⟩ := h
    exact ⟨g, h1, by rw [hd, h2]⟩
  | Gen gd =>
    cases hk : gd.Tok with
    | IMPORT => simp [registryHolds, hk]
    | TYPE =>
      rw [registryHolds_type c1 i gd hk] at h
      rw [registryHolds_type c2 i gd hk]
      obtain ⟨g, h1, h2⟩ := h
      exact ⟨g, h1, by rw [hd, h2]⟩
    | CONST =>
      have hv : gd.isValue = true := by simp [GenDecl.isValue, hk]
      cases hu : gd.ungrouped with
      | true =>
        rw [registryHolds_ungrouped c1 i gd hv hu] at h
        rw [registryHolds_ungrouped c2 i gd hv hu]
        obtain ⟨g, h1, h2⟩ := h
        exact ⟨g, h1, by rw [hd, h2]⟩
      | false =>
        rw [registryHolds_grouped c1 i gd hv hu] at h
        rw [registryHolds_grouped c2 i gd hv hu]
        intro j s hj
        obtain ⟨vs, g, e1, e2, e3⟩ := h j s hj
        exact ⟨vs, g, e1, e2, by rw [hs, e3]⟩
    | VAR =>
      have hv : gd.isValue = true := by simp [GenDecl.isValue, hk]
      cases hu : gd.ungrouped with
      | true =>
        rw [registryHolds_ungrouped c1 i gd hv hu] at h
        rw [registryHolds_ungrouped c2 i gd hv hu]
        obtain ⟨g, h1, h2⟩ := h
        exact ⟨g, h1, by rw [hd, h2]⟩
      | false =>
        rw [registryHolds_grouped c1 i gd hv hu] at h
        rw [registryHolds_grouped c2 i gd hv hu]
        intro j s hj
        obtain ⟨vs, g, e1, e2, e3⟩ := h j s hj
        exact ⟨vs, g, e1, e2, by rw [hs, e3]⟩

theorem registry_after_set (c : CommentMap) (i : Nat) (doc : Option CommentGroup)
    (g : CommentGroup) (hg : doc = some g) :
    (∀ k, k ≠ .decl i → (∀ j, k ≠ .spec i j) →
      (c.set (.decl i) (docEntry doc)).get k = c.get k) ∧
    (c.set (.decl i) (docEntry doc)).get (.decl i) = some [g] := by
  refine ⟨fun k hk _ => get_set_other c _ k _ hk, ?_⟩
  rw [get_set_self, hg]
  rfl

theorem buildDecl_registry (E : Env) (T : String) (i : Nat) (d d1 : Decl)
    (c c1 : CommentMap) (h : buildDecl E T i d c = .ok (d1, c1)) :
    (∀ k, k ≠ .decl i → (∀ j, k ≠ .spec i j) → c1.get k = c.get k) ∧
    registryHolds c1 i d1 := by
  cases d with
  | Bad f t =>
    simp only [buildDecl, Result.ok.injEq, Prod.mk.injEq] at h
    obtain ⟨h1, h2⟩ := h
    subst h1 h2
    exact ⟨fun k _ _ => rfl, trivial⟩
  | Func fd =>
    obtain ⟨fd1, ha, hd⟩ := buildDecl_func_inv E T i fd d1 c c1 h
    rw [buildDecl_func E T i fd fd1 c ha] at h
    simp only [Result.ok.injEq, Prod.mk.injEq] at h
    obtain ⟨_, h2⟩ := h
    subst hd h2
    obtain ⟨g, hg⟩ := addFuncDeclComment_doc E fd fd1 T ha
    obtain ⟨hf, he⟩ := registry_after_set c i fd1.Doc g hg
    exact ⟨hf, g, hg, he⟩
  | Gen gd =>
    cases hk : gd.Tok with
    | IMPORT =>
      simp only [buildDecl, hk, Result.ok.injEq, Prod.mk.injEq] at h
      obtain ⟨h1, h2⟩ := h
      subst h1 h2
      exact ⟨fun k _ _ => rfl, by simp [registryHolds, hk]⟩
    | TYPE =>
      obtain ⟨ts, rest, gd1, hs, ha, hd⟩ := buildDecl_type_inv E T i gd d1 c c1 hk h
      rw [buildDecl_type E T i gd gd1 ts rest c hk hs ha] at h
      simp only [Result.ok.injEq, Prod.mk.injEq] at h
      obtain ⟨_, h2⟩ := h
      subst hd h2
      obtain ⟨doc0, hdoc0⟩ := addTypeSpecComment_shape E gd gd1 ts T ha
      have hk1 : gd1.Tok = .TYPE := by rw [hdoc0]; exact hk
      obtain ⟨g, hg⟩ := addTypeSpecComment_doc E gd gd1 ts T ha
      obtain ⟨hf, he⟩ := registry_after_set c i gd1.Doc g hg
      exact ⟨hf, (registryHolds_type _ i gd1 hk1).mpr ⟨g, hg, he⟩⟩
    | CONST =>
      have hv : gd.isValue = true := by simp [GenDecl.isValue, hk]
      cases hu : gd.ungrouped with
      | true =>
        obtain ⟨vs, rest, gd1, hs, ha, hd⟩ :=
          buildDecl_ungrouped_inv E T i gd d1 c c1 hv hu h
        rw [buildDecl_ungrouped E T i gd gd1 vs rest c hv hu hs ha] at h
        simp only [Result.ok.injEq, Prod.mk.injEq] at h
        obtain ⟨_, h2⟩ := h
        subst hd h2
        obtain ⟨doc0, hdoc0⟩ := addValueSpecComment_shape E gd gd1 vs T ha
        have hv1 : gd1.isValue = true := by rw [hdoc0]; exact hv
        have hu1 : gd1.ungrouped = true := by rw [hdoc0]; exact hu
        obtain ⟨g, hg⟩ := addValueSpecComment_doc E gd gd1 vs T ha
        obtain ⟨hf, he⟩ := registry_after_set c i gd1.Doc g hg
        exact ⟨hf, (registryHolds_ungrouped _ i gd1 hv1 hu1).mpr ⟨g, hg, he⟩⟩
      | false =>
        obtain ⟨specs1, hb, hd⟩ := buildDecl_grouped E T i gd d1 c c1 hv hu h
        subst hd
        obtain ⟨hf, he⟩ := buildSpecs_registry E T i gd.Specs 0 c specs1 c1 hb
        refine ⟨fun k _ hk2 => hf k (fun n => by simpa using hk2 n), ?_⟩
        rw [registryHolds_grouped c1 i { gd with Specs := specs1 } hv hu]
        intro j s hj
        simpa using he j s hj
    | VAR =>
      have hv : gd.isValue = true := by simp [GenDecl.isValue, hk]
      cases hu : gd.ungrouped with
      | true =>
        obtain ⟨vs, rest, gd1, hs, ha, hd⟩ :=
          buildDecl_ungrouped_inv E T i gd d1 c c1 hv hu h
        rw [buildDecl_ungrouped E T i gd gd1 vs rest c hv hu hs ha] at h
        simp only [Result.ok.injEq, Prod.mk.injEq] at h
        obtain ⟨_, h2⟩ := h
        subst hd h2
        obtain ⟨doc0, hdoc0⟩ := addValueSpecComment_shape E gd gd1 vs T ha
        have hv1 : gd1.isValue = true := by rw [hdoc0]; exact hv
        have hu1 : gd1.ungrouped = true := by rw [hdoc0]; exact hu
        obtain ⟨g, hg⟩ := addValueSpecComment_doc E gd gd1 vs T ha
        obtain ⟨hf, he⟩ := registry_after_set c i gd1.Doc g hg
        exact ⟨hf, (registryHolds_ungrouped _ i gd1 hv1 hu1).mpr ⟨g, hg, he⟩⟩
      | false =>
        obtain ⟨specs1, hb, hd⟩ := buildDecl_grouped E T i gd d1 c c1 hv hu h
        subst hd
        obtain ⟨hf, he⟩ := buildSpecs_registry E T i gd.Specs 0 c specs1 c1 hb
        refine ⟨fun k _ hk2 => hf k (fun n => by simpa using hk2 n), ?_⟩
        rw [registryHolds_grouped c1 i { gd with Specs := specs1 } hv hu]
        intro j s hj
        simpa using he j s hj

theorem buildDecls_registry (E : Env) (T : String) (decls : List Decl) :
    ∀ (i : Nat) (c : CommentMap) (decls1 : List Decl) (c1 : CommentMap),
      buildDecls E T i decls c = .ok (decls1, c1) →
      (∀ k, (∀ n, k ≠ .decl (i + n)) → (∀ n j, k ≠ .spec (i + n) j) →
        c1.get k = c.get k) ∧
      (∀ n d1, decls1.get? n = some d1 → registryHolds c1 (i + n) d1) := by
  induction decls with
  | nil =>
    intro i c decls1 c1 h
    simp only [buildDecls, Result.ok.injEq, Prod.mk.injEq] at h
    obtain ⟨h1, h2⟩ := h
    subst h1 h2
    exact ⟨fun k _ _ => rfl, fun n d1 hn => by simp at hn⟩
  | cons d rest ih =>
    intro i c decls1 c1 h
    simp only [buildDecls] at h
    cases hd : buildDecl E T i d c with
    | panic e => simp [hd] at h
    | ok pr =>
      obtain ⟨d1, cm⟩ := pr
      simp only [hd] at h
      cases hb : buildDecls E T (i + 1) rest cm with
      | panic e => simp [hb] at h
      | ok pr2 =>
        obtain ⟨rest1, cm2⟩ := pr2
        simp only [hb, Result.ok.injEq, Prod.mk.injEq] at h
        obtain ⟨h1, h2⟩ := h
        subst h1 h2
        obtain ⟨hf1, he1⟩ := buildDecl_registry E T i d d1 c cm hd
        obtain ⟨hf2, he2⟩ := ih (i + 1) cm rest1 cm2 hb
        refine ⟨?_, ?_⟩
        · intro k hk1 hk2
          rw [hf2 k
            (fun n => by
              have := hk1 (n + 1)
              rwa [show i + (n + 1) = i + 1 + n by omega] at this)
            (fun n j => by
              have := hk2 (n + 1) j
              rwa [show i + (n + 1) = i + 1 + n by omega] at this)]
          exact hf1 k (by simpa using hk1 0) (fun j => by simpa using hk2 0 j)
        · intro n x hn
          cases n with
          | zero =>
            simp only [List.get?_cons_zero, Option.some.injEq] at hn
            subst hn
            refine registryHolds_congr cm cm2 (i + 0) d1 ?_ ?_ he1
            · exact hf2 _ (fun n => by simp; omega) (fun n j => by simp)
            · intro j
              exact hf2 _ (fun n => by simp) (fun n j2 => by simp; omega)
          | succ m =>
            simp only [List.get?_cons_succ] at hn
            have := he2 m x hn
            rwa [show i + 1 + m = i + (m + 1) by omega] at this

theorem buildComments_registry (E : Env) (af af1 : File) (T : String)
    (h : buildComments E af T = .ok af1) :
    ∃ cmap1, buildDecls E T 0 af.Decls (E.NewCommentMap af) = .ok (af1.Decls, cmap1) ∧
      (∀ k, (∀ n, k ≠ .decl n) → (∀ n j, k ≠ .spec n j) →
        cmap1.get k = (E.NewCommentMap af).get k) ∧
      (∀ n d1, af1.Decls.get? n = some d1 → registryHolds cmap1 n d1) := by
  obtain ⟨cm, hb⟩ := buildComments_decls E af af1 T h
  obtain ⟨hf, he⟩ := buildDecls_registry E T af.Decls 0 _ _ _ hb
  refine ⟨cm, hb, ?_, ?_⟩
  · intro k h1 h2
    exact hf k (fun n => by simpa using h1 n) (fun n j => by simpa using h2 n j)
  · intro n d1 hn
    simpa using he n d1 hn

/-! ## The flattened comment list -/

theorem mem_insertByPos (g x : CommentGroup) (l : List CommentGroup) :
    x ∈ insertByPos g l ↔ x = g ∨ x ∈ l := by
  induction l with
  | nil => simp [insertByPos]
  | cons h t ih =>
    by_cases hc : g.Pos ≤ h.Pos
    · simp [insertByPos, hc]
    · simp only [insertByPos, hc, if_false, List.mem_cons, ih]
      tauto

theorem mem_sortComments (x : CommentGroup) (l : List CommentGroup) :
    x ∈ sortComments l ↔ x ∈ l := by
  induction l with
  | nil => simp [sortComments]
  | cons h t ih =>
    have hs : sortComments (h :: t) = insertByPos h (sortComments t) := rfl
    rw [hs, mem_insertByPos, ih, List.mem_cons]

theorem insertByPos_sorted (g : CommentGroup) (l : List CommentGroup)
    (h : sortedByPos l) : sortedByPos (insertByPos g l) := by
  induction l with
  | nil => simp [insertByPos, sortedByPos]
  | cons x t ih =>
    have hx : ∀ y ∈ t, x.Pos ≤ y.Pos := (List.pairwise_cons.mp h).1
    have ht : sortedByPos t := (List.pairwise_cons.mp h).2
    by_cases hc : g.Pos ≤ x.Pos
    · simp only [insertByPos, hc, if_true]
      refine List.pairwise_cons.mpr ⟨?_, h⟩
      intro y hy
      rcases List.mem_cons.mp hy with e | e
      · rw [e]
        exact hc
      · exact le_trans hc (hx y e)
    · simp only [insertByPos, hc, if_false]
      refine List.pairwise_cons.mpr ⟨?_, ih ht⟩
      intro y hy
      rcases (mem_insertByPos g y t).mp hy with e | e
      · rw [e]
        exact le_of_lt (not_le.mp hc)
      · exact hx y e

theorem sortComments_sorted (l : List CommentGroup) : sortedByPos (sortComments l) := by
  induction l with
  | nil => simp [sortComments, sortedByPos]
  | cons h t ih => exact insertByPos_sorted h _ ih

theorem comments_sorted (c : CommentMap) : sortedByPos c.Comments :=
  sortComments_sorted _

theorem mem_comments (c : CommentMap) (decls : List Decl) (k : NodeKey) (g : CommentGroup)
    (h : c.get k = some [g]) (hn : nodeExists decls k = true) :
    g ∈ (c.Filter decls).Comments := by
  have hm : (k, [g]) ∈ c.Filter decls := by
    simp only [CommentMap.Filter, List.mem_filter]
    exact ⟨mem_of_get c k [g] h, hn⟩
  simp only [CommentMap.Comments, mem_sortComments, List.mem_flatten, List.mem_map]
  exact ⟨[g], ⟨(k, [g]), hm, rfl⟩, by simp⟩

theorem nodeExists_decl (decls : List Decl) (n : Nat) (d : Decl)
    (h : decls.get? n = some d) : nodeExists decls (.decl n) = true := by
  have hl : n < decls.length := by
    by_contra hc
    rw [List.get?_eq_none.mpr (by omega)] at h
    cases h
  simp [nodeExists, hl]

theorem nodeExists_spec (decls : List Decl) (n j : Nat) (gd : GenDecl) (s : Spec)
    (h : decls.get? n = some (.Gen gd)) (hj : gd.Specs.get? j = some s) :
    nodeExists decls (.spec n j) = true := by
  have hl : j < gd.Specs.length := by
    by_contra hc
    rw [List.get?_eq_none.mpr (by omega)] at hj
    cases hj
  simp only [nodeExists, h]
  simpa using hl

theorem buildDeclNil_of_not_assigns (E : Env) (T : String) (d : Decl)
    (h : d.assigns = false) : buildDeclNil E T d = .ok d := by
  cases d with
  | Bad f t => rfl
  | Func fd => simp [Decl.assigns] at h
  | Gen gd =>
    cases hk : gd.Tok with
    | IMPORT => simp [buildDeclNil, hk]
    | TYPE => simp [Decl.assigns, hk] at h
    | CONST =>
      simp only [Decl.assigns, hk, Bool.or_eq_false_iff] at h
      obtain ⟨hu, hs⟩ := h
      have hu2 : ¬ (gd.Lparen = NoPos ∧ gd.Rparen = NoPos) := by
        simpa [GenDecl.ungrouped] using hu
      have hs2 : gd.Specs = [] := by simpa using hs
      simp [buildDeclNil, hk, hu2, hs2]
    | VAR =>
      simp only [Decl.assigns, hk, Bool.or_eq_false_iff] at h
      obtain ⟨hu, hs⟩ := h
      have hu2 : ¬ (gd.Lparen = NoPos ∧ gd.Rparen = NoPos) := by
        simpa [GenDecl.ungrouped] using hu
      have hs2 : gd.Specs = [] := by simpa using hs
      simp [buildDeclNil, hk, hu2, hs2]

theorem buildDeclsNil_of_not_assigns (E : Env) (T : String) (decls : List Decl)
    (h : ∀ d ∈ decls, d.assigns = false) : buildDeclsNil E T decls = .ok decls := by
  induction decls with
  | nil => rfl
  | cons d rest ih =>
    have h1 := buildDeclNil_of_not_assigns E T d (h d (by simp))
    have h2 := ih (fun x hx => h x (by simp [hx]))
    simp [buildDeclsNil, h1, h2]

theorem comment_of_assigns (c : CommentMap) (decls : List Decl) (n : Nat) (d : Decl)
    (hd : decls.get? n = some d) (ha : d.assigns = true) (hr : registryHolds c n d) :
    ∃ g, g ∈ (c.Filter decls).Comments := by
  cases d with
  | Bad f t => simp [Decl.assigns] at ha
  | Func fd =>
    obtain ⟨g, _, h2⟩ := hr
    exact ⟨g, mem_comments c decls _ g h2 (nodeExists_decl decls n _ hd)⟩
  | Gen gd =>
    cases hk : gd.Tok with
    | IMPORT => simp [Decl.assigns, hk] at ha
    | TYPE =>
      obtain ⟨g, _, h2⟩ := (registryHolds_type c n gd hk).mp hr
      exact ⟨g, mem_comments c decls _ g h2 (nodeExists_decl decls n _ hd)⟩
    | CONST =>
      have hv : gd.isValue = true := by simp [GenDecl.isValue, hk]
      cases hu : gd.ungrouped with
      | true =>
        obtain ⟨g, _, h2⟩ := (registryHolds_ungrouped c n gd hv hu).mp hr
        exact ⟨g, mem_comments c decls _ g h2 (nodeExists_decl decls n _ hd)⟩
      | false =>
        simp only [Decl.assigns, hk, hu, Bool.false_or] at ha
        cases hs : gd.Specs with
        | nil => simp [hs] at ha
        | cons s rest =>
          have hj : gd.Specs.get? 0 = some s := by simp [hs]
          obtain ⟨vs, g, _, _, h3⟩ := (registryHolds_grouped c n gd hv hu).mp hr 0 s hj
          exact ⟨g, mem_comments c decls _ g h3 (nodeExists_spec decls n 0 gd s hd hj)⟩
    | VAR =>
      have hv : gd.isValue = true := by simp [GenDecl.isValue, hk]
      cases hu : gd.ungrouped with
      | true =>
        obtain ⟨g, _, h2⟩ := (registryHolds_ungrouped c n gd hv hu).mp hr
        exact ⟨g, mem_comments c decls _ g h2 (nodeExists_decl decls n _ hd)⟩
      | false =>
        simp only [Decl.assigns, hk, hu, Bool.false_or] at ha
        cases hs : gd.Specs with
        | nil => simp [hs] at ha
        | cons s rest =>
          have hj : gd.Specs.get? 0 = some s := by simp [hs]
          obtain ⟨vs, g, _, _, h3⟩ := (registryHolds_grouped c n gd hv hu).mp hr 0 s hj
          exact ⟨g, mem_comments c decls _ g h3 (nodeExists_spec decls n 0 gd s hd hj)⟩

theorem buildComments_of_nil (E : Env) (af af1 : File) (T : String)
    (hc : af.Comments.length = 0) (h : buildComments E af T = .ok af1) :
    buildDeclsNil E T af.Decls = .ok af.Decls ∧ af1 = { af with Comments := [] } := by
  simp only [buildComments, hc, if_true] at h
  cases hb : buildDeclsNil E T af.Decls with
  | panic e => simp [hb] at h
  | ok ds =>
    simp only [hb, Result.ok.injEq] at h
    obtain ⟨h1, _⟩ := buildDeclsNil_ok E T af.Decls ds hb
    subst h1
    exact ⟨rfl, h.symm⟩

theorem buildComments_of_map (E : Env) (af af1 : File) (T : String)
    (hc : ¬ af.Comments.length = 0) (h : buildComments E af T = .ok af1) :
    ∃ cmap1, buildDecls E T 0 af.Decls (E.NewCommentMap af) = .ok (af1.Decls, cmap1) ∧
      af1 = { af with Decls := af1.Decls, Comments := (cmap1.Filter af1.Decls).Comments } := by
  simp only [buildComments, hc, if_false] at h
  cases hb : buildDecls E T 0 af.Decls (E.NewCommentMap af) with
  | panic e => simp [hb] at h
  | ok pr =>
    obtain ⟨ds, cm⟩ := pr
    simp only [hb, Result.ok.injEq] at h
    subst h
    exact ⟨cm, rfl, rfl⟩

theorem buildComments_again (E : Env) (af af1 : File) (T : String)
    (h : buildComments E af T = .ok af1) (hr : docsReadable af1.Decls) :
    ∃ af2, buildComments E af1 T = .ok af2 ∧ af2.Decls = af1.Decls := by
  by_cases hc1 : af1.Comments.length = 0
  · have hn : buildDeclsNil E T af1.Decls = .ok af1.Decls := by
      by_cases hc : af.Comments.length = 0
      · obtain ⟨h1, h2⟩ := buildComments_of_nil E af af1 T hc h
        rw [h2]
        exact h1
      · obtain ⟨cm, hb, he⟩ := buildComments_of_map E af af1 T hc h
        obtain ⟨_, hreg⟩ := buildDecls_registry E T af.Decls 0 _ _ _ hb
        apply buildDeclsNil_of_not_assigns
        intro d hd
        by_contra ha
        have ha1 : d.assigns = true := by simpa using ha
        obtain ⟨n, hn⟩ := List.mem_iff_get?.mp hd
        have hreg1 : registryHolds cm n d := by simpa using hreg n d hn
        obtain ⟨g, hg⟩ := comment_of_assigns cm af1.Decls n d hn ha1 hreg1
        have hcm : af1.Comments = (cm.Filter af1.Decls).Comments := by
          rw [he]
        rw [← hcm] at hg
        have h0 : af1.Comments = [] := List.length_eq_zero.mp hc1
        rw [h0] at hg
        cases hg
    exact ⟨{ af1 with Decls := af1.Decls, Comments := [] },
      by simp only [buildComments, hc1, if_true, hn], rfl⟩
  · obtain ⟨cm, hb⟩ := buildComments_decls E af af1 T h
    obtain ⟨c3, h3⟩ := buildDecls_again E T af.Decls 0 _ _ _ hb hr (E.NewCommentMap af1)
    exact ⟨{ af1 with Comments := (c3.Filter af1.Decls).Comments },
      by simp only [buildComments, hc1, if_false, h3], rfl⟩

/-! ## The template of a parenthesized declaration -/

theorem cutAtFirst_append (old rest : List Char) :
    cutAtFirst old (old ++ rest) = some ([], rest) := by
  cases h : old ++ rest with
  | nil =>
    have h1 : old = [] := (List.append_eq_nil.mp h).1
    have h2 : rest = [] := (List.append_eq_nil.mp h).2
    subst h1 h2
    simp [cutAtFirst]
  | cons c cs =>
    have hp : old.isPrefixOf (c :: cs) = true := by
      rw [← h, List.isPrefixOf_iff_prefix]
      exact List.prefix_append old rest
    have hdrop : (c :: cs).drop old.length = rest := by
      rw [← h]
      exact List.drop_left old rest
    simp only [cutAtFirst, hp, if_true, hdrop]

theorem replaceFirst_base (base ind t : String) :
    ReplaceFirst (base ++ t) base ind = ind ++ t := by
  unfold ReplaceFirst
  by_cases hb : base = ind
  · simp [hb]
  · simp only [hb, if_false, String.data_append, cutAtFirst_append]
    apply String.ext
    simp

theorem parseFile_decls (E : Env) (af af1 : File) (t : String)
    (h : parseFile E (.ok af) t = .ok (.ok af1)) :
    ∃ af0 af2, af0.Decls = af.Decls ∧
      buildComments E af0 (E.commentBase ++ t) = .ok af2 ∧ af1.Decls = af2.Decls := by
  simp only [parseFile] at h
  by_cases hc : af.Comments.length = 0
  · simp only [hc, if_true] at h
    cases hb : buildComments E { af with Comments := [injectedComment] }
        (E.commentBase ++ t) with
    | panic e => simp [hb] at h
    | ok af2 =>
      simp only [hb] at h
      cases hcs : af2.Comments with
      | nil => simp [hcs] at h
      | cons g gs =>
        simp only [hcs, Result.ok.injEq, Except.ok.injEq] at h
        exact ⟨{ af with Comments := [injectedComment] }, af2, rfl, hb, by rw [← h]⟩
  · simp only [hc, if_false] at h
    cases hb : buildComments E af (E.commentBase ++ t) with
    | panic e => simp [hb] at h
    | ok af2 =>
      simp only [hb, Result.ok.injEq, Except.ok.injEq] at h
      exact ⟨af, af2, rfl, hb, by rw [← h]⟩

/-! ## What reading a comment keeps -/

theorem nonSpace_append (a b : List Char) : nonSpace (a ++ b) = nonSpace a ++ nonSpace b := by
  simp [nonSpace]

theorem nonSpace_reverse (a : List Char) : nonSpace a.reverse = (nonSpace a).reverse := by
  simp [nonSpace, List.filter_reverse]

theorem nonSpace_cons_space (c : Char) (l : List Char) (h : isSpace c = true) :
    nonSpace (c :: l) = nonSpace l := by
  simp [nonSpace, h]

theorem nonSpace_cons_other (c : Char) (l : List Char) (h : isSpace c = false) :
    nonSpace (c :: l) = c :: nonSpace l := by
  simp [nonSpace, h]

theorem nonSpace_dropWhile (p : Char → Bool) (hp : ∀ c, p c = true → isSpace c = true)
    (l : List Char) : nonSpace (l.dropWhile p) = nonSpace l := by
  induction l with
  | nil => rfl
  | cons c cs ih =>
    by_cases hc : p c = true
    · rw [List.dropWhile_cons_of_pos hc, ih, nonSpace_cons_space c cs (hp c hc)]
    · rw [List.dropWhile_cons_of_neg hc]

theorem nonSpace_rstrip (p : Char → Bool) (hp : ∀ c, p c = true → isSpace c = true)
    (l : List Char) : nonSpace (l.reverse.dropWhile p).reverse = nonSpace l := by
  rw [nonSpace_reverse, nonSpace_dropWhile p hp, nonSpace_reverse, List.reverse_reverse]

theorem isSpace_of_isWhitespace (c : Char) (h : isWhitespace c = true) : isSpace c = true := by
  simp only [isWhitespace, Bool.or_eq_true, decide_eq_true_eq] at h
  rcases h with ((h | h) | h) | h <;> subst h <;> decide

theorem nonSpace_stripTrailingWhitespace (l : List Char) :
    nonSpace (stripTrailingWhitespace l) = nonSpace l :=
  nonSpace_rstrip isWhitespace isSpace_of_isWhitespace l

theorem nonSpace_TrimSpace (s : String) : nonSpace (TrimSpace s).data = nonSpace s.data := by
  simp only [TrimSpace]
  rw [nonSpace_rstrip isSpace (fun _ h => h), nonSpace_dropWhile isSpace (fun _ h => h)]

theorem nonSpace_splitLinesAux (l : List Char) :
    ∀ cur : List Char,
      ((splitLinesAux cur l).map nonSpace).flatten = nonSpace cur.reverse ++ nonSpace l := by
  induction l with
  | nil =>
    intro cur
    simp [splitLinesAux, nonSpace]
  | cons c cs ih =>
    intro cur
    by_cases hc : c = '\n'
    · subst hc
      simp only [splitLinesAux, if_true, List.map_cons, List.flatten_cons, ih]
      rw [nonSpace_cons_space '\n' cs (by decide)]
      simp [nonSpace]
    · simp only [splitLinesAux, hc, if_false, ih]
      rw [List.reverse_cons, nonSpace_append, List.append_assoc, ← nonSpace_append]
      rfl

theorem nonSpace_splitLines (l : List Char) :
    ((splitLines l).map nonSpace).flatten = nonSpace l := by
  simp only [splitLines, nonSpace_splitLinesAux]
  simp [nonSpace]

theorem nonSpace_foldl_squeeze (ls : List (List Char)) :
    ∀ kept : List (List Char),
      ((ls.foldl
          (fun kept line =>
            if line ≠ [] || (kept ≠ [] && kept.getLast? ≠ some []) then kept ++ [line]
            else kept)
          kept).map nonSpace).flatten
        = (kept.map nonSpace).flatten ++ (ls.map nonSpace).flatten := by
  induction ls with
  | nil =>
    intro kept
    simp
  | cons l rest ih =>
    intro kept
    rw [List.foldl_cons, ih]
    by_cases hl : l = []
    · subst hl
      by_cases hk : ¬kept = [] ∧ ¬kept.getLast? = some []
      · simp [hk, nonSpace]
      · simp [hk]
        rfl
    · simp [hl]

theorem nonSpace_squeezeBlank (ls : List (List Char)) :
    ((squeezeBlank ls).map nonSpace).flatten = (ls.map nonSpace).flatten := by
  simp only [squeezeBlank, nonSpace_foldl_squeeze]
  simp

theorem nonSpace_joinLines (ls : List (List Char)) :
    nonSpace (joinLines ls) = (ls.map nonSpace).flatten := by
  induction ls with
  | nil => rfl
  | cons l rest ih =>
    cases rest with
    | nil => simp [joinLines]
    | cons l2 rest2 =>
      simp only [joinLines] at ih ⊢
      rw [nonSpace_append, nonSpace_cons_space '\n' _ (by decide)]
      simp only [List.map_cons, List.flatten_cons] at ih ⊢
      rw [← ih]

theorem map_nonSpace_strip (ls : List (List Char)) :
    (ls.map stripTrailingWhitespace).map nonSpace = ls.map nonSpace := by
  induction ls with
  | nil => rfl
  | cons l rest ih => simp [nonSpace_stripTrailingWhitespace, ih]

theorem text_nonSpace (c : Comment) (b : List Char)
    (h : stripMarkers c.Text.data = .ok (.text b)) :
    ∃ s, CommentGroup.Text ⟨c, []⟩ = .ok (some s) ∧ nonSpace s.data = nonSpace b := by
  have hl : commentLines [c] = .ok (some ((splitLines b).map stripTrailingWhitespace)) := by
    simp [commentLines, h]
  have hsq : ((squeezeBlank ((splitLines b).map stripTrailingWhitespace)).map nonSpace).flatten
      = nonSpace b := by
    rw [nonSpace_squeezeBlank, map_nonSpace_strip, nonSpace_splitLines]
  by_cases hc : (squeezeBlank ((splitLines b).map stripTrailingWhitespace) ≠ [] &&
      (squeezeBlank ((splitLines b).map stripTrailingWhitespace)).getLast? ≠ some []) = true
  · refine ⟨⟨joinLines (squeezeBlank ((splitLines b).map stripTrailingWhitespace) ++ [[]])⟩,
      ?_, ?_⟩
    · simp only [CommentGroup.Text, CommentGroup.List, hl, hc, if_true]
    · show nonSpace (joinLines _) = _
      rw [nonSpace_joinLines, List.map_append, List.flatten_append, hsq]
      simp [nonSpace]
  · refine ⟨⟨joinLines (squeezeBlank ((splitLines b).map stripTrailingWhitespace))⟩, ?_, ?_⟩
    · simp only [CommentGroup.Text, CommentGroup.List, hl, hc, if_false]
      rfl
    · show nonSpace (joinLines _) = _
      rw [nonSpace_joinLines, hsq]

theorem isMeaningful_of_nonSpace (c : Comment) (b : List Char) (name : String)
    (h : stripMarkers c.Text.data = .ok (.text b))
    (hne : nonSpace b ≠ nonSpace name.data) :
    IsMeaningful (some ⟨c, []⟩) name := by
  obtain ⟨s, hs, hn⟩ := text_nonSpace c b h
  refine ⟨_, _, rfl, hs, ?_⟩
  intro s1 hs1 heq
  cases hs1
  apply hne
  rw [← hn, ← nonSpace_TrimSpace, heq]

theorem doPrintf_literal (E : Env) (args : List Operand) (k : Nat) (cs : List Char)
    (h : '%' ∉ cs) : doPrintf E args k cs = cs ++ extraArgs (args.drop k) := by
  induction cs with
  | nil => simp [doPrintf]
  | cons c cs ih =>
    have hc : c ≠ '%' := fun e => h (by simp [e])
    have hcs : '%' ∉ cs := fun e => h (by simp [e])
    rw [doPrintf.eq_def]
    simp only [if_pos hc, ih hcs]
    rfl

theorem sprintf_base (E : Env) (op : Operand) (name t : String)
    (hop : renderVerb 's' op = some name) (h : '%' ∉ t.data) :
    Sprintf E ("// %s " ++ t) [op] = "// " ++ name ++ " " ++ t := by
  apply String.ext
  have hl : doPrintf E [op] 1 (' ' :: t.data) = ' ' :: t.data := by
    rw [doPrintf_literal E [op] 1 (' ' :: t.data) (by simpa using h)]
    simp [extraArgs]
  simp [Sprintf, doPrintf, hop, hl]

theorem sprintf_indentedBase (E : Env) (op : Operand) (name t : String)
    (hop : renderVerb 's' op = some name) (h : '%' ∉ t.data) :
    Sprintf E ("\t// %s " ++ t) [op] = "\t// " ++ name ++ " " ++ t := by
  apply String.ext
  have hl : doPrintf E [op] 1 (' ' :: t.data) = ' ' :: t.data := by
    rw [doPrintf_literal E [op] 1 (' ' :: t.data) (by simpa using h)]
    simp [extraArgs]
  simp [Sprintf, doPrintf, hop, hl]

theorem stripMarkers_line (rest : List Char) :
    stripMarkers ('/' :: '/' :: ' ' :: rest) = .ok (.text rest) := by
  have h : '/'.utf8Size = 1 := by decide
  simp [stripMarkers, h]

theorem isDirective_slash (xs : List Char) : isDirective ('/' :: xs) = false := by
  have hcut : cutAtFirst [':'] ('/' :: xs)
      = match cutAtFirst [':'] xs with
        | some (pre, post) => some ('/' :: pre, post)
        | none => none := by
    rw [cutAtFirst]
    simp
  have hl : isLowerAlnum '/' = false := by decide
  unfold isDirective
  rw [hcut]
  cases cutAtFirst [':'] xs with
  | none => simp
  | some pp =>
    obtain ⟨pre, post⟩ := pp
    cases post <;> simp [hl]

theorem stripMarkers_indented (rest : List Char) :
    stripMarkers ('\t' :: '/' :: '/' :: ' ' :: rest) = .ok (.text ('/' :: ' ' :: rest)) := by
  have h : '\t'.utf8Size = 1 := by decide
  simp [stripMarkers, h, isDirective_slash]

theorem nonSpace_longer (n t rest : List Char) (h : nonSpace t ≠ []) :
    nonSpace (n ++ ' ' :: (t ++ rest)) ≠ nonSpace n := by
  intro e
  rw [nonSpace_append, nonSpace_cons_space ' ' _ (by decide), nonSpace_append] at e
  have hl := congrArg List.length e
  simp only [List.length_append] at hl
  have h0 : (nonSpace t).length = 0 := by omega
  exact h (List.length_eq_zero.mp h0)

theorem nonSpace_longer_indented (n t : List Char) :
    nonSpace ('/' :: ' ' :: (n ++ ' ' :: t)) ≠ nonSpace n := by
  intro e
  rw [nonSpace_cons_other '/' _ (by decide), nonSpace_cons_space ' ' _ (by decide),
    nonSpace_append] at e
  have hl := congrArg List.length e
  simp only [List.length_append, List.length_cons] at hl
  omega

theorem isMeaningful_base (p : Pos) (name t rest : String) (h : nonSpace t.data ≠ []) :
    IsMeaningful (some ⟨⟨p, "// " ++ name ++ " " ++ t ++ rest⟩, []⟩) name := by
  apply isMeaningful_of_nonSpace _ (name.data ++ ' ' :: (t.data ++ rest.data))
  · have hd : ("// " ++ name ++ " " ++ t ++ rest).data
        = '/' :: '/' :: ' ' :: (name.data ++ ' ' :: (t.data ++ rest.data)) := by
      simp
    show stripMarkers ("// " ++ name ++ " " ++ t ++ rest).data = _
    rw [hd, stripMarkers_line]
  · exact nonSpace_longer _ _ _ h

theorem isMeaningful_indentedBase (p : Pos) (name t : String) :
    IsMeaningful (some ⟨⟨p, "\t// " ++ name ++ " " ++ t⟩, []⟩) name := by
  apply isMeaningful_of_nonSpace _ ('/' :: ' ' :: (name.data ++ ' ' :: t.data))
  · have hd : ("\t// " ++ name ++ " " ++ t).data
        = '\t' :: '/' :: '/' :: ' ' :: (name.data ++ ' ' :: t.data) := by
      simp
    show stripMarkers ("\t// " ++ name ++ " " ++ t).data = _
    rw [hd, stripMarkers_indented]
  · exact nonSpace_longer_indented _ _

/-! ## Docs that can be read again -/

theorem sprintf_startsComment (E : Env) (T : String) (args : List Operand)
    (h : startsComment T.data) : startsComment (Sprintf E T args).data := by
  obtain ⟨c0, r, hd, hu, hp⟩ := h
  refine ⟨c0, doPrintf E args 0 r, ?_, hu, hp⟩
  have hs : ('/' : Char) ≠ '%' := by decide
  show doPrintf E args 0 T.data = _
  rw [hd, doPrintf.eq_def]
  simp only [if_pos hp]
  rw [doPrintf.eq_def]
  simp only [if_pos hs]

theorem startsComment_append (a b : String) (h : startsComment a.data) :
    startsComment (a ++ b).data := by
  obtain ⟨c0, r, hd, hu, hp⟩ := h
  exact ⟨c0, r ++ b.data, by simp [hd], hu, hp⟩

theorem readable_of_startsComment (c : Comment) (h : startsComment c.Text.data) :
    docReadable (some ⟨c, []⟩) = true := by
  obtain ⟨c0, r, hd, hu, _⟩ := h
  have hs : ∃ st, stripMarkers c.Text.data = .ok st ∧ st ≠ .notUTF8 := by
    rw [hd]
    cases r with
    | nil => exact ⟨.text [], by simp [stripMarkers, hu], by simp⟩
    | cons b bs =>
      by_cases hb : b = ' '
      · exact ⟨.text bs, by simp [stripMarkers, hu, hb], by simp⟩
      · by_cases hdir : isDirective (b :: bs) = true
        · exact ⟨.skipped, by simp [stripMarkers, hu, hb, hdir], by simp⟩
        · exact ⟨.text (b :: bs), by simp [stripMarkers, hu, hb, hdir], by simp⟩
  obtain ⟨st, h1, h2⟩ := hs
  cases st with
  | text t => simp [docReadable, CommentGroup.Text, CommentGroup.List, commentLines, h1]
  | skipped => simp [docReadable, CommentGroup.Text, CommentGroup.List, commentLines, h1]
  | notUTF8 => exact absurd rfl h2

theorem readable_of_guard (doc : Option CommentGroup) (name : String) (b : Bool)
    (h : docIsNilOrName doc (.ok name) = .ok b) : docReadable doc = true := by
  cases doc with
  | none => rfl
  | some g =>
    cases ht : g.Text with
    | panic e => simp [docIsNilOrName, ht] at h
    | ok t => simp [docReadable, ht]

theorem addFuncDeclComment_readable (E : Env) (fd fd1 : FuncDecl) (T : String)
    (hs : startsComment T.data) (h : addFuncDeclComment E fd T = .ok fd1) :
    docReadable fd1.Doc = true := by
  cases hg : docIsNilOrName fd.Doc (.ok fd.Name.Name) with
  | panic e => simp [addFuncDeclComment, hg] at h
  | ok b =>
    cases b with
    | false =>
      rw [addFuncDeclComment_keep E fd T hg] at h
      simp only [Result.ok.injEq] at h
      subst h
      exact readable_of_guard _ _ _ hg
    | true =>
      cases hT : fd.Typ with
      | none => simp [addFuncDeclComment, hg, FuncDecl.Pos, hT] at h
      | some ft =>
        rw [addFuncDeclComment_rewrite E fd ft T hT hg] at h
        simp only [Result.ok.injEq] at h
        subst h
        apply readable_of_startsComment
        show startsComment (funcDeclText E fd T).data
        rw [funcDeclText_eq E fd ft T hT]
        exact startsComment_append _ _
          (startsComment_append _ _ (sprintf_startsComment E T _ hs))

theorem addTypeSpecComment_readable (E : Env) (gd gd1 : GenDecl) (ts : TypeSpec)
    (T : String) (hs : startsComment T.data) (h : addTypeSpecComment E gd ts T = .ok gd1) :
    docReadable gd1.Doc = true := by
  cases hg : docIsNilOrName gd.Doc (.ok ts.Name.Name) with
  | panic e => simp [addTypeSpecComment, hg] at h
  | ok b =>
    cases b with
    | false =>
      rw [addTypeSpecComment_keep E gd ts T hg] at h
      simp only [Result.ok.injEq] at h
      subst h
      exact readable_of_guard _ _ _ hg
    | true =>
      rw [addTypeSpecComment_rewrite E gd ts T hg] at h
      simp only [Result.ok.injEq] at h
      subst h
      exact readable_of_startsComment _ (sprintf_startsComment E T _ hs)

theorem addValueSpecComment_readable (E : Env) (gd gd1 : GenDecl) (vs : ValueSpec)
    (T : String) (hs : startsComment T.data) (h : addValueSpecComment E gd vs T = .ok gd1) :
    docReadable gd1.Doc = true := by
  obtain ⟨n, ns, hn⟩ := valueSpecName_of_add E gd gd1 vs T h
  cases hg : docIsNilOrName gd.Doc (.ok n.Name) with
  | panic e => simp [addValueSpecComment, valueSpecName_cons vs n ns hn, hg] at h
  | ok b =>
    cases b with
    | false =>
      rw [addValueSpecComment_keep E gd vs T n ns hn hg] at h
      simp only [Result.ok.injEq] at h
      subst h
      exact readable_of_guard _ _ _ hg
    | true =>
      rw [addValueSpecComment_rewrite E gd vs T n ns hn hg] at h
      simp only [Result.ok.injEq] at h
      subst h
      exact readable_of_startsComment _ (sprintf_startsComment E T _ hs)

theorem addParenValueSpecComment_readable (E : Env) (vs vs1 : ValueSpec) (T : String)
    (hs : startsComment (ReplaceFirst T E.commentBase E.commentIndentedBase).data)
    (h : addParenValueSpecComment E vs T = .ok vs1) :
    docReadable vs1.Doc = true := by
  obtain ⟨n, ns, hn⟩ := valueSpecName_of_addParen E vs vs1 T h
  cases hg : docIsNilOrName vs.Doc (.ok n.Name) with
  | panic e => simp [addParenValueSpecComment, valueSpecName_cons vs n ns hn, hg] at h
  | ok b =>
    cases b with
    | false =>
      rw [addParenValueSpecComment_keep E vs T n ns hn hg] at h
      simp only [Result.ok.injEq] at h
      subst h
      exact readable_of_guard _ _ _ hg
    | true =>
      rw [addParenValueSpecComment_rewrite E vs T n ns hn hg] at h
      simp only [Result.ok.injEq] at h
      subst h
      exact readable_of_startsComment _ (sprintf_startsComment E _ _ hs)

theorem buildSpecs_readable (E : Env) (T : String) (i : Nat)
    (hs : startsComment (ReplaceFirst T E.commentBase E.commentIndentedBase).data)
    (specs : List Spec) :
    ∀ (j : Nat) (c : CommentMap) (specs1 : List Spec) (c1 : CommentMap),
      buildSpecs E T i j specs c = .ok (specs1, c1) →
      ∀ doc ∈ specs1.map Spec.valueDoc, docReadable doc = true := by
  induction specs with
  | nil =>
    intro j c specs1 c1 h doc hdoc
    simp only [buildSpecs, Result.ok.injEq, Prod.mk.injEq] at h
    obtain ⟨h1, _⟩ := h
    subst h1
    simp at hdoc
  | cons sp rest ih =>
    intro j c specs1 c1 h doc hdoc
    cases sp with
    | Import x => simp [buildSpecs] at h
    | Typ x => simp [buildSpecs] at h
    | Value vs =>
      simp only [buildSpecs] at h
      cases ha : addParenValueSpecComment E vs T with
      | panic e => simp [ha] at h
      | ok vs1 =>
        simp only [ha] at h
        cases hb : buildSpecs E T i (j + 1) rest
            (CommentMap.set c (.spec i j) (docEntry vs1.Doc)) with
        | panic e => simp [hb] at h
        | ok pr =>
          obtain ⟨rest1, cm⟩ := pr
          simp only [hb, Result.ok.injEq, Prod.mk.injEq] at h
          obtain ⟨h1, _⟩ := h
          subst h1
          simp only [List.map_cons, List.mem_cons] at hdoc
          rcases hdoc with hd | hd
          · rw [hd]
            exact addParenValueSpecComment_readable E vs vs1 T hs ha
          · exact ih (j + 1) _ rest1 cm hb doc hd

theorem buildDecl_readable (E : Env) (T : String) (i : Nat) (d d1 : Decl)
    (c c1 : CommentMap) (hs : startsComment T.data)
    (hi : startsComment (ReplaceFirst T E.commentBase E.commentIndentedBase).data)
    (h : buildDecl E T i d c = .ok (d1, c1)) :
    ∀ doc ∈ visitedDocs d1, docReadable doc = true := by
  intro doc hdoc
  cases d with
  | Bad f t =>
    simp only [buildDecl, Result.ok.injEq, Prod.mk.injEq] at h
    obtain ⟨h1, _⟩ := h
    subst h1
    simp [visitedDocs] at hdoc
  | Func fd =>
    obtain ⟨fd1, ha, hd⟩ := buildDecl_func_inv E T i fd d1 c c1 h
    subst hd
    simp only [visitedDocs, List.mem_singleton] at hdoc
    rw [hdoc]
    exact addFuncDeclComment_readable E fd fd1 T hs ha
  | Gen gd =>
    cases hk : gd.Tok with
    | IMPORT =>
      simp only [buildDecl, hk, Result.ok.injEq, Prod.mk.injEq] at h
      obtain ⟨h1, _⟩ := h
      subst h1
      simp [visitedDocs, hk] at hdoc
    | TYPE =>
      obtain ⟨ts, rest, gd1, _, ha, hd⟩ := buildDecl_type_inv E T i gd d1 c c1 hk h
      subst hd
      obtain ⟨doc0, hdoc0⟩ := addTypeSpecComment_shape E gd gd1 ts T ha
      have hk1 : gd1.Tok = .TYPE := by rw [hdoc0]; exact hk
      simp only [visitedDocs, hk1, List.mem_singleton] at hdoc
      rw [hdoc]
      exact addTypeSpecComment_readable E gd gd1 ts T hs ha
    | CONST =>
      have hv : gd.isValue = true := by simp [GenDecl.isValue, hk]
      cases hu : gd.ungrouped with
      | true =>
        obtain ⟨vs, rest, gd1, _, ha, hd⟩ :=
          buildDecl_ungrouped_inv E T i gd d1 c c1 hv hu h
        subst hd
        obtain ⟨doc0, hdoc0⟩ := addValueSpecComment_shape E gd gd1 vs T ha
        have hk1 : gd1.Tok = .CONST := by rw [hdoc0]; exact hk
        have hu1 : gd1.ungrouped = true := by rw [hdoc0]; exact hu
        simp only [visitedDocs, hk1, hu1, if_true, List.mem_singleton] at hdoc
        rw [hdoc]
        exact addValueSpecComment_readable E gd gd1 vs T hs ha
      | false =>
        obtain ⟨specs1, hb, hd⟩ := buildDecl_grouped E T i gd d1 c c1 hv hu h
        subst hd
        rw [visitedDocs_grouped gd specs1 hv hu] at hdoc
        exact buildSpecs_readable E T i hi gd.Specs 0 c specs1 c1 hb doc hdoc
    | VAR =>
      have hv : gd.isValue = true := by simp [GenDecl.isValue, hk]
      cases hu : gd.ungrouped with
      | true =>
        obtain ⟨vs, rest, gd1, _, ha, hd⟩ :=
          buildDecl_ungrouped_inv E T i gd d1 c c1 hv hu h
        subst hd
        obtain ⟨doc0, hdoc0⟩ := addValueSpecComment_shape E gd gd1 vs T ha
        have hk1 : gd1.Tok = .VAR := by rw [hdoc0]; exact hk
        have hu1 : gd1.ungrouped = true := by rw [hdoc0]; exact hu
        simp only [visitedDocs, hk1, hu1, if_true, List.mem_singleton] at hdoc
        rw [hdoc]
        exact addValueSpecComment_readable E gd gd1 vs T hs ha
      | false =>
        obtain ⟨specs1, hb, hd⟩ := buildDecl_grouped E T i gd d1 c c1 hv hu h
        subst hd
        rw [visitedDocs_grouped gd specs1 hv hu] at hdoc
        exact buildSpecs_readable E T i hi gd.Specs 0 c specs1 c1 hb doc hdoc

theorem buildDecls_readable (E : Env) (T : String) (hs : startsComment T.data)
    (hi : startsComment (ReplaceFirst T E.commentBase E.commentIndentedBase).data)
    (decls : List Decl) :
    ∀ (i : Nat) (c : CommentMap) (decls1 : List Decl) (c1 : CommentMap),
      buildDecls E T i decls c = .ok (decls1, c1) → docsReadable decls1 := by
  induction decls with
  | nil =>
    intro i c decls1 c1 h
    simp only [buildDecls, Result.ok.injEq, Prod.mk.injEq] at h
    obtain ⟨h1, _⟩ := h
    subst h1
    intro d hd
    simp at hd
  | cons d rest ih =>
    intro i c decls1 c1 h
    simp only [buildDecls] at h
    cases hd : buildDecl E T i d c with
    | panic e => simp [hd] at h
    | ok pr =>
      obtain ⟨d1, cm⟩ := pr
      simp only [hd] at h
      cases hb : buildDecls E T (i + 1) rest cm with
      | panic e => simp [hb] at h
      | ok pr2 =>
        obtain ⟨rest1, cm2⟩ := pr2
        simp only [hb, Result.ok.injEq, Prod.mk.injEq] at h
        obtain ⟨h1, _⟩ := h
        subst h1
        intro x hx
        simp only [List.mem_cons] at hx
        rcases hx with hx | hx
        · rw [hx]
          exact buildDecl_readable E T i d d1 c cm hs hi hd
        · exact ih (i + 1) cm rest1 cm2 hb x hx

theorem buildComments_readable (E : Env) (af af1 : File) (T : String)
    (hs : startsComment T.data)
    (hi : startsComment (ReplaceFirst T E.commentBase E.commentIndentedBase).data)
    (h : buildComments E af T = .ok af1) : docsReadable af1.Decls := by
  obtain ⟨cm, hb⟩ := buildComments_decls E af af1 T h
  exact buildDecls_readable E T hs hi af.Decls 0 _ _ _ hb

/-! ## The registry at the end of `buildComments` -/

theorem registryHolds_of_not_assigns (c : CommentMap) (i : Nat) (d : Decl)
    (h : d.assigns = false) : registryHolds c i d := by
  cases d with
  | Bad f t => trivial
  | Func fd => simp [Decl.assigns] at h
  | Gen gd =>
    cases hk : gd.Tok with
    | IMPORT => simp [registryHolds, hk]
    | TYPE => simp [Decl.assigns, hk] at h
    | CONST =>
      have hv : gd.isValue = true := by simp [GenDecl.isValue, hk]
      simp only [Decl.assigns, hk, Bool.or_eq_false_iff] at h
      obtain ⟨hu, hs⟩ := h
      have hs2 : gd.Specs = [] := by simpa using hs
      rw [registryHolds_grouped c i gd hv hu]
      intro j s hj
      simp [hs2] at hj
    | VAR =>
      have hv : gd.isValue = true := by simp [GenDecl.isValue, hk]
      simp only [Decl.assigns, hk, Bool.or_eq_false_iff] at h
      obtain ⟨hu, hs⟩ := h
      have hs2 : gd.Specs = [] := by simpa using hs
      rw [registryHolds_grouped c i gd hv hu]
      intro j s hj
      simp [hs2] at hj

theorem not_assigns_of_fixed (E : Env) (T : String) (d : Decl)
    (h : ∀ c : CommentMap, buildDecl E T 0 d c = .ok (d, c)) : d.assigns = false := by
  by_contra ha
  have ha1 : d.assigns = true := by simpa using ha
  obtain ⟨_, hr⟩ := buildDecl_registry E T 0 d d [] [] (h [])
  obtain ⟨g, hg⟩ := comment_of_assigns [] [d] 0 d rfl ha1 hr
  simp [CommentMap.Filter, CommentMap.Comments, sortComments] at hg

theorem buildDeclsNil_not_assigns (E : Env) (T : String) (decls : List Decl) :
    ∀ decls1 : List Decl, buildDeclsNil E T decls = .ok decls1 →
      ∀ d ∈ decls, d.assigns = false := by
  induction decls with
  | nil =>
    intro decls1 _ d hd
    simp at hd
  | cons x rest ih =>
    intro decls1 h d hd
    simp only [buildDeclsNil] at h
    cases hx : buildDeclNil E T x with
    | panic e => simp [hx] at h
    | ok x1 =>
      simp only [hx] at h
      cases hr : buildDeclsNil E T rest with
      | panic e => simp [hr] at h
      | ok rest1 =>
        rcases List.mem_cons.mp hd with e | e
        · rw [e]
          obtain ⟨_, hb⟩ := buildDeclNil_ok E T x x1 hx
          exact not_assigns_of_fixed E T x (fun c => hb 0 c)
        · exact ih rest1 hr d e

theorem buildComments_registry_full (E : Env) (af af1 : File) (T : String)
    (h : buildComments E af T = .ok af1) :
    ∃ cmap1 : CommentMap,
      (¬ af.Comments.length = 0 →
        buildDecls E T 0 af.Decls (E.NewCommentMap af) = .ok (af1.Decls, cmap1) ∧
        af1.Comments = (cmap1.Filter af1.Decls).Comments) ∧
      (∀ n d1, af1.Decls.get? n = some d1 → registryHolds cmap1 n d1) ∧
      (∀ k g, cmap1.get k = some [g] → nodeExists af1.Decls k = true →
        g ∈ af1.Comments) := by
  by_cases hc : af.Comments.length = 0
  · obtain ⟨h1, h2⟩ := buildComments_of_nil E af af1 T hc h
    have hd : af1.Decls = af.Decls := by rw [h2]
    refine ⟨[], fun hn => absurd hc hn, ?_, ?_⟩
    · intro n d1 hn
      apply registryHolds_of_not_assigns
      rw [hd] at hn
      exact buildDeclsNil_not_assigns E T af.Decls _ h1 d1 (List.mem_iff_get?.mpr ⟨n, hn⟩)
    · intro k g hk
      simp [CommentMap.get] at hk
  · obtain ⟨cm, hb, he⟩ := buildComments_of_map E af af1 T hc h
    obtain ⟨_, hreg⟩ := buildDecls_registry E T af.Decls 0 _ _ _ hb
    have hcm : af1.Comments = (cm.Filter af1.Decls).Comments := by rw [he]
    refine ⟨cm, fun _ => ⟨hb, hcm⟩, ?_, ?_⟩
    · intro n d1 hn
      simpa using hreg n d1 hn
    · intro k g hk hn
      rw [hcm]
      exact mem_comments cm af1.Decls k g hk hn

theorem buildComments_sorted (E : Env) (af af1 : File) (T : String)
    (h : buildComments E af T = .ok af1) : sortedByPos af1.Comments := by
  by_cases hc : af.Comments.length = 0
  · obtain ⟨_, h2⟩ := buildComments_of_nil E af af1 T hc h
    rw [h2]
    exact List.Pairwise.nil
  · obtain ⟨cm, _, he⟩ := buildComments_of_map E af af1 T hc h
    rw [he]
    exact comments_sorted _

theorem buildDecl_other (E : Env) (T : String) (i : Nat) (d : Decl) (c : CommentMap)
    (h : d.isOther = true) : buildDecl E T i d c = .ok (d, c) := by
  cases d with
  | Bad f t => rfl
  | Func fd => simp [Decl.isOther] at h
  | Gen gd =>
    cases hk : gd.Tok with
    | IMPORT => simp [buildDecl, hk]
    | TYPE => simp [Decl.isOther, hk] at h
    | CONST => simp [Decl.isOther, hk] at h
    | VAR => simp [Decl.isOther, hk] at h

theorem buildDeclNil_other (E : Env) (T : String) (d : Decl)
    (h : d.isOther = true) : buildDeclNil E T d = .ok d := by
  cases d with
  | Bad f t => rfl
  | Func fd => simp [Decl.isOther] at h
  | Gen gd =>
    cases hk : gd.Tok with
    | IMPORT => simp [buildDeclNil, hk]
    | TYPE => simp [Decl.isOther, hk] at h
    | CONST => simp [Decl.isOther, hk] at h
    | VAR => simp [Decl.isOther, hk] at h

theorem buildDecls_other (E : Env) (T : String) (decls : List Decl) :
    ∀ (i : Nat) (c : CommentMap) (decls1 : List Decl) (c1 : CommentMap),
      buildDecls E T i decls c = .ok (decls1, c1) →
      ∀ n d, decls.get? n = some d → d.isOther = true →
        decls1.get? n = some d ∧ c1.get (.decl (i + n)) = c.get (.decl (i + n)) := by
  induction decls with
  | nil =>
    intro i c decls1 c1 _ n d hn
    simp at hn
  | cons x rest ih =>
    intro i c decls1 c1 h n d hn ho
    simp only [buildDecls] at h
    cases hx : buildDecl E T i x c with
    | panic e => simp [hx] at h
    | ok pr =>
      obtain ⟨x1, cm⟩ := pr
      simp only [hx] at h
      cases hb : buildDecls E T (i + 1) rest cm with
      | panic e => simp [hb] at h
      | ok pr2 =>
        obtain ⟨rest1, cm2⟩ := pr2
        simp only [hb, Result.ok.injEq, Prod.mk.injEq] at h
        obtain ⟨h1, h2⟩ := h
        subst h1 h2
        obtain ⟨hf2, _⟩ := buildDecls_registry E T rest (i + 1) cm rest1 cm2 hb
        cases n with
        | zero =>
          simp only [List.get?_cons_zero, Option.some.injEq] at hn
          subst hn
          rw [buildDecl_other E T i x c ho] at hx
          simp only [Result.ok.injEq, Prod.mk.injEq] at hx
          obtain ⟨e1, e2⟩ := hx
          subst e1 e2
          refine ⟨rfl, ?_⟩
          exact hf2 _ (fun n => by simp; omega) (fun n j => by simp)
        | succ m =>
          simp only [List.get?_cons_succ] at hn
          obtain ⟨g1, g2⟩ := ih (i + 1) cm rest1 cm2 hb m d hn ho
          obtain ⟨hf1, _⟩ := buildDecl_registry E T i x x1 c cm hx
          refine ⟨by simpa using g1, ?_⟩
          rw [show i + (m + 1) = i + 1 + m by omega, g2]
          exact hf1 _ (by simp; omega) (fun j => by simp)

/-! ## What `buildComments` leaves as it was -/

theorem addFuncDeclComment_shape (E : Env) (fd fd1 : FuncDecl) (T : String)
    (h : addFuncDeclComment E fd T = .ok fd1) : ∃ doc, fd1 = { fd with Doc := doc } := by
  cases hg : docIsNilOrName fd.Doc (.ok fd.Name.Name) with
  | panic e => simp [addFuncDeclComment, hg] at h
  | ok b =>
    cases b with
    | false =>
      rw [addFuncDeclComment_keep E fd T hg] at h
      simp only [Result.ok.injEq] at h
      exact ⟨fd.Doc, h.symm⟩
    | true =>
      rcases Option.eq_none_or_eq_some fd.Typ with hT | ⟨ft, hT⟩
      · simp [addFuncDeclComment, hg, FuncDecl.Pos, hT] at h
      · rw [addFuncDeclComment_rewrite E fd ft T hT hg] at h
        simp only [Result.ok.injEq] at h
        exact ⟨_, h.symm⟩

theorem addParenValueSpecComment_shape (E : Env) (vs vs1 : ValueSpec) (T : String)
    (h : addParenValueSpecComment E vs T = .ok vs1) : ∃ doc, vs1 = { vs with Doc := doc } := by
  obtain ⟨n, ns, hn⟩ := valueSpecName_of_addParen E vs vs1 T h
  cases hg : docIsNilOrName vs.Doc (.ok n.Name) with
  | panic e => simp [addParenValueSpecComment, valueSpecName_cons vs n ns hn, hg] at h
  | ok b =>
    cases b with
    | false =>
      rw [addParenValueSpecComment_keep E vs T n ns hn hg] at h
      simp only [Result.ok.injEq] at h
      exact ⟨vs.Doc, h.symm⟩
    | true =>
      rw [addParenValueSpecComment_rewrite E vs T n ns hn hg] at h
      simp only [Result.ok.injEq] at h
      exact ⟨_, h.symm⟩

theorem buildSpecs_fields (E : Env) (T : String) (i : Nat) (specs : List Spec) :
    ∀ (j : Nat) (c : CommentMap) (specs1 : List Spec) (c1 : CommentMap),
      buildSpecs E T i j specs c = .ok (specs1, c1) →
      specs1.map Spec.withoutValueDoc = specs.map Spec.withoutValueDoc := by
  induction specs with
  | nil =>
    intro j c specs1 c1 h
    simp only [buildSpecs, Result.ok.injEq, Prod.mk.injEq] at h
    obtain ⟨h1, _⟩ := h
    subst h1
    rfl
  | cons sp rest ih =>
    intro j c specs1 c1 h
    cases sp with
    | Import x => simp [buildSpecs] at h
    | Typ x => simp [buildSpecs] at h
    | Value vs =>
      simp only [buildSpecs] at h
      cases ha : addParenValueSpecComment E vs T with
      | panic e => simp [ha] at h
      | ok vs1 =>
        simp only [ha] at h
        cases hb : buildSpecs E T i (j + 1) rest
            (CommentMap.set c (.spec i j) (docEntry vs1.Doc)) with
        | panic e => simp [hb] at h
        | ok pr =>
          obtain ⟨rest1, cm⟩ := pr
          simp only [hb, Result.ok.injEq, Prod.mk.injEq] at h
          obtain ⟨h1, _⟩ := h
          subst h1
          obtain ⟨doc, hdoc⟩ := addParenValueSpecComment_shape E vs vs1 T ha
          simp only [List.map_cons, ih (j + 1) _ rest1 cm hb]
          rw [hdoc]
          rfl

theorem withoutVisitedDocs_type (gd : GenDecl) (hk : gd.Tok = .TYPE) :
    (Decl.Gen gd).withoutVisitedDocs = .Gen { gd with Doc := none } := by
  simp [Decl.withoutVisitedDocs, hk]

theorem withoutVisitedDocs_ungrouped (gd : GenDecl)
    (hv : gd.isValue = true) (hu : gd.ungrouped = true) :
    (Decl.Gen gd).withoutVisitedDocs = .Gen { gd with Doc := none } := by
  cases hk : gd.Tok with
  | IMPORT => simp [GenDecl.isValue, hk] at hv
  | TYPE => simp [GenDecl.isValue, hk] at hv
  | CONST => simp [Decl.withoutVisitedDocs, hk, hu]
  | VAR => simp [Decl.withoutVisitedDocs, hk, hu]

theorem withoutVisitedDocs_grouped (gd : GenDecl)
    (hv : gd.isValue = true) (hu : gd.ungrouped = false) :
    (Decl.Gen gd).withoutVisitedDocs
      = .Gen { gd with Specs := gd.Specs.map Spec.withoutValueDoc } := by
  cases hk : gd.Tok with
  | IMPORT => simp [GenDecl.isValue, hk] at hv
  | TYPE => simp [GenDecl.isValue, hk] at hv
  | CONST => simp [Decl.withoutVisitedDocs, hk, hu]
  | VAR => simp [Decl.withoutVisitedDocs, hk, hu]

theorem buildDecl_fields (E : Env) (T : String) (i : Nat) (d d1 : Decl)
    (c c1 : CommentMap) (h : buildDecl E T i d c = .ok (d1, c1)) :
    d1.withoutVisitedDocs = d.withoutVisitedDocs := by
  cases d with
  | Bad f t =>
    simp only [buildDecl, Result.ok.injEq, Prod.mk.injEq] at h
    rw [← h.1]
  | Func fd =>
    obtain ⟨fd1, ha, hd⟩ := buildDecl_func_inv E T i fd d1 c c1 h
    obtain ⟨doc, hdoc⟩ := addFuncDeclComment_shape E fd fd1 T ha
    rw [hd, hdoc]
    rfl
  | Gen gd =>
    by_cases hk : gd.Tok = .TYPE
    · obtain ⟨ts, rest, gd1, _, ha, hd⟩ := buildDecl_type_inv E T i gd d1 c c1 hk h
      obtain ⟨doc, hdoc⟩ := addTypeSpecComment_shape E gd gd1 ts T ha
      have hk1 : gd1.Tok = .TYPE := by rw [hdoc]; exact hk
      rw [hd, withoutVisitedDocs_type gd1 hk1, withoutVisitedDocs_type gd hk, hdoc]
    · by_cases hv : gd.isValue = true
      · cases hu : gd.ungrouped with
        | true =>
          obtain ⟨vs, rest, gd1, _, ha, hd⟩ :=
            buildDecl_ungrouped_inv E T i gd d1 c c1 hv hu h
          obtain ⟨doc, hdoc⟩ := addValueSpecComment_shape E gd gd1 vs T ha
          have hv1 : gd1.isValue = true := by rw [hdoc]; exact hv
          have hu1 : gd1.ungrouped = true := by rw [hdoc]; exact hu
          rw [hd, withoutVisitedDocs_ungrouped gd1 hv1 hu1,
            withoutVisitedDocs_ungrouped gd hv hu, hdoc]
        | false =>
          obtain ⟨specs1, hb, hd⟩ := buildDecl_grouped E T i gd d1 c c1 hv hu h
          rw [hd, withoutVisitedDocs_grouped { gd with Specs := specs1 } hv hu,
            withoutVisitedDocs_grouped gd hv hu]
          simp only [buildSpecs_fields E T i gd.Specs 0 c specs1 c1 hb]
      · have hi : gd.Tok = .IMPORT := by
          cases hk2 : gd.Tok with
          | IMPORT => rfl
          | TYPE => exact absurd hk2 hk
          | CONST => simp [GenDecl.isValue, hk2] at hv
          | VAR => simp [GenDecl.isValue, hk2] at hv
        simp only [buildDecl, hi, Result.ok.injEq, Prod.mk.injEq] at h
        rw [← h.1]

theorem buildDecls_fields (E : Env) (T : String) (decls : List Decl) :
    ∀ (i : Nat) (c : CommentMap) (decls1 : List Decl) (c1 : CommentMap),
      buildDecls E T i decls c = .ok (decls1, c1) →
      decls1.map Decl.withoutVisitedDocs = decls.map Decl.withoutVisitedDocs := by
  induction decls with
  | nil =>
    intro i c decls1 c1 h
    simp only [buildDecls, Result.ok.injEq, Prod.mk.injEq] at h
    rw [← h.1]
  | cons d rest ih =>
    intro i c decls1 c1 h
    simp only [buildDecls] at h
    cases hd : buildDecl E T i d c with
    | panic e => simp [hd] at h
    | ok pr =>
      obtain ⟨d1, cm⟩ := pr
      simp only [hd] at h
      cases hb : buildDecls E T (i + 1) rest cm with
      | panic e => simp [hb] at h
      | ok pr2 =>
        obtain ⟨rest1, cm2⟩ := pr2
        simp only [hb, Result.ok.injEq, Prod.mk.injEq] at h
        rw [← h.1]
        simp only [List.map_cons, buildDecl_fields E T i d d1 c cm hd,
          ih (i + 1) cm rest1 cm2 hb]

theorem buildComments_file (E : Env) (af af1 : File) (T : String)
    (h : buildComments E af T = .ok af1) :
    af1.Package = af.Package ∧ af1.Name = af.Name := by
  by_cases hc : af.Comments.length = 0
  · obtain ⟨_, h2⟩ := buildComments_of_nil E af af1 T hc h
    rw [h2]
    exact ⟨rfl, rfl⟩
  · obtain ⟨cm, _, he⟩ := buildComments_of_map E af af1 T hc h
    rw [he]
    exact ⟨rfl, rfl⟩

/-! ## When `buildComments` returns -/

theorem guard_total (doc : Option CommentGroup) (name : String)
    (h : docReadable doc = true) : ∃ b, docIsNilOrName doc (.ok name) = .ok b := by
  cases doc with
  | none => exact ⟨true, rfl⟩
  | some g => exact guard_of_readable g name h

theorem addFuncDeclComment_returns (E : Env) (fd : FuncDecl) (ft : FuncType) (T : String)
    (hT : fd.Typ = some ft) (hr : docReadable fd.Doc = true) :
    ∃ fd1, addFuncDeclComment E fd T = .ok fd1 := by
  obtain ⟨b, hb⟩ := guard_total fd.Doc fd.Name.Name hr
  cases b with
  | false => exact ⟨fd, addFuncDeclComment_keep E fd T hb⟩
  | true => exact ⟨_, addFuncDeclComment_rewrite E fd ft T hT hb⟩

theorem addTypeSpecComment_returns (E : Env) (gd : GenDecl) (ts : TypeSpec) (T : String)
    (hr : docReadable gd.Doc = true) : ∃ gd1, addTypeSpecComment E gd ts T = .ok gd1 := by
  obtain ⟨b, hb⟩ := guard_total gd.Doc ts.Name.Name hr
  cases b with
  | false => exact ⟨gd, addTypeSpecComment_keep E gd ts T hb⟩
  | true => exact ⟨_, addTypeSpecComment_rewrite E gd ts T hb⟩

theorem addValueSpecComment_returns (E : Env) (gd : GenDecl) (vs : ValueSpec) (T : String)
    (n : Ident) (ns : List Ident) (hn : vs.Names = n :: ns)
    (hr : docReadable gd.Doc = true) : ∃ gd1, addValueSpecComment E gd vs T = .ok gd1 := by
  obtain ⟨b, hb⟩ := guard_total gd.Doc n.Name hr
  cases b with
  | false => exact ⟨gd, addValueSpecComment_keep E gd vs T n ns hn hb⟩
  | true => exact ⟨_, addValueSpecComment_rewrite E gd vs T n ns hn hb⟩

theorem addParenValueSpecComment_returns (E : Env) (vs : ValueSpec) (T : String)
    (n : Ident) (ns : List Ident) (hn : vs.Names = n :: ns)
    (hr : docReadable vs.Doc = true) : ∃ vs1, addParenValueSpecComment E vs T = .ok vs1 := by
  obtain ⟨b, hb⟩ := guard_total vs.Doc n.Name hr
  cases b with
  | false => exact ⟨vs, addParenValueSpecComment_keep E vs T n ns hn hb⟩
  | true => exact ⟨_, addParenValueSpecComment_rewrite E vs T n ns hn hb⟩

theorem buildSpecs_returns (E : Env) (T : String) (i : Nat) (specs : List Spec)
    (h : ∀ sp ∈ specs, sp.isValue = true ∧ sp.hasName = true ∧
      docReadable sp.valueDoc = true) :
    ∀ (j : Nat) (c : CommentMap), ∃ specs1 c1, buildSpecs E T i j specs c = .ok (specs1, c1) := by
  induction specs with
  | nil => exact fun j c => ⟨[], c, rfl⟩
  | cons sp rest ih =>
    intro j c
    obtain ⟨h1, h2, h3⟩ := h sp (by simp)
    cases sp with
    | Import x => simp [Spec.isValue] at h1
    | Typ x => simp [Spec.isValue] at h1
    | Value vs =>
      simp only [Spec.hasName, Bool.not_eq_true', List.isEmpty_eq_false] at h2
      obtain ⟨n, ns, hn⟩ := List.exists_cons_of_ne_nil h2
      obtain ⟨vs1, ha⟩ := addParenValueSpecComment_returns E vs T n ns hn h3
      obtain ⟨rest1, c1, hb⟩ := ih (fun x hx => h x (by simp [hx])) (j + 1)
        (CommentMap.set c (.spec i j) (docEntry vs1.Doc))
      exact ⟨.Value vs1 :: rest1, c1, by simp [buildSpecs, ha, hb]⟩

theorem buildDecl_returns (E : Env) (T : String) (i : Nat) (d : Decl) (c : CommentMap)
    (h1 : d.specsPresent = true) (h2 : d.wellTyped = true)
    (h3 : ∀ doc ∈ visitedDocs d, docReadable doc = true) :
    ∃ d1 c1, buildDecl E T i d c = .ok (d1, c1) := by
  cases d with
  | Bad f t => exact ⟨_, _, rfl⟩
  | Func fd =>
    simp only [Decl.wellTyped, Option.isSome_iff_exists] at h2
    obtain ⟨ft, hT⟩ := h2
    obtain ⟨fd1, ha⟩ := addFuncDeclComment_returns E fd ft T hT
      (h3 fd.Doc (by simp [visitedDocs]))
    exact ⟨_, _, buildDecl_func E T i fd fd1 c ha⟩
  | Gen gd =>
    cases hk : gd.Tok with
    | IMPORT => exact ⟨.Gen gd, c, by simp [buildDecl, hk]⟩
    | TYPE =>
      simp only [Decl.specsPresent, hk] at h1
      simp only [Decl.wellTyped, hk] at h2
      simp only [visitedDocs, hk, List.mem_singleton, forall_eq] at h3
      cases hs : gd.Specs with
      | nil => simp [hs] at h1
      | cons sp rest =>
        cases sp with
        | Import x => simp [hs, Spec.isType] at h2
        | Value x => simp [hs, Spec.isType] at h2
        | Typ ts =>
          obtain ⟨gd1, ha⟩ := addTypeSpecComment_returns E gd ts T h3
          exact ⟨_, _, buildDecl_type E T i gd gd1 ts rest c hk hs ha⟩
    | CONST =>
      have hv : gd.isValue = true := by simp [GenDecl.isValue, hk]
      cases hu : gd.ungrouped with
      | true =>
        simp only [Decl.specsPresent, hk, hu, if_true] at h1
        simp only [Decl.wellTyped, hk, hu, if_true] at h2
        simp only [visitedDocs, hk, hu, if_true, List.mem_singleton, forall_eq] at h3
        cases hs : gd.Specs with
        | nil => simp [hs] at h1
        | cons sp rest =>
          cases sp with
          | Import x => simp [hs, Spec.isValue] at h2
          | Typ x => simp [hs, Spec.isValue] at h2
          | Value vs =>
            simp only [hs, Spec.hasName, Bool.not_eq_true', List.isEmpty_eq_false] at h1
            obtain ⟨n, ns, hn⟩ := List.exists_cons_of_ne_nil h1
            obtain ⟨gd1, ha⟩ := addValueSpecComment_returns E gd vs T n ns hn h3
            exact ⟨_, _, buildDecl_ungrouped E T i gd gd1 vs rest c hv hu hs ha⟩
      | false =>
        simp only [Decl.specsPresent, hk, hu, Bool.false_eq_true, if_false,
          List.all_eq_true] at h1
        simp only [Decl.wellTyped, hk, hu, Bool.false_eq_true, if_false,
          List.all_eq_true] at h2
        simp only [visitedDocs, hk, hu, Bool.false_eq_true, if_false] at h3
        obtain ⟨specs1, c1, hb⟩ := buildSpecs_returns E T i gd.Specs
          (fun sp hsp => ⟨h2 sp hsp, h1 sp hsp,
            h3 _ (List.mem_map.mpr ⟨sp, hsp, rfl⟩)⟩) 0 c
        exact ⟨_, _, buildDecl_grouped_of E T i gd specs1 c c1 hv hu hb⟩
    | VAR =>
      have hv : gd.isValue = true := by simp [GenDecl.isValue, hk]
      cases hu : gd.ungrouped with
      | true =>
        simp only [Decl.specsPresent, hk, hu, if_true] at h1
        simp only [Decl.wellTyped, hk, hu, if_true] at h2
        simp only [visitedDocs, hk, hu, if_true, List.mem_singleton, forall_eq] at h3
        cases hs : gd.Specs with
        | nil => simp [hs] at h1
        | cons sp rest =>
          cases sp with
          | Import x => simp [hs, Spec.isValue] at h2
          | Typ x => simp [hs, Spec.isValue] at h2
          | Value vs =>
            simp only [hs, Spec.hasName, Bool.not_eq_true', List.isEmpty_eq_false] at h1
            obtain ⟨n, ns, hn⟩ := List.exists_cons_of_ne_nil h1
            obtain ⟨gd1, ha⟩ := addValueSpecComment_returns E gd vs T n ns hn h3
            exact ⟨_, _, buildDecl_ungrouped E T i gd gd1 vs rest c hv hu hs ha⟩
      | false =>
        simp only [Decl.specsPresent, hk, hu, Bool.false_eq_true, if_false,
          List.all_eq_true] at h1
        simp only [Decl.wellTyped, hk, hu, Bool.false_eq_true, if_false,
          List.all_eq_true] at h2
        simp only [visitedDocs, hk, hu, Bool.false_eq_true, if_false] at h3
        obtain ⟨specs1, c1, hb⟩ := buildSpecs_returns E T i gd.Specs
          (fun sp hsp => ⟨h2 sp hsp, h1 sp hsp,
            h3 _ (List.mem_map.mpr ⟨sp, hsp, rfl⟩)⟩) 0 c
        exact ⟨_, _, buildDecl_grouped_of E T i gd specs1 c c1 hv hu hb⟩

theorem buildDecls_returns (E : Env) (T : String) (decls : List Decl)
    (h : ∀ d ∈ decls, d.specsPresent = true ∧ d.wellTyped = true)
    (hr : docsReadable decls) :
    ∀ (i : Nat) (c : CommentMap), ∃ decls1 c1, buildDecls E T i decls c = .ok (decls1, c1) := by
  induction decls with
  | nil => exact fun i c => ⟨[], c, rfl⟩
  | cons d rest ih =>
    intro i c
    obtain ⟨h1, h2⟩ := h d (by simp)
    obtain ⟨d1, cm, hd⟩ := buildDecl_returns E T i d c h1 h2 (hr d (by simp))
    obtain ⟨rest1, c1, hb⟩ := ih (fun x hx => h x (by simp [hx]))
      (fun x hx => hr x (by simp [hx])) (i + 1) cm
    exact ⟨d1 :: rest1, c1, by simp [buildDecls, hd, hb]⟩

theorem buildComments_returns (E : Env) (af : File) (T : String)
    (hc : ¬ af.Comments.length = 0)
    (h : ∀ d ∈ af.Decls, d.specsPresent = true ∧ d.wellTyped = true)
    (hr : docsReadable af.Decls) : ∃ af1, buildComments E af T = .ok af1 := by
  obtain ⟨decls1, c1, hb⟩ := buildDecls_returns E T af.Decls h hr 0 (E.NewCommentMap af)
  exact ⟨{ af with Decls := decls1, Comments := (c1.Filter decls1).Comments },
    by simp only [buildComments, hc, if_false, hb]⟩

theorem buildDecls_panics (E : Env) (T : String) (decls : List Decl) :
    ∀ (n : Nat) (d : Decl), decls.get? n = some d →
      (∀ (i : Nat) (c : CommentMap), ∃ e, buildDecl E T i d c = .panic e) →
      ∀ (i : Nat) (c : CommentMap), ∃ e, buildDecls E T i decls c = .panic e := by
  induction decls with
  | nil =>
    intro n d hn
    simp at hn
  | cons x rest ih =>
    intro n d hn hp i c
    cases n with
    | zero =>
      simp only [List.get?_cons_zero, Option.some.injEq] at hn
      subst hn
      obtain ⟨e, he⟩ := hp i c
      exact ⟨e, by simp [buildDecls, he]⟩
    | succ m =>
      simp only [List.get?_cons_succ] at hn
      cases hx : buildDecl E T i x c with
      | panic e => exact ⟨e, by simp [buildDecls, hx]⟩
      | ok pr =>
        obtain ⟨x1, cm⟩ := pr
        obtain ⟨e, he⟩ := ih m d hn hp (i + 1) cm
        exact ⟨e, by simp [buildDecls, hx, he]⟩

theorem buildDeclsNil_panics (E : Env) (T : String) (decls : List Decl) :
    ∀ (n : Nat) (d : Decl), decls.get? n = some d →
      (∃ e, buildDeclNil E T d = .panic e) →
      ∃ e, buildDeclsNil E T decls = .panic e := by
  induction decls with
  | nil =>
    intro n d hn
    simp at hn
  | cons x rest ih =>
    intro n d hn hp
    cases n with
    | zero =>
      simp only [List.get?_cons_zero, Option.some.injEq] at hn
      subst hn
      obtain ⟨e, he⟩ := hp
      exact ⟨e, by simp [buildDeclsNil, he]⟩
    | succ m =>
      simp only [List.get?_cons_succ] at hn
      cases hx : buildDeclNil E T x with
      | panic e => exact ⟨e, by simp [buildDeclsNil, hx]⟩
      | ok x1 =>
        obtain ⟨e, he⟩ := ih m d hn hp
        exact ⟨e, by simp [buildDeclsNil, hx, he]⟩

/-! ## What an application that returns has read -/

theorem addFuncDeclComment_input_readable (E : Env) (fd fd1 : FuncDecl) (T : String)
    (h : addFuncDeclComment E fd T = .ok fd1) : docReadable fd.Doc = true := by
  cases hg : docIsNilOrName fd.Doc (.ok fd.Name.Name) with
  | panic e => simp [addFuncDeclComment, hg] at h
  | ok b => exact readable_of_guard _ _ b hg

theorem addTypeSpecComment_input_readable (E : Env) (gd gd1 : GenDecl) (ts : TypeSpec)
    (T : String) (h : addTypeSpecComment E gd ts T = .ok gd1) :
    docReadable gd.Doc = true := by
  cases hg : docIsNilOrName gd.Doc (.ok ts.Name.Name) with
  | panic e => simp [addTypeSpecComment, hg] at h
  | ok b => exact readable_of_guard _ _ b hg

theorem addValueSpecComment_input_readable (E : Env) (gd gd1 : GenDecl) (vs : ValueSpec)
    (T : String) (h : addValueSpecComment E gd vs T = .ok gd1) :
    docReadable gd.Doc = true := by
  obtain ⟨n, ns, hn⟩ := valueSpecName_of_add E gd gd1 vs T h
  cases hg : docIsNilOrName gd.Doc (.ok n.Name) with
  | panic e => simp [addValueSpecComment, valueSpecName_cons vs n ns hn, hg] at h
  | ok b => exact readable_of_guard _ _ b hg

theorem addParenValueSpecComment_input_readable (E : Env) (vs vs1 : ValueSpec)
    (T : String) (h : addParenValueSpecComment E vs T = .ok vs1) :
    docReadable vs.Doc = true := by
  obtain ⟨n, ns, hn⟩ := valueSpecName_of_addParen E vs vs1 T h
  cases hg : docIsNilOrName vs.Doc (.ok n.Name) with
  | panic e => simp [addParenValueSpecComment, valueSpecName_cons vs n ns hn, hg] at h
  | ok b => exact readable_of_guard _ _ b hg

theorem buildSpecs_input_readable (E : Env) (T : String) (i : Nat) (specs : List Spec) :
    ∀ (j : Nat) (c : CommentMap) (specs1 : List Spec) (c1 : CommentMap),
      buildSpecs E T i j specs c = .ok (specs1, c1) →
      ∀ doc ∈ specs.map Spec.valueDoc, docReadable doc = true := by
  induction specs with
  | nil =>
    intro j c specs1 c1 _ doc hdoc
    simp at hdoc
  | cons sp rest ih =>
    intro j c specs1 c1 h doc hdoc
    cases sp with
    | Import x => simp [buildSpecs] at h
    | Typ x => simp [buildSpecs] at h
    | Value vs =>
      simp only [buildSpecs] at h
      cases ha : addParenValueSpecComment E vs T with
      | panic e => simp [ha] at h
      | ok vs1 =>
        simp only [ha] at h
        cases hb : buildSpecs E T i (j + 1) rest
            (CommentMap.set c (.spec i j) (docEntry vs1.Doc)) with
        | panic e => simp [hb] at h
        | ok pr =>
          obtain ⟨rest1, cm⟩ := pr
          simp only [List.map_cons, List.mem_cons] at hdoc
          rcases hdoc with hd | hd
          · rw [hd]
            exact addParenValueSpecComment_input_readable E vs vs1 T ha
          · exact ih (j + 1) _ rest1 cm hb doc hd

theorem buildDecl_input_readable (E : Env) (T : String) (i : Nat) (d d1 : Decl)
    (c c1 : CommentMap) (h : buildDecl E T i d c = .ok (d1, c1)) :
    ∀ doc ∈ visitedDocs d, docReadable doc = true := by
  intro doc hdoc
  cases d with
  | Bad f t => simp [visitedDocs] at hdoc
  | Func fd =>
    obtain ⟨fd1, ha, _⟩ := buildDecl_func_inv E T i fd d1 c c1 h
    simp only [visitedDocs, List.mem_singleton] at hdoc
    rw [hdoc]
    exact addFuncDeclComment_input_readable E fd fd1 T ha
  | Gen gd =>
    cases hk : gd.Tok with
    | IMPORT => simp [visitedDocs, hk] at hdoc
    | TYPE =>
      obtain ⟨ts, rest, gd1, _, ha, _⟩ := buildDecl_type_inv E T i gd d1 c c1 hk h
      simp only [visitedDocs, hk, List.mem_singleton] at hdoc
      rw [hdoc]
      exact addTypeSpecComment_input_readable E gd gd1 ts T ha
    | CONST =>
      have hv : gd.isValue = true := by simp [GenDecl.isValue, hk]
      cases hu : gd.ungrouped with
      | true =>
        obtain ⟨vs, rest, gd1, _, ha, _⟩ :=
          buildDecl_ungrouped_inv E T i gd d1 c c1 hv hu h
        simp only [visitedDocs, hk, hu, if_true, List.mem_singleton] at hdoc
        rw [hdoc]
        exact addValueSpecComment_input_readable E gd gd1 vs T ha
      | false =>
        obtain ⟨specs1, hb, _⟩ := buildDecl_grouped E T i gd d1 c c1 hv hu h
        simp only [visitedDocs, hk, hu, Bool.false_eq_true, if_false] at hdoc
        exact buildSpecs_input_readable E T i gd.Specs 0 c specs1 c1 hb doc hdoc
    | VAR =>
      have hv : gd.isValue = true := by simp [GenDecl.isValue, hk]
      cases hu : gd.ungrouped with
      | true =>
        obtain ⟨vs, rest, gd1, _, ha, _⟩ :=
          buildDecl_ungrouped_inv E T i gd d1 c c1 hv hu h
        simp only [visitedDocs, hk, hu, if_true, List.mem_singleton] at hdoc
        rw [hdoc]
        exact addValueSpecComment_input_readable E gd gd1 vs T ha
      | false =>
        obtain ⟨specs1, hb, _⟩ := buildDecl_grouped E T i gd d1 c c1 hv hu h
        simp only [visitedDocs, hk, hu, Bool.false_eq_true, if_false] at hdoc
        exact buildSpecs_input_readable E T i gd.Specs 0 c specs1 c1 hb doc hdoc

theorem buildDecls_input_readable (E : Env) (T : String) (decls : List Decl) :
    ∀ (i : Nat) (c : CommentMap) (decls1 : List Decl) (c1 : CommentMap),
      buildDecls E T i decls c = .ok (decls1, c1) → docsReadable decls := by
  induction decls with
  | nil =>
    intro i c decls1 c1 _ d hd
    simp at hd
  | cons d rest ih =>
    intro i c decls1 c1 h
    simp only [buildDecls] at h
    cases hd : buildDecl E T i d c with
    | panic e => simp [hd] at h
    | ok pr =>
      obtain ⟨d1, cm⟩ := pr
      simp only [hd] at h
      cases hb : buildDecls E T (i + 1) rest cm with
      | panic e => simp [hb] at h
      | ok pr2 =>
        obtain ⟨rest1, cm2⟩ := pr2
        intro x hx
        simp only [List.mem_cons] at hx
        rcases hx with hx | hx
        · rw [hx]
          exact buildDecl_input_readable E T i d d1 c cm hd
        · exact ih (i + 1) cm rest1 cm2 hb x hx

theorem buildComments_input_readable (E : Env) (af af1 : File) (T : String)
    (h : buildComments E af T = .ok af1) : docsReadable af.Decls := by
  obtain ⟨cm, hb⟩ := buildComments_decls E af af1 T h
  exact buildDecls_input_readable E T af.Decls 0 _ _ _ hb

theorem startsComment_base (t : String) : startsComment ("// %s " ++ t).data :=
  ⟨'/', ' ' :: '%' :: 's' :: ' ' :: t.data, by simp, by decide, by decide⟩

theorem startsComment_indentedBase (t : String) : startsComment ("\t// %s " ++ t).data :=
  ⟨'\t', '/' :: ' ' :: '%' :: 's' :: ' ' :: t.data, by simp, by decide, by decide⟩

theorem mem_comments_of_mem (c : CommentMap) (decls : List Decl) (k : NodeKey)
    (l : List CommentGroup) (g : CommentGroup)
    (h : c.get k = some l) (hg : g ∈ l) (hn : nodeExists decls k = true) :
    g ∈ (c.Filter decls).Comments := by
  have hm : (k, l) ∈ c.Filter decls := by
    simp only [CommentMap.Filter, List.mem_filter]
    exact ⟨mem_of_get c k l h, hn⟩
  simp only [CommentMap.Comments, mem_sortComments, List.mem_flatten, List.mem_map]
  exact ⟨l, ⟨(k, l), hm, rfl⟩, hg⟩

theorem parseFile_returns (E : Env) (af : File) (t : String)
    (h : ∀ d ∈ af.Decls, d.specsPresent = true ∧ d.wellTyped = true)
    (hr : docsReadable af.Decls)
    (hs : af.Comments.length = 0 →
      ∃ n, (E.NewCommentMap { af with Comments := [injectedComment] }).get (.inner n)
        = some [injectedComment]) :
    ∃ af1, parseFile E (.ok af) t = .ok (.ok af1) := by
  by_cases hc : af.Comments.length = 0
  · obtain ⟨n, hn⟩ := hs hc
    have hc1 : ¬ ({ af with Comments := [injectedComment] } : File).Comments.length = 0 := by
      simp
    obtain ⟨af1, hb⟩ := buildComments_returns E { af with Comments := [injectedComment] }
      (E.commentBase ++ t) hc1 h hr
    obtain ⟨cm, hd, he⟩ := buildComments_of_map E _ af1 _ hc1 hb
    obtain ⟨hf, _⟩ := buildDecls_registry E _ af.Decls 0 _ _ _ hd
    have hg : cm.get (.inner n) = some [injectedComment] := by
      rw [hf (.inner n) (fun m => by simp) (fun m j => by simp)]
      exact hn
    have hm : injectedComment ∈ af1.Comments := by
      rw [he]
      exact mem_comments_of_mem cm af1.Decls (.inner n) _ _ hg (by simp) rfl
    cases hcs : af1.Comments with
    | nil => simp [hcs] at hm
    | cons x cs =>
      exact ⟨{ af1 with Comments := cs }, by simp only [parseFile, hc, if_true, hb, hcs]⟩
  · obtain ⟨af1, hb⟩ := buildComments_returns E af (E.commentBase ++ t) hc h hr
    exact ⟨af1, by simp only [parseFile, hc, if_false, hb]⟩

/-! ## Calls of `buildComments` that `parseFile` does not make -/

/-- With the template `%s` handed to `buildComments` itself (`parseFile`
passes `commentBase` followed by the template) the declaration `const A = 1`
gets the one-byte doc `A`, and a second application stops in `Doc.Text()`
with an index out of range (`c[1]` of a one-byte text). -/
theorem one_byte_doc_stops_second_application :
    buildComments sampleEnv fileConstA "%s" = .ok constADone ∧
    buildComments sampleEnv constADone "%s" = .panic .indexOutOfRange ∧
    addValueSpecComment sampleEnv constA ⟨none, [⟨26, "A"⟩], none, [], none⟩ "%s"
      = .ok { constA with Doc := some ⟨⟨19, "A"⟩, []⟩ } ∧
    addValueSpecComment sampleEnv { constA with Doc := some ⟨⟨19, "A"⟩, []⟩ }
        ⟨none, [⟨26, "A"⟩], none, [], none⟩ "%s"
      = .panic .indexOutOfRange := by
  decide

/-- On a file with an empty comment list `buildComments` itself panics at the
first assignment to the nil map; `parseFile` injects a comment before the
call, and returns on the same file. -/
theorem nil_map_panics_without_injected_comment :
    buildComments sampleEnv (fileOf [.Func funcBare]) "// %s ..." = .panic .nilMap ∧
    parseFile sampleEnv (.ok (fileOf [.Func funcBare])) "..."
      = .ok (.ok { fileOf [.Func { funcBare with Doc := some ⟨⟨9, "// F ..."⟩, []⟩ }] with
          Comments := [⟨⟨9, "// F ..."⟩, []⟩] }) :=
  ⟨by decide, rfl⟩

/-! ## Claims -/

/-- C3: a function declaration that is rewritten gets the rendered template
line, directly followed by one line `// @<name>: <type>` per name of each
parameter field, in parameter-list order (a field with several names gives
one line per name, all with the type text of the field), followed by the
result section. -/
theorem c3_param_lines_follow_template_line (E : Env) (fd : FuncDecl) (ft : FuncType)
    (T : String) (hT : fd.Typ = some ft)
    (hg : docIsNilOrName fd.Doc (.ok fd.Name.Name) = .ok true) :
    addFuncDeclComment E fd T
      = .ok { fd with
          Doc := some ⟨⟨posMinusOne ft.Pos,
            Sprintf E T [.ident fd.Name]
              ++ concatLines (paramLines ft.Params)
              ++ concatLines (resultLines ft.Results)⟩, []⟩ } := by
  rw [addFuncDeclComment_rewrite E fd ft T hT hg, funcDeclText_eq E fd ft T hT]

/-- C3 at `func F(a, b int)` with the template `// %s ...`: the lines
`// @a: int` and `// @b: int` follow the template line. -/
theorem c3_param_lines_witness :
    addFuncDeclComment sampleEnv funcAB "// %s ..."
      = .ok { funcAB with
          Doc := some ⟨⟨9, "// F ...\n// @a: int\n// @b: int"⟩, []⟩ } :=
  (c3_param_lines_follow_template_line sampleEnv funcAB
    ⟨10, some ⟨16, [⟨[⟨17, "a"⟩, ⟨20, "b"⟩], some tyInt⟩], 25⟩, none⟩
    "// %s ..." rfl (by decide)).trans (by decide)

/-- C4: a function declaration that is rewritten and has a result list gets,
after all parameter lines, the line `// returns:` followed by the result
lines in source order: `// @<name>: <type>` per name of a named field,
`// #1: <type>` for a field without names. -/
theorem c4_returns_section_after_params (E : Env) (fd : FuncDecl) (ft : FuncType)
    (rs : FieldList) (T : String) (hT : fd.Typ = some ft) (hR : ft.Results = some rs)
    (hg : docIsNilOrName fd.Doc (.ok fd.Name.Name) = .ok true) :
    addFuncDeclComment E fd T
      = .ok { fd with
          Doc := some ⟨⟨posMinusOne ft.Pos,
            Sprintf E T [.ident fd.Name]
              ++ concatLines (paramLines ft.Params)
              ++ "\n// returns:"
              ++ concatLines
                  (rs.List.map (fun v =>
                    if v.Names = [] then ["// #1: " ++ fmtType v.Typ]
                    else v.Names.map
                      (fun name => "// @" ++ name.Name ++ ": " ++ fmtType v.Typ))).flatten⟩,
            []⟩ } := by
  rw [addFuncDeclComment_rewrite E fd ft T hT hg, funcDeclText_eq E fd ft T hT, hR]
  have h1 : (fun v : Field =>
        if v.Names = [] then ["// #1: " ++ fmtType v.Typ]
        else v.Names.map (fun name => "// @" ++ name.Name ++ ": " ++ fmtType v.Typ))
      = resultFieldLines 1 := by
    funext v
    by_cases h : v.Names = []
    · simp only [h, resultFieldLines, if_true]
      rfl
    · simp only [h, resultFieldLines, if_false]
      rfl
  rw [h1]
  simp only [resultLines, concatLines, String.append_assoc]
  rfl

/-- C4 at `func F() (x int, error)` with the template `// %s ...`: the lines
are `// returns:`, `// @x: int`, `// #1: error`. -/
theorem c4_returns_section_witness :
    addFuncDeclComment sampleEnv funcNamedThenUnnamed "// %s ..."
      = .ok { funcNamedThenUnnamed with
          Doc := some ⟨⟨9, "// F ...\n// returns:\n// @x: int\n// #1: error"⟩, []⟩ } :=
  (c4_returns_section_after_params sampleEnv funcNamedThenUnnamed
    ⟨10, some ⟨16, [], 17⟩,
      some ⟨19, [⟨[⟨20, "x"⟩], some tyInt⟩, ⟨[], some tyError⟩], 32⟩⟩
    ⟨19, [⟨[⟨20, "x"⟩], some tyInt⟩, ⟨[], some tyError⟩], 32⟩
    "// %s ..." rfl rfl (by decide)).trans (by decide)

/-- C5: for `func F() (int, error)` the code prints `#1` for both results;
the second result is not given the index 2. -/
theorem c5_second_unnamed_result_prints_index_one :
    addFuncDeclComment sampleEnv funcIntError "// %s ..."
      = .ok { funcIntError with
          Doc := some ⟨⟨9, "// F ...\n// returns:\n// #1: int\n// #1: error"⟩, []⟩ } := by
  decide

/-- C2: in each of the four rewriting functions the doc is replaced exactly
when it is nil or its trimmed text equals the name of the declaration
(`fd.Name.Name`, `ts.Name.Name`, `vs.Names[0].Name`): under that condition the
new doc is a group of one comment carrying the rendered text, and a
meaningful doc is returned as it was. -/
theorem c2_same_guard_in_all_four (E : Env) (T : String) :
    (∀ (fd : FuncDecl) (ft : FuncType), fd.Typ = some ft →
        IsNilOrName fd.Doc fd.Name.Name →
        addFuncDeclComment E fd T
          = .ok { fd with Doc := some ⟨⟨posMinusOne ft.Pos, funcDeclText E fd T⟩, []⟩ }) ∧
    (∀ (fd : FuncDecl), IsMeaningful fd.Doc fd.Name.Name →
        addFuncDeclComment E fd T = .ok fd) ∧
    (∀ (gd : GenDecl) (ts : TypeSpec), IsNilOrName gd.Doc ts.Name.Name →
        addTypeSpecComment E gd ts T
          = .ok { gd with
              Doc := some ⟨⟨posMinusOne gd.Pos, Sprintf E T [.str ts.Name.Name]⟩, []⟩ }) ∧
    (∀ (gd : GenDecl) (ts : TypeSpec), IsMeaningful gd.Doc ts.Name.Name →
        addTypeSpecComment E gd ts T = .ok gd) ∧
    (∀ (gd : GenDecl) (vs : ValueSpec) (n : Ident) (ns : List Ident),
        vs.Names = n :: ns → IsNilOrName gd.Doc n.Name →
        addValueSpecComment E gd vs T
          = .ok { gd with
              Doc := some ⟨⟨posMinusOne gd.Pos, Sprintf E T [.str n.Name]⟩, []⟩ }) ∧
    (∀ (gd : GenDecl) (vs : ValueSpec) (n : Ident) (ns : List Ident),
        vs.Names = n :: ns → IsMeaningful gd.Doc n.Name →
        addValueSpecComment E gd vs T = .ok gd) ∧
    (∀ (vs : ValueSpec) (n : Ident) (ns : List Ident),
        vs.Names = n :: ns → IsNilOrName vs.Doc n.Name →
        addParenValueSpecComment E vs T
          = .ok { vs with
              Doc := some ⟨⟨posMinusOne n.NamePos,
                Sprintf E (ReplaceFirst T E.commentBase E.commentIndentedBase)
                  [.str n.Name]⟩, []⟩ }) ∧
    (∀ (vs : ValueSpec) (n : Ident) (ns : List Ident),
        vs.Names = n :: ns → IsMeaningful vs.Doc n.Name →
        addParenValueSpecComment E vs T = .ok vs) := by
  refine ⟨?_, ?_, ?_, ?_, ?_, ?_, ?_, ?_⟩
  · intro fd ft hT h
    exact addFuncDeclComment_rewrite E fd ft T hT (guard_of_isNilOrName _ _ h)
  · intro fd h
    exact addFuncDeclComment_keep E fd T (guard_of_isMeaningful _ _ h)
  · intro gd ts h
    exact addTypeSpecComment_rewrite E gd ts T (guard_of_isNilOrName _ _ h)
  · intro gd ts h
    exact addTypeSpecComment_keep E gd ts T (guard_of_isMeaningful _ _ h)
  · intro gd vs n ns hn h
    exact addValueSpecComment_rewrite E gd vs T n ns hn (guard_of_isNilOrName _ _ h)
  · intro gd vs n ns hn h
    exact addValueSpecComment_keep E gd vs T n ns hn (guard_of_isMeaningful _ _ h)
  · intro vs n ns hn h
    exact addParenValueSpecComment_rewrite E vs T n ns hn (guard_of_isNilOrName _ _ h)
  · intro vs n ns hn h
    exact addParenValueSpecComment_keep E vs T n ns hn (guard_of_isMeaningful _ _ h)

/-- C2 at `func F(a, b int)` without a doc: the doc is replaced by one
comment carrying the rendered text. -/
theorem c2_same_guard_witness :
    addFuncDeclComment sampleEnv funcAB "// %s ..."
      = .ok { funcAB with
          Doc := some ⟨⟨posMinusOne 10, funcDeclText sampleEnv funcAB "// %s ..."⟩, []⟩ } :=
  (c2_same_guard_in_all_four sampleEnv "// %s ...").1 funcAB
    ⟨10, some ⟨16, [⟨[⟨17, "a"⟩, ⟨20, "b"⟩], some tyInt⟩], 25⟩, none⟩ rfl (Or.inl rfl)

/-- C9: a synthesized doc is anchored at the start of its node minus one, as
the machine subtraction `X.Pos() - token.Pos(1)` gives it: `fd.Pos() - 1`
for a function, `gd.Pos() - 1` for a TYPE declaration and for a CONST or VAR
declaration without parentheses, and for each spec of a parenthesized CONST
or VAR declaration the position of the spec itself (`vs.Pos()`, the position
of `Names[0]`) minus one.  The machine subtraction is the integer `p - 1` for
every position above the least 64-bit integer. -/
theorem c9_anchor_one_before_start (E : Env) (T : String) (i : Nat) (cmap : CommentMap) :
    (∀ (fd : FuncDecl) (p : Int), fd.Pos = .ok p →
        IsNilOrName fd.Doc fd.Name.Name →
        ∃ text cmap1, buildDecl E T i (.Func fd) cmap
          = .ok (.Func { fd with Doc := some ⟨⟨posMinusOne p, text⟩, []⟩ }, cmap1)) ∧
    (∀ (gd : GenDecl) (ts : TypeSpec) (rest : List Spec),
        gd.Tok = .TYPE → gd.Specs = .Typ ts :: rest →
        IsNilOrName gd.Doc ts.Name.Name →
        ∃ text cmap1, buildDecl E T i (.Gen gd) cmap
          = .ok (.Gen { gd with Doc := some ⟨⟨posMinusOne gd.Pos, text⟩, []⟩ }, cmap1)) ∧
    (∀ (gd : GenDecl) (vs : ValueSpec) (rest : List Spec) (n : Ident) (ns : List Ident),
        gd.isValue = true → gd.ungrouped = true →
        gd.Specs = .Value vs :: rest → vs.Names = n :: ns →
        IsNilOrName gd.Doc n.Name →
        ∃ text cmap1, buildDecl E T i (.Gen gd) cmap
          = .ok (.Gen { gd with Doc := some ⟨⟨posMinusOne gd.Pos, text⟩, []⟩ }, cmap1)) ∧
    (∀ (gd : GenDecl) (d1 : Decl) (cmap1 : CommentMap) (j : Nat) (vs : ValueSpec)
        (n : Ident) (ns : List Ident),
        gd.isValue = true → gd.ungrouped = false →
        buildDecl E T i (.Gen gd) cmap = .ok (d1, cmap1) →
        gd.Specs.get? j = some (.Value vs) → vs.Names = n :: ns →
        IsNilOrName vs.Doc n.Name →
        vs.Pos = .ok n.NamePos ∧
        ∃ gd1 text, d1 = .Gen gd1 ∧ gd1.Doc = gd.Doc ∧
          gd1.Specs.get? j
            = some (.Value { vs with
                Doc := some ⟨⟨posMinusOne n.NamePos, text⟩, []⟩ })) ∧
    (∀ p : Int, posInRange p → posMinusOne p = p - 1) := by
  refine ⟨?_, ?_, ?_, ?_, ?_⟩
  · intro fd p hp hg
    obtain ⟨ft, hT, hp2⟩ := funcDecl_pos_ok fd p hp
    subst hp2
    refine ⟨funcDeclText E fd T,
      cmap.set (.decl i)
        (docEntry (some ⟨⟨posMinusOne ft.Pos, funcDeclText E fd T⟩, []⟩)), ?_⟩
    exact buildDecl_func E T i fd _ cmap
      (addFuncDeclComment_rewrite E fd ft T hT (guard_of_isNilOrName _ _ hg))
  · intro gd ts rest hk hs hg
    refine ⟨Sprintf E T [.str ts.Name.Name],
      cmap.set (.decl i)
        (docEntry (some ⟨⟨posMinusOne gd.Pos, Sprintf E T [.str ts.Name.Name]⟩, []⟩)), ?_⟩
    exact buildDecl_type E T i gd _ ts rest cmap hk hs
      (addTypeSpecComment_rewrite E gd ts T (guard_of_isNilOrName _ _ hg))
  · intro gd vs rest n ns hk hu hs hn hg
    refine ⟨Sprintf E T [.str n.Name],
      cmap.set (.decl i)
        (docEntry (some ⟨⟨posMinusOne gd.Pos, Sprintf E T [.str n.Name]⟩, []⟩)), ?_⟩
    exact buildDecl_ungrouped E T i gd _ vs rest cmap hk hu hs
      (addValueSpecComment_rewrite E gd vs T n ns hn (guard_of_isNilOrName _ _ hg))
  · intro gd d1 cmap1 j vs n ns hk hu h hj hn hg
    refine ⟨by simp [ValueSpec.Pos, firstName, hn], ?_⟩
    obtain ⟨gd1, vs1, hd, _, ha, hget⟩ :=
      buildDecl_grouped_get E T i gd d1 cmap cmap1 hk hu h j vs hj
    rw [addParenValueSpecComment_rewrite E vs T n ns hn
      (guard_of_isNilOrName _ _ hg)] at ha
    simp only [Result.ok.injEq] at ha
    subst ha
    obtain ⟨specs1, _, hd2⟩ := buildDecl_grouped E T i gd d1 cmap cmap1 hk hu h
    rw [hd] at hd2
    simp only [Decl.Gen.injEq] at hd2
    exact ⟨gd1, _, hd, by rw [hd2], hget⟩
  · intro p hp
    exact posMinusOne_eq p hp

/-- C9 at `func F(a, b int)` starting at offset 10: the new comment is at
offset 9. -/
theorem c9_anchor_witness :
    funcAB.Pos = .ok 10 ∧ posMinusOne 10 = 9 ∧
    ∃ text cmap1, buildDecl sampleEnv "// %s ..." 0 (.Func funcAB) []
      = .ok (.Func { funcAB with Doc := some ⟨⟨posMinusOne 10, text⟩, []⟩ }, cmap1) :=
  ⟨rfl, by decide,
    (c9_anchor_one_before_start sampleEnv "// %s ..." 0 []).1 funcAB 10 rfl (Or.inl rfl)⟩

/-- C1: a declaration visited by `buildComments` whose doc is present and
whose trimmed text differs from its name comes out of `buildComments`
unchanged, doc included, for every template: a function, a TYPE declaration,
a CONST or VAR declaration without parentheses, and a spec of a
parenthesized CONST or VAR declaration. -/
theorem c1_meaningful_doc_is_kept (E : Env) (af af1 : File) (T : String)
    (h : buildComments E af T = .ok af1) :
    (∀ (i : Nat) (fd : FuncDecl), af.Decls.get? i = some (.Func fd) →
        IsMeaningful fd.Doc fd.Name.Name →
        af1.Decls.get? i = some (.Func fd)) ∧
    (∀ (i : Nat) (gd : GenDecl) (ts : TypeSpec) (rest : List Spec),
        af.Decls.get? i = some (.Gen gd) → gd.Tok = .TYPE →
        gd.Specs = .Typ ts :: rest → IsMeaningful gd.Doc ts.Name.Name →
        af1.Decls.get? i = some (.Gen gd)) ∧
    (∀ (i : Nat) (gd : GenDecl) (vs : ValueSpec) (rest : List Spec)
        (n : Ident) (ns : List Ident),
        af.Decls.get? i = some (.Gen gd) →
        gd.isValue = true → gd.ungrouped = true →
        gd.Specs = .Value vs :: rest → vs.Names = n :: ns →
        IsMeaningful gd.Doc n.Name →
        af1.Decls.get? i = some (.Gen gd)) ∧
    (∀ (i j : Nat) (gd : GenDecl) (vs : ValueSpec) (n : Ident) (ns : List Ident),
        af.Decls.get? i = some (.Gen gd) →
        gd.isValue = true → gd.ungrouped = false →
        gd.Specs.get? j = some (.Value vs) → vs.Names = n :: ns →
        IsMeaningful vs.Doc n.Name →
        ∃ gd1, af1.Decls.get? i = some (.Gen gd1) ∧
          gd1.Specs.get? j = some (.Value vs)) := by
  refine ⟨?_, ?_, ?_, ?_⟩
  · intro i fd hd hm
    obtain ⟨c, d1, c1, hb, hg⟩ := buildComments_get E af af1 T h i _ hd
    rw [buildDecl_func E T i fd fd c
      (addFuncDeclComment_keep E fd T (guard_of_isMeaningful _ _ hm))] at hb
    simp only [Result.ok.injEq, Prod.mk.injEq] at hb
    rw [hg, ← hb.1]
  · intro i gd ts rest hd hk hs hm
    obtain ⟨c, d1, c1, hb, hg⟩ := buildComments_get E af af1 T h i _ hd
    rw [buildDecl_type E T i gd gd ts rest c hk hs
      (addTypeSpecComment_keep E gd ts T (guard_of_isMeaningful _ _ hm))] at hb
    simp only [Result.ok.injEq, Prod.mk.injEq] at hb
    rw [hg, ← hb.1]
  · intro i gd vs rest n ns hd hk hu hs hn hm
    obtain ⟨c, d1, c1, hb, hg⟩ := buildComments_get E af af1 T h i _ hd
    rw [buildDecl_ungrouped E T i gd gd vs rest c hk hu hs
      (addValueSpecComment_keep E gd vs T n ns hn (guard_of_isMeaningful _ _ hm))] at hb
    simp only [Result.ok.injEq, Prod.mk.injEq] at hb
    rw [hg, ← hb.1]
  · intro i j gd vs n ns hd hk hu hj hn hm
    obtain ⟨c, d1, c1, hb, hg⟩ := buildComments_get E af af1 T h i _ hd
    obtain ⟨gd1, vs1, hd1, _, ha, hget⟩ :=
      buildDecl_grouped_get E T i gd d1 c c1 hk hu hb j vs hj
    rw [addParenValueSpecComment_keep E vs T n ns hn (guard_of_isMeaningful _ _ hm)] at ha
    simp only [Result.ok.injEq] at ha
    subst ha
    exact ⟨gd1, by rw [hg, hd1], hget⟩

/-- C1 at the file holding the documented `func F()`: `buildComments`
returns and the declaration comes out as it went in. -/
theorem c1_meaningful_doc_witness :
    buildComments sampleEnv fileDocumented "// %s ..." = .ok fileDocumented ∧
      fileDocumented.Decls.get? 0 = some (.Func funcDocumented) :=
  ⟨by decide,
    (c1_meaningful_doc_is_kept sampleEnv fileDocumented fileDocumented
      "// %s ..." (by decide)).1 0 funcDocumented rfl
      ⟨⟨⟨1, "// F is documented."⟩, []⟩, some "F is documented.\n", rfl, by decide,
        by intro s hs; cases hs; decide⟩⟩

/-- C6: for every file and every template, a second application of
`buildComments` that returns leaves every declaration as the first one left
it, docs with their text and position included, and so does a third; it
returns whenever `Doc.Text()` returns on the docs the first application
left, which is so for every template `parseFile` passes (`commentBase`
followed by the template, with `commentBase` being `// %s ` and
`commentIndentedBase` a tab followed by `// %s `).  The same holds for each
of the four rewriting functions applied to its own result. -/
theorem c6_second_application_changes_nothing (E : Env) (T : String) :
    (∀ (af af1 af2 : File), buildComments E af T = .ok af1 →
        buildComments E af1 T = .ok af2 →
        af2.Decls = af1.Decls ∧
        ∀ af3, buildComments E af2 T = .ok af3 → af3.Decls = af1.Decls) ∧
    (∀ (af af1 : File), buildComments E af T = .ok af1 → docsReadable af1.Decls →
        ∃ af2, buildComments E af1 T = .ok af2 ∧ af2.Decls = af1.Decls ∧
          ∃ af3, buildComments E af2 T = .ok af3 ∧ af3.Decls = af1.Decls) ∧
    (∀ t : String, E.commentBase = "// %s " → E.commentIndentedBase = "\t// %s " →
        T = E.commentBase ++ t →
        (∀ (af af1 : File), buildComments E af T = .ok af1 →
          ∃ af2, buildComments E af1 T = .ok af2 ∧ af2.Decls = af1.Decls ∧
            ∃ af3, buildComments E af2 T = .ok af3 ∧ af3.Decls = af1.Decls) ∧
        (∀ (fd fd1 : FuncDecl), addFuncDeclComment E fd T = .ok fd1 →
          addFuncDeclComment E fd1 T = .ok fd1) ∧
        (∀ (gd gd1 : GenDecl) (ts : TypeSpec), addTypeSpecComment E gd ts T = .ok gd1 →
          addTypeSpecComment E gd1 ts T = .ok gd1) ∧
        (∀ (gd gd1 : GenDecl) (vs : ValueSpec), addValueSpecComment E gd vs T = .ok gd1 →
          addValueSpecComment E gd1 vs T = .ok gd1) ∧
        (∀ (vs vs1 : ValueSpec), addParenValueSpecComment E vs T = .ok vs1 →
          addParenValueSpecComment E vs1 T = .ok vs1)) ∧
    (∀ (fd fd1 : FuncDecl), addFuncDeclComment E fd T = .ok fd1 →
        (∀ fd2, addFuncDeclComment E fd1 T = .ok fd2 → fd2 = fd1) ∧
        (docReadable fd1.Doc = true → addFuncDeclComment E fd1 T = .ok fd1)) ∧
    (∀ (gd gd1 : GenDecl) (ts : TypeSpec), addTypeSpecComment E gd ts T = .ok gd1 →
        (∀ gd2, addTypeSpecComment E gd1 ts T = .ok gd2 → gd2 = gd1) ∧
        (docReadable gd1.Doc = true → addTypeSpecComment E gd1 ts T = .ok gd1)) ∧
    (∀ (gd gd1 : GenDecl) (vs : ValueSpec), addValueSpecComment E gd vs T = .ok gd1 →
        (∀ gd2, addValueSpecComment E gd1 vs T = .ok gd2 → gd2 = gd1) ∧
        (docReadable gd1.Doc = true → addValueSpecComment E gd1 vs T = .ok gd1)) ∧
    (∀ (vs vs1 : ValueSpec), addParenValueSpecComment E vs T = .ok vs1 →
        (∀ vs2, addParenValueSpecComment E vs1 T = .ok vs2 → vs2 = vs1) ∧
        (docReadable vs1.Doc = true → addParenValueSpecComment E vs1 T = .ok vs1)) := by
  have hagain : ∀ (af af1 : File), buildComments E af T = .ok af1 →
      docsReadable af1.Decls →
      ∃ af2, buildComments E af1 T = .ok af2 ∧ af2.Decls = af1.Decls ∧
        ∃ af3, buildComments E af2 T = .ok af3 ∧ af3.Decls = af1.Decls := by
    intro af af1 h hr
    obtain ⟨af2, h2, hd2⟩ := buildComments_again E af af1 T h hr
    have hr2 : docsReadable af2.Decls := by rw [hd2]; exact hr
    obtain ⟨af3, h3, hd3⟩ := buildComments_again E af1 af2 T h2 hr2
    exact ⟨af2, h2, hd2, af3, h3, by rw [hd3, hd2]⟩
  refine ⟨?_, hagain, ?_, ?_, ?_, ?_, ?_⟩
  · intro af af1 af2 h h2
    have hr := buildComments_input_readable E af1 af2 T h2
    obtain ⟨x2, e2, hd2, x3, e3, hd3⟩ := hagain af af1 h hr
    rw [h2] at e2
    simp only [Result.ok.injEq] at e2
    subst e2
    refine ⟨hd2, ?_⟩
    intro af3 h3
    rw [h3] at e3
    simp only [Result.ok.injEq] at e3
    rw [e3]
    exact hd3
  · intro t hb hi hT
    have hs : startsComment T.data := by
      rw [hT, hb]
      exact startsComment_base t
    have hi2 : startsComment (ReplaceFirst T E.commentBase E.commentIndentedBase).data := by
      rw [hT, replaceFirst_base, hi]
      exact startsComment_indentedBase t
    refine ⟨?_, ?_, ?_, ?_, ?_⟩
    · intro af af1 h
      exact hagain af af1 h (buildComments_readable E af af1 T hs hi2 h)
    · intro fd fd1 h
      exact addFuncDeclComment_again E fd fd1 T h
        (addFuncDeclComment_readable E fd fd1 T hs h)
    · intro gd gd1 ts h
      exact addTypeSpecComment_again E gd gd1 ts T h
        (addTypeSpecComment_readable E gd gd1 ts T hs h)
    · intro gd gd1 vs h
      exact addValueSpecComment_again E gd gd1 vs T h
        (addValueSpecComment_readable E gd gd1 vs T hs h)
    · intro vs vs1 h
      exact addParenValueSpecComment_again E vs vs1 T h
        (addParenValueSpecComment_readable E vs vs1 T hi2 h)
  · intro fd fd1 h
    refine ⟨?_, fun hr => addFuncDeclComment_again E fd fd1 T h hr⟩
    intro fd2 h2
    have e := addFuncDeclComment_again E fd fd1 T h
      (addFuncDeclComment_input_readable E fd1 fd2 T h2)
    rw [h2] at e
    simpa using e
  · intro gd gd1 ts h
    refine ⟨?_, fun hr => addTypeSpecComment_again E gd gd1 ts T h hr⟩
    intro gd2 h2
    have e := addTypeSpecComment_again E gd gd1 ts T h
      (addTypeSpecComment_input_readable E gd1 gd2 ts T h2)
    rw [h2] at e
    simpa using e
  · intro gd gd1 vs h
    refine ⟨?_, fun hr => addValueSpecComment_again E gd gd1 vs T h hr⟩
    intro gd2 h2
    have e := addValueSpecComment_again E gd gd1 vs T h
      (addValueSpecComment_input_readable E gd1 gd2 vs T h2)
    rw [h2] at e
    simpa using e
  · intro vs vs1 h
    refine ⟨?_, fun hr => addParenValueSpecComment_again E vs vs1 T h hr⟩
    intro vs2 h2
    have e := addParenValueSpecComment_again E vs vs1 T h
      (addParenValueSpecComment_input_readable E vs1 vs2 T h2)
    rw [h2] at e
    simpa using e

/-- C6 at the file holding `const ( A = 1; B = 2 )` with the injected
comment as its comment list and the template `// %s ...`, which is
`commentBase` followed by `...`: the first application gives
`fileConstABDone`, and the second returns with the same declarations. -/
theorem c6_second_application_witness :
    sampleEnv.commentBase = "// %s " ∧ sampleEnv.commentIndentedBase = "\t// %s " ∧
    "// %s ..." = sampleEnv.commentBase ++ "..." ∧
    buildComments sampleEnv fileConstAB "// %s ..." = .ok fileConstABDone ∧
    ∃ af2, buildComments sampleEnv fileConstABDone "// %s ..." = .ok af2 ∧
      af2.Decls = fileConstABDone.Decls ∧
      ∃ af3, buildComments sampleEnv af2 "// %s ..." = .ok af3 ∧
        af3.Decls = fileConstABDone.Decls :=
  ⟨rfl, rfl, by decide, by decide,
    ((c6_second_application_changes_nothing sampleEnv "// %s ...").2.2.1 "..." rfl rfl
      (by decide)).1 fileConstAB fileConstABDone (by decide)⟩

/-- C8: for a template `t` given to `parseFile`, replacing the first
`commentBase` in `commentBase + t` gives `commentIndentedBase + t`; each spec
without a doc of a parenthesized CONST or VAR declaration gets the text
`Sprintf(commentIndentedBase + t, name)`, anchored at the spec, and a CONST
or VAR declaration without parentheses and without a doc gets the text
`Sprintf(commentBase + t, name)`. -/
theorem c8_indented_template_for_grouped (E : Env) (af af1 : File) (t : String)
    (h : parseFile E (.ok af) t = .ok (.ok af1)) :
    ReplaceFirst (E.commentBase ++ t) E.commentBase E.commentIndentedBase
        = E.commentIndentedBase ++ t ∧
    (∀ (i j : Nat) (gd : GenDecl) (vs : ValueSpec) (n : Ident) (ns : List Ident),
        af.Decls.get? i = some (.Gen gd) →
        gd.isValue = true → gd.ungrouped = false →
        gd.Specs.get? j = some (.Value vs) → vs.Doc = none → vs.Names = n :: ns →
        ∃ gd1, af1.Decls.get? i = some (.Gen gd1) ∧
          gd1.Specs.get? j
            = some (.Value { vs with
                Doc := some ⟨⟨posMinusOne n.NamePos,
                  Sprintf E (E.commentIndentedBase ++ t) [.str n.Name]⟩, []⟩ })) ∧
    (∀ (i : Nat) (gd : GenDecl) (vs : ValueSpec) (rest : List Spec)
        (n : Ident) (ns : List Ident),
        af.Decls.get? i = some (.Gen gd) →
        gd.isValue = true → gd.ungrouped = true →
        gd.Specs = .Value vs :: rest → vs.Names = n :: ns → gd.Doc = none →
        af1.Decls.get? i
          = some (.Gen { gd with
              Doc := some ⟨⟨posMinusOne gd.Pos,
                Sprintf E (E.commentBase ++ t) [.str n.Name]⟩, []⟩ })) := by
  obtain ⟨af0, af2, hd0, hb, hd2⟩ := parseFile_decls E af af1 t h
  refine ⟨replaceFirst_base _ _ _, ?_, ?_⟩
  · intro i j gd vs n ns hd hk hu hj hdoc hn
    obtain ⟨c, d1, c1, hbd, hg⟩ :=
      buildComments_get E af0 af2 _ hb i _ (by rw [hd0]; exact hd)
    obtain ⟨gd1, vs1, hd1, _, ha, hget⟩ :=
      buildDecl_grouped_get E _ i gd d1 c c1 hk hu hbd j vs hj
    rw [addParenValueSpecComment_rewrite E vs _ n ns hn
      (guard_of_isNilOrName _ _ (Or.inl hdoc)), replaceFirst_base] at ha
    simp only [Result.ok.injEq] at ha
    subst ha
    exact ⟨gd1, by rw [hd2, hg, hd1], hget⟩
  · intro i gd vs rest n ns hd hk hu hs hn hdoc
    obtain ⟨c, d1, c1, hbd, hg⟩ :=
      buildComments_get E af0 af2 _ hb i _ (by rw [hd0]; exact hd)
    rw [buildDecl_ungrouped E _ i gd _ vs rest c hk hu hs
      (addValueSpecComment_rewrite E gd vs _ n ns hn
        (guard_of_isNilOrName _ _ (Or.inl hdoc)))] at hbd
    simp only [Result.ok.injEq, Prod.mk.injEq] at hbd
    rw [hd2, hg, ← hbd.1]

/-- C8 at `const ( A = 1; B = 2 )` with the template `...`: `parseFile`
returns, and both `A` and `B` carry their own comment rendered from the
indented template. -/
theorem c8_indented_template_witness :
    parseFile sampleEnv (.ok (fileOf [.Gen constAB])) "..." = .ok (.ok constABDone) ∧
    (∃ gd1, constABDone.Decls.get? 0 = some (.Gen gd1) ∧
      gd1.Specs.get? 0
        = some (.Value { (⟨none, [⟨29, "A"⟩], none, [], none⟩ : ValueSpec) with
            Doc := some ⟨⟨posMinusOne 29,
              Sprintf sampleEnv ("\t// %s " ++ "...") [.str "A"]⟩, []⟩ })) ∧
    (∃ gd1, constABDone.Decls.get? 0 = some (.Gen gd1) ∧
      gd1.Specs.get? 1
        = some (.Value { (⟨none, [⟨36, "B"⟩], none, [], none⟩ : ValueSpec) with
            Doc := some ⟨⟨posMinusOne 36,
              Sprintf sampleEnv ("\t// %s " ++ "...") [.str "B"]⟩, []⟩ })) :=
  ⟨rfl,
    (c8_indented_template_for_grouped sampleEnv (fileOf [.Gen constAB]) constABDone "..."
      rfl).2.1 0 0 constAB ⟨none, [⟨29, "A"⟩], none, [], none⟩ ⟨29, "A"⟩ []
      rfl (by decide) (by decide) rfl rfl rfl,
    (c8_indented_template_for_grouped sampleEnv (fileOf [.Gen constAB]) constABDone "..."
      rfl).2.1 0 1 constAB ⟨none, [⟨36, "B"⟩], none, [], none⟩ ⟨36, "B"⟩ []
      rfl (by decide) (by decide) rfl rfl rfl⟩

/-- C10: `func F(p *T)` with the star at offset 19 and the same declaration
with the star at offset 20 have the same shape (they differ in source
positions only), and `addFuncDeclComment` renders `&{19 T}` in the doc of
the one and `&{20 T}` in the doc of the other: the texts differ. -/
theorem c10_position_of_star_is_printed :
    (funcStarAt 19).erasePos = (funcStarAt 20).erasePos ∧
    addFuncDeclComment sampleEnv (funcStarAt 19) "// %s ..."
      = .ok { funcStarAt 19 with
          Doc := some ⟨⟨9, "// F ...\n// @p: &\x7b19 T\x7d"⟩, []⟩ } ∧
    addFuncDeclComment sampleEnv (funcStarAt 20) "// %s ..."
      = .ok { funcStarAt 20 with
          Doc := some ⟨⟨9, "// F ...\n// @p: &\x7b20 T\x7d"⟩, []⟩ } ∧
    funcDeclText sampleEnv (funcStarAt 19) "// %s ..."
      ≠ funcDeclText sampleEnv (funcStarAt 20) "// %s ..." := by
  decide

/-- C7, counterexample: `func F()` has no doc; with the empty template
`parseFile` passes `// %s ` on, the doc becomes the one comment `// F `,
`Doc.Text()` of it is `F` and a line end, and its trimmed text is the name. -/
theorem c7_bare_template_renders_the_name :
    IsNilOrName funcBare.Doc funcBare.Name.Name ∧
    parseFile sampleEnv (.ok (fileOf [.Func funcBare])) "" = .ok (.ok funcBareDone) ∧
    addFuncDeclComment sampleEnv funcBare "// %s "
      = .ok { funcBare with Doc := some ⟨⟨9, "// F "⟩, []⟩ } ∧
    CommentGroup.Text ⟨⟨9, "// F "⟩, []⟩ = .ok (some "F\n") ∧
    TrimSpace "F\n" = funcBare.Name.Name ∧
    ¬ IsMeaningful (some ⟨⟨9, "// F "⟩, []⟩) funcBare.Name.Name := by
  refine ⟨Or.inl rfl, rfl, by decide, by decide, by decide, ?_⟩
  rintro ⟨g, t, hd, ht, hn⟩
  cases hd
  have h : CommentGroup.Text ⟨⟨9, "// F "⟩, []⟩ = .ok (some "F\n") := by decide
  rw [h] at ht
  cases ht
  exact hn "F\n" rfl (by decide)

/-- C7, amended: for a template `// %s ` followed by a text `t` that holds no
percent sign and at least one character that is not white space, every
declaration whose doc is nil or whose trimmed doc text equals its name has,
after processing, a non-nil doc whose trimmed `Doc.Text()` differs from the
name: a function, a TYPE declaration, an ungrouped CONST/VAR declaration,
and (with `commentBase` being `// %s ` and `commentIndentedBase` being a tab
followed by `// %s `) a child of a grouped CONST/VAR block. -/
theorem c7_doc_differs_from_name_when_template_has_text (E : Env) (t : String)
    (ht : '%' ∉ t.data) (hns : nonSpace t.data ≠ []) :
    (∀ (fd : FuncDecl) (ft : FuncType), fd.Typ = some ft →
      IsNilOrName fd.Doc fd.Name.Name →
      ∃ fd1, addFuncDeclComment E fd ("// %s " ++ t) = .ok fd1 ∧
        IsMeaningful fd1.Doc fd.Name.Name) ∧
    (∀ (gd : GenDecl) (ts : TypeSpec), IsNilOrName gd.Doc ts.Name.Name →
      ∃ gd1, addTypeSpecComment E gd ts ("// %s " ++ t) = .ok gd1 ∧
        IsMeaningful gd1.Doc ts.Name.Name) ∧
    (∀ (gd : GenDecl) (vs : ValueSpec) (n : Ident) (ns : List Ident), vs.Names = n :: ns →
      IsNilOrName gd.Doc n.Name →
      ∃ gd1, addValueSpecComment E gd vs ("// %s " ++ t) = .ok gd1 ∧
        IsMeaningful gd1.Doc n.Name) ∧
    (E.commentBase = "// %s " → E.commentIndentedBase = "\t// %s " →
      ∀ (vs : ValueSpec) (n : Ident) (ns : List Ident), vs.Names = n :: ns →
        IsNilOrName vs.Doc n.Name →
        ∃ vs1, addParenValueSpecComment E vs ("// %s " ++ t) = .ok vs1 ∧
          IsMeaningful vs1.Doc n.Name) := by
  refine ⟨?_, ?_, ?_, ?_⟩
  · intro fd ft hT hN
    refine ⟨_, addFuncDeclComment_rewrite E fd ft _ hT (guard_of_isNilOrName _ _ hN), ?_⟩
    show IsMeaningful (some ⟨⟨_, funcDeclText E fd ("// %s " ++ t)⟩, []⟩) _
    rw [funcDeclText_eq E fd ft _ hT,
      sprintf_base E (.ident fd.Name) fd.Name.Name t (by simp [renderVerb]) ht,
      String.append_assoc]
    exact isMeaningful_base _ _ _ _ hns
  · intro gd ts hN
    refine ⟨_, addTypeSpecComment_rewrite E gd ts _ (guard_of_isNilOrName _ _ hN), ?_⟩
    show IsMeaningful (some ⟨⟨_, Sprintf E ("// %s " ++ t) [.str ts.Name.Name]⟩, []⟩) _
    rw [sprintf_base E (.str ts.Name.Name) ts.Name.Name t (by simp [renderVerb]) ht]
    have h := isMeaningful_base (posMinusOne gd.Pos) ts.Name.Name t "" hns
    simpa using h
  · intro gd vs n ns hn hN
    refine ⟨_, addValueSpecComment_rewrite E gd vs _ n ns hn (guard_of_isNilOrName _ _ hN), ?_⟩
    show IsMeaningful (some ⟨⟨_, Sprintf E ("// %s " ++ t) [.str n.Name]⟩, []⟩) _
    rw [sprintf_base E (.str n.Name) n.Name t (by simp [renderVerb]) ht]
    have h := isMeaningful_base (posMinusOne gd.Pos) n.Name t "" hns
    simpa using h
  · intro hb hi vs n ns hn hN
    refine ⟨_, addParenValueSpecComment_rewrite E vs _ n ns hn (guard_of_isNilOrName _ _ hN), ?_⟩
    show IsMeaningful (some ⟨⟨_,
      Sprintf E (ReplaceFirst ("// %s " ++ t) E.commentBase E.commentIndentedBase)
        [.str n.Name]⟩, []⟩) _
    rw [hb, hi, replaceFirst_base,
      sprintf_indentedBase E (.str n.Name) n.Name t (by simp [renderVerb]) ht]
    exact isMeaningful_indentedBase _ _ _

/-- C7, amended, at `func F()` without a doc and the template `// %s ...`:
the text `...` holds no percent sign and is not blank, and the doc the
function gets is meaningful. -/
theorem c7_doc_differs_from_name_witness :
    '%' ∉ "...".data ∧ nonSpace "...".data ≠ [] ∧
    ∃ fd1, addFuncDeclComment sampleEnv funcBare ("// %s " ++ "...") = .ok fd1 ∧
      IsMeaningful fd1.Doc funcBare.Name.Name :=
  ⟨by decide, by decide,
    (c7_doc_differs_from_name_when_template_has_text sampleEnv "..." (by decide)
      (by decide)).1 funcBare _ rfl (Or.inl rfl)⟩

/-- C11: the comment list `buildComments` returns is in non-decreasing order
of position, and so is the one `parseFile` returns, also when it is what
`af.Comments[1:]` leaves after the injected comment is removed; this holds
for every file and template, whatever the number of comments synthesized. -/
theorem c11_comments_sorted_by_position (E : Env) (T : String) :
    (∀ (af af1 : File), buildComments E af T = .ok af1 → sortedByPos af1.Comments) ∧
    (∀ (af af1 : File), parseFile E (.ok af) T = .ok (.ok af1) →
      sortedByPos af1.Comments) := by
  refine ⟨fun af af1 h => buildComments_sorted E af af1 T h, ?_⟩
  intro af af1 h
  simp only [parseFile] at h
  by_cases hc : af.Comments.length = 0
  · simp only [hc, if_true] at h
    cases hb : buildComments E { af with Comments := [injectedComment] }
        (E.commentBase ++ T) with
    | panic e => simp [hb] at h
    | ok af2 =>
      simp only [hb] at h
      have hs := buildComments_sorted E _ af2 _ hb
      cases hcs : af2.Comments with
      | nil => simp [hcs] at h
      | cons c cs =>
        simp only [hcs, Result.ok.injEq, Except.ok.injEq] at h
        rw [hcs] at hs
        rw [← h]
        exact (List.pairwise_cons.mp hs).2
  · simp only [hc, if_false] at h
    cases hb : buildComments E af (E.commentBase ++ T) with
    | panic e => simp [hb] at h
    | ok af2 =>
      simp only [hb, Result.ok.injEq, Except.ok.injEq] at h
      rw [← h]
      exact buildComments_sorted E af af2 _ hb

/-- C11 at `const ( A = 1; B = 2 )` with the template `...`: the comments
`parseFile` returns, at the positions 28 and 35, are in order. -/
theorem c11_comments_sorted_witness :
    parseFile sampleEnv (.ok (fileOf [.Gen constAB])) "..." = .ok (.ok constABDone) ∧
    sortedByPos constABDone.Comments :=
  ⟨rfl, (c11_comments_sorted_by_position sampleEnv "...").2
    (fileOf [.Gen constAB]) constABDone rfl⟩

/-- C12: after `buildComments`, the registry entry of every function, of
every TYPE declaration, of every CONST or VAR declaration without
parentheses and of every spec of a CONST or VAR declaration with
parentheses is the one-element list holding the doc the node has then, and
that doc is a member of the comment list `af.Comments`, which is the
flattened registry. -/
theorem c12_registry_holds_each_doc (E : Env) (af af1 : File) (T : String)
    (h : buildComments E af T = .ok af1) :
    ∃ cmap1 : CommentMap,
      (¬ af.Comments.length = 0 →
        buildDecls E T 0 af.Decls (E.NewCommentMap af) = .ok (af1.Decls, cmap1) ∧
        af1.Comments = (cmap1.Filter af1.Decls).Comments) ∧
      (∀ (i : Nat) (fd : FuncDecl), af1.Decls.get? i = some (.Func fd) →
        ∃ g, fd.Doc = some g ∧ cmap1.get (.decl i) = some [g] ∧ g ∈ af1.Comments) ∧
      (∀ (i : Nat) (gd : GenDecl), af1.Decls.get? i = some (.Gen gd) → gd.Tok = .TYPE →
        ∃ g, gd.Doc = some g ∧ cmap1.get (.decl i) = some [g] ∧ g ∈ af1.Comments) ∧
      (∀ (i : Nat) (gd : GenDecl), af1.Decls.get? i = some (.Gen gd) →
        gd.isValue = true → gd.ungrouped = true →
        ∃ g, gd.Doc = some g ∧ cmap1.get (.decl i) = some [g] ∧ g ∈ af1.Comments) ∧
      (∀ (i j : Nat) (gd : GenDecl) (s : Spec), af1.Decls.get? i = some (.Gen gd) →
        gd.isValue = true → gd.ungrouped = false → gd.Specs.get? j = some s →
        ∃ vs g, s = .Value vs ∧ vs.Doc = some g ∧
          cmap1.get (.spec i j) = some [g] ∧ g ∈ af1.Comments) := by
  obtain ⟨cm, h1, hreg, hmem⟩ := buildComments_registry_full E af af1 T h
  refine ⟨cm, h1, ?_, ?_, ?_, ?_⟩
  · intro i fd hd
    obtain ⟨g, e1, e2⟩ := hreg i _ hd
    exact ⟨g, e1, e2, hmem _ g e2 (nodeExists_decl _ i _ hd)⟩
  · intro i gd hd hk
    obtain ⟨g, e1, e2⟩ := (registryHolds_type cm i gd hk).mp (hreg i _ hd)
    exact ⟨g, e1, e2, hmem _ g e2 (nodeExists_decl _ i _ hd)⟩
  · intro i gd hd hv hu
    obtain ⟨g, e1, e2⟩ := (registryHolds_ungrouped cm i gd hv hu).mp (hreg i _ hd)
    exact ⟨g, e1, e2, hmem _ g e2 (nodeExists_decl _ i _ hd)⟩
  · intro i j gd s hd hv hu hj
    obtain ⟨vs, g, e0, e1, e2⟩ :=
      (registryHolds_grouped cm i gd hv hu).mp (hreg i _ hd) j s hj
    exact ⟨vs, g, e0, e1, e2, hmem _ g e2 (nodeExists_spec _ i j gd s hd hj)⟩

/-- C12 at the file holding the documented `func F()`: the registry entry
of the function is the list of its doc, and the doc is in the comment list
`buildComments` returns. -/
theorem c12_registry_witness :
    buildComments sampleEnv fileDocumented "// %s ..." = .ok fileDocumented ∧
    ∃ cmap1 : CommentMap,
      (∃ g, funcDocumented.Doc = some g ∧ cmap1.get (.decl 0) = some [g] ∧
        g ∈ fileDocumented.Comments) :=
  ⟨by decide,
    (c12_registry_holds_each_doc sampleEnv fileDocumented fileDocumented "// %s ..."
      (by decide)).elim
      (fun cm hc => ⟨cm, hc.2.1 0 funcDocumented rfl⟩)⟩

/-- C13: a top-level declaration that is neither a function nor a CONST, VAR
or TYPE declaration (an import declaration, a bad declaration) goes through
the body of the loop unchanged and with no assignment to the registry, over
a registry and over a nil map alike; `buildComments` returns it unchanged at
its place, and the registry entry of its node at the end of the loop is the
one `ast.NewCommentMap` made. -/
theorem c13_other_declarations_untouched (E : Env) (T : String) :
    (∀ (i : Nat) (d : Decl) (cmap : CommentMap), d.isOther = true →
      buildDecl E T i d cmap = .ok (d, cmap)) ∧
    (∀ (d : Decl), d.isOther = true → buildDeclNil E T d = .ok d) ∧
    (∀ (af af1 : File) (i : Nat) (d : Decl), buildComments E af T = .ok af1 →
      af.Decls.get? i = some d → d.isOther = true →
      af1.Decls.get? i = some d ∧
      (¬ af.Comments.length = 0 →
        ∃ cmap1, buildDecls E T 0 af.Decls (E.NewCommentMap af) = .ok (af1.Decls, cmap1) ∧
          cmap1.get (.decl i) = (E.NewCommentMap af).get (.decl i))) := by
  refine ⟨fun i d cmap h => buildDecl_other E T i d cmap h,
    fun d h => buildDeclNil_other E T d h, ?_⟩
  intro af af1 i d h hd ho
  obtain ⟨cm, hb⟩ := buildComments_decls E af af1 T h
  obtain ⟨g1, _⟩ := buildDecls_other E T af.Decls 0 _ _ _ hb i d hd ho
  refine ⟨g1, fun hc => ?_⟩
  obtain ⟨cm2, hb2, _⟩ := buildComments_of_map E af af1 T hc h
  obtain ⟨_, g2⟩ := buildDecls_other E T af.Decls 0 _ _ _ hb2 i d hd ho
  exact ⟨cm2, hb2, by simpa using g2⟩

/-- C13 at `import "fmt"`: the body of the loop returns the declaration and
the registry as they were. -/
theorem c13_other_declarations_witness :
    (Decl.Gen importFmt).isOther = true ∧
    buildDecl sampleEnv "// %s ..." 0 (.Gen importFmt) [(.inner 0, [injectedComment])]
      = .ok (.Gen importFmt, [(.inner 0, [injectedComment])]) :=
  ⟨by decide,
    (c13_other_declarations_untouched sampleEnv "// %s ...").1 0 (.Gen importFmt)
      [(.inner 0, [injectedComment])] (by decide)⟩

/-- C15: `func F() ()` has a result list that is present and holds no
result, and the text rendered for it ends with the line `// returns:`. -/
theorem c15_empty_result_list_prints_returns :
    (∃ ft rs, funcEmptyResults.Typ = some ft ∧ ft.Results = some rs ∧ rs.List = []) ∧
    addFuncDeclComment sampleEnv funcEmptyResults "// %s ..."
      = .ok { funcEmptyResults with Doc := some ⟨⟨9, "// F ...\n// returns:"⟩, []⟩ } ∧
    addFuncDeclComment sampleEnv funcBare "// %s ..."
      = .ok { funcBare with Doc := some ⟨⟨9, "// F ..."⟩, []⟩ } :=
  ⟨⟨_, _, rfl, rfl, rfl⟩, by decide, by decide⟩

/-- C18: `buildComments` returns the declarations in the same number and
order, each equal to what it was in every field except the docs of the
visited nodes (the doc of a function, of a TYPE declaration, of a CONST or
VAR declaration without parentheses, the docs of the specs of one with
parentheses); the doc of a CONST or VAR declaration with parentheses is as
it was, and so are the package clause and the package name of the file. -/
theorem c18_only_visited_docs_change (E : Env) (af af1 : File) (T : String)
    (h : buildComments E af T = .ok af1) :
    af1.Decls.map Decl.withoutVisitedDocs = af.Decls.map Decl.withoutVisitedDocs ∧
    af1.Decls.length = af.Decls.length ∧
    af1.Package = af.Package ∧ af1.Name = af.Name ∧
    (∀ (i : Nat) (gd : GenDecl), af.Decls.get? i = some (.Gen gd) →
      gd.isValue = true → gd.ungrouped = false →
      ∃ gd1, af1.Decls.get? i = some (.Gen gd1) ∧ gd1.Doc = gd.Doc ∧
        gd1.Specs.map Spec.withoutValueDoc = gd.Specs.map Spec.withoutValueDoc) := by
  obtain ⟨cm, hb⟩ := buildComments_decls E af af1 T h
  have hm := buildDecls_fields E T af.Decls 0 _ _ _ hb
  obtain ⟨hp, hn⟩ := buildComments_file E af af1 T h
  refine ⟨hm, ?_, hp, hn, ?_⟩
  · have hl := congrArg List.length hm
    simpa using hl
  · intro i gd hd hv hu
    obtain ⟨c, d1, c1, hbd, hg⟩ := buildComments_get E af af1 T h i _ hd
    obtain ⟨specs1, hs, hd1⟩ := buildDecl_grouped E T i gd d1 c c1 hv hu hbd
    refine ⟨{ gd with Specs := specs1 }, by rw [hg, hd1], rfl, ?_⟩
    exact buildSpecs_fields E T i gd.Specs 0 c specs1 c1 hs

/-- C18 at the file holding `const ( A = 1; B = 2 )` with the injected
comment as its comment list: the result differs from the input in the docs
of `A` and `B` only. -/
theorem c18_only_visited_docs_witness :
    buildComments sampleEnv fileConstAB "// %s ..." = .ok fileConstABDone ∧
    fileConstABDone.Decls.map Decl.withoutVisitedDocs
      = fileConstAB.Decls.map Decl.withoutVisitedDocs :=
  ⟨by decide,
    (c18_only_visited_docs_change sampleEnv fileConstAB fileConstABDone
      "// %s ..." (by decide)).1⟩

/-- C16: for a TYPE declaration the guard and the rendered text use the name
of the first type spec only; the new doc is put on the declaration itself
and its text is `Sprintf(template, name)`, with no further lines (no line
break in it for a template `// %s ` followed by a text without percent sign
and line break); a meaningful doc is kept; in both cases the entry of the
declaration is assigned, every spec of the declaration is left as it was,
and no spec gets a registry entry. -/
theorem c16_type_decl_uses_first_spec (E : Env) (T : String) (i : Nat) (gd : GenDecl)
    (ts : TypeSpec) (rest : List Spec) (cmap : CommentMap)
    (hk : gd.Tok = .TYPE) (hs : gd.Specs = .Typ ts :: rest) :
    (IsNilOrName gd.Doc ts.Name.Name →
      buildDecl E T i (.Gen gd) cmap
        = .ok (.Gen { gd with
              Doc := some ⟨⟨posMinusOne gd.Pos, Sprintf E T [.str ts.Name.Name]⟩, []⟩ },
            cmap.set (.decl i)
              [⟨⟨posMinusOne gd.Pos, Sprintf E T [.str ts.Name.Name]⟩, []⟩])) ∧
    (IsMeaningful gd.Doc ts.Name.Name →
      buildDecl E T i (.Gen gd) cmap
        = .ok (.Gen gd, cmap.set (.decl i) (docEntry gd.Doc))) ∧
    (∀ (d1 : Decl) (cmap1 : CommentMap), buildDecl E T i (.Gen gd) cmap = .ok (d1, cmap1) →
      ∃ gd1, d1 = .Gen gd1 ∧ gd1.Specs = gd.Specs ∧
        ∀ j, cmap1.get (.spec i j) = cmap.get (.spec i j)) ∧
    (∀ t : String, T = "// %s " ++ t → '%' ∉ t.data → '\n' ∉ t.data →
      '\n' ∉ ts.Name.Name.data →
      '\n' ∉ (Sprintf E T [.str ts.Name.Name]).data) := by
  refine ⟨?_, ?_, ?_, ?_⟩
  · intro hn
    exact buildDecl_type E T i gd _ ts rest cmap hk hs
      (addTypeSpecComment_rewrite E gd ts T (guard_of_isNilOrName _ _ hn))
  · intro hm
    exact buildDecl_type E T i gd gd ts rest cmap hk hs
      (addTypeSpecComment_keep E gd ts T (guard_of_isMeaningful _ _ hm))
  · intro d1 cmap1 h
    obtain ⟨ts1, rest1, gd1, hs1, ha, hd⟩ := buildDecl_type_inv E T i gd d1 cmap cmap1 hk h
    rw [buildDecl_type E T i gd gd1 ts1 rest1 cmap hk hs1 ha] at h
    simp only [Result.ok.injEq, Prod.mk.injEq] at h
    obtain ⟨doc, hdoc⟩ := addTypeSpecComment_shape E gd gd1 ts1 T ha
    refine ⟨gd1, hd, by rw [hdoc], ?_⟩
    intro j
    rw [← h.2]
    exact get_set_other cmap _ _ _ (by simp)
  · intro t hT hp hl hname
    rw [hT, sprintf_base E (.str ts.Name.Name) ts.Name.Name t (by simp [renderVerb]) hp]
    simp only [String.data_append, List.mem_append, not_or]
    exact ⟨⟨⟨by decide, hname⟩, by decide⟩, hl⟩

/-- C16 at `type ( T int; U int )` without docs, with the template
`// %s ...`: the declaration gets the doc `// T ...`, one position before
`type`; the specs of `T` and `U` are as they were. -/
theorem c16_type_decl_witness :
    IsNilOrName typeTU.Doc "T" ∧
    buildDecl sampleEnv "// %s ..." 0 (.Gen typeTU) []
      = .ok (.Gen { typeTU with Doc := some ⟨⟨19, "// T ..."⟩, []⟩ },
          [(.decl 0, [⟨⟨19, "// T ..."⟩, []⟩])]) :=
  ⟨Or.inl rfl,
    ((c16_type_decl_uses_first_spec sampleEnv "// %s ..." 0 typeTU
      ⟨none, ⟨27, "T"⟩, NoPos, tyInt, none⟩ [.Typ ⟨none, ⟨34, "U"⟩, NoPos, tyInt, none⟩] []
      rfl rfl).1 (Or.inl rfl)).trans (by decide)⟩

/-- C14: on a file as `parseFile` passes it to `buildComments` (a comment
list that is not empty, a tree as the parser builds it, every doc a comment
`Doc.Text()` returns on) in which every TYPE declaration and every CONST or
VAR declaration without parentheses has at least one spec and every visited
value spec at least one name, `buildComments` returns, with no index out of
range at `gd.Specs[0]` or `vs.Names[0]` and no other panic, and so does
`parseFile` on the parsed file.  A CONST or VAR declaration with parentheses
and no spec goes through the body of the loop without failure, unchanged and
with no assignment; a TYPE declaration without specs panics at
`gd.Specs[0]` with an index out of range, and `buildComments` and
`parseFile` panic on a file holding one. -/
theorem c14_returns_under_the_preconditions (E : Env) (T : String) :
    (∀ (af : File), ¬ af.Comments.length = 0 →
      (∀ d ∈ af.Decls, d.specsPresent = true ∧ d.wellTyped = true) →
      docsReadable af.Decls → ∃ af1, buildComments E af T = .ok af1) ∧
    (∀ (af : File),
      (∀ d ∈ af.Decls, d.specsPresent = true ∧ d.wellTyped = true) →
      docsReadable af.Decls →
      (af.Comments.length = 0 →
        ∃ n, (E.NewCommentMap { af with Comments := [injectedComment] }).get (.inner n)
          = some [injectedComment]) →
      ∃ af1, parseFile E (.ok af) T = .ok (.ok af1)) ∧
    (∀ (i : Nat) (gd : GenDecl) (cmap : CommentMap),
      gd.isValue = true → gd.ungrouped = false → gd.Specs = [] →
      buildDecl E T i (.Gen gd) cmap = .ok (.Gen gd, cmap) ∧
      buildDeclNil E T (.Gen gd) = .ok (.Gen gd)) ∧
    (∀ (i : Nat) (gd : GenDecl) (cmap : CommentMap), gd.Tok = .TYPE → gd.Specs = [] →
      buildDecl E T i (.Gen gd) cmap = .panic .indexOutOfRange ∧
      buildDeclNil E T (.Gen gd) = .panic .indexOutOfRange) ∧
    (∀ (af : File) (i : Nat) (gd : GenDecl), af.Decls.get? i = some (.Gen gd) →
      gd.Tok = .TYPE → gd.Specs = [] →
      (∃ e, buildComments E af T = .panic e) ∧
      (∃ e, parseFile E (.ok af) T = .panic e)) := by
  have htype : ∀ (T1 : String) (i : Nat) (gd : GenDecl) (cmap : CommentMap),
      gd.Tok = .TYPE → gd.Specs = [] →
      buildDecl E T1 i (.Gen gd) cmap = .panic .indexOutOfRange ∧
      buildDeclNil E T1 (.Gen gd) = .panic .indexOutOfRange := by
    intro T1 i gd cmap hk hs
    exact ⟨by simp [buildDecl, hk, firstTypeSpec, hs],
      by simp [buildDeclNil, hk, firstTypeSpec, hs]⟩
  have hpanic : ∀ (T1 : String) (af : File) (i : Nat) (gd : GenDecl),
      af.Decls.get? i = some (.Gen gd) → gd.Tok = .TYPE → gd.Specs = [] →
      ∃ e, buildComments E af T1 = .panic e := by
    intro T1 af i gd hd hk hs
    by_cases hc : af.Comments.length = 0
    · obtain ⟨e, he⟩ := buildDeclsNil_panics E T1 af.Decls i _ hd
        ⟨_, (htype T1 0 gd [] hk hs).2⟩
      exact ⟨e, by simp only [buildComments, hc, if_true, he]⟩
    · obtain ⟨e, he⟩ := buildDecls_panics E T1 af.Decls i _ hd
        (fun i c => ⟨_, (htype T1 i gd c hk hs).1⟩) 0 (E.NewCommentMap af)
      exact ⟨e, by simp only [buildComments, hc, if_false, he]⟩
  refine ⟨fun af hc h hr => buildComments_returns E af T hc h hr,
    fun af h hr hs => parseFile_returns E af T h hr hs, ?_, htype T, ?_⟩
  · intro i gd cmap hv hu hs
    have ha : (Decl.Gen gd).assigns = false := by
      cases hk : gd.Tok with
      | IMPORT => simp [GenDecl.isValue, hk] at hv
      | TYPE => simp [GenDecl.isValue, hk] at hv
      | CONST => simp [Decl.assigns, hk, hu, hs]
      | VAR => simp [Decl.assigns, hk, hu, hs]
    have hn := buildDeclNil_of_not_assigns E T (.Gen gd) ha
    exact ⟨(buildDeclNil_ok E T _ _ hn).2 i cmap, hn⟩
  · intro af i gd hd hk hs
    refine ⟨hpanic T af i gd hd hk hs, ?_⟩
    by_cases hc : af.Comments.length = 0
    · obtain ⟨e, he⟩ := hpanic (E.commentBase ++ T)
        { af with Comments := [injectedComment] } i gd hd hk hs
      exact ⟨e, by simp only [parseFile, hc, if_true, he]⟩
    · obtain ⟨e, he⟩ := hpanic (E.commentBase ++ T) af i gd hd hk hs
      exact ⟨e, by simp only [parseFile, hc, if_false, he]⟩

/-- C14 at the file holding `const ( A = 1; B = 2 )` and no comment, as the
parser returns it: the preconditions hold, the comment `parseFile` injects
is associated with the package name, and `parseFile` returns. -/
theorem c14_returns_witness :
    (∀ d ∈ (fileOf [.Gen constAB]).Decls, d.specsPresent = true ∧ d.wellTyped = true) ∧
    (∀ d ∈ (fileOf [.Gen constAB]).Decls, ∀ doc ∈ visitedDocs d, docReadable doc = true) ∧
    (sampleEnv.NewCommentMap { fileOf [.Gen constAB] with Comments := [injectedComment] }).get
        (.inner 0) = some [injectedComment] ∧
    ∃ af1, parseFile sampleEnv (.ok (fileOf [.Gen constAB])) "..." = .ok (.ok af1) :=
  ⟨by decide, by decide, by decide,
    (c14_returns_under_the_preconditions sampleEnv "...").2.1 (fileOf [.Gen constAB])
      (by decide) (by unfold docsReadable; decide) (fun _ => ⟨0, by decide⟩)⟩

/-- C17: in the file `buildComments` returns, every function, every TYPE
declaration, every CONST or VAR declaration without parentheses and every
value spec of a CONST or VAR declaration with parentheses has a doc; and
`buildComments` returns on a file with a non-empty comment list that meets
the precondition on the specs and is a tree as the parser builds it. -/
theorem c17_visited_declarations_have_docs (E : Env) (af : File) (T : String) :
    (∀ af1 : File, buildComments E af T = .ok af1 →
      (∀ (i : Nat) (fd : FuncDecl), af1.Decls.get? i = some (.Func fd) →
        fd.Doc ≠ none) ∧
      (∀ (i : Nat) (gd : GenDecl), af1.Decls.get? i = some (.Gen gd) → gd.Tok = .TYPE →
        gd.Doc ≠ none) ∧
      (∀ (i : Nat) (gd : GenDecl), af1.Decls.get? i = some (.Gen gd) →
        gd.isValue = true → gd.ungrouped = true → gd.Doc ≠ none) ∧
      (∀ (i j : Nat) (gd : GenDecl) (vs : ValueSpec),
        af1.Decls.get? i = some (.Gen gd) → gd.isValue = true → gd.ungrouped = false →
        gd.Specs.get? j = some (.Value vs) → vs.Doc ≠ none)) ∧
    (¬ af.Comments.length = 0 →
      (∀ d ∈ af.Decls, d.specsPresent = true ∧ d.wellTyped = true) →
      docsReadable af.Decls → ∃ af1, buildComments E af T = .ok af1) := by
  refine ⟨?_, fun hc h hr => buildComments_returns E af T hc h hr⟩
  intro af1 h
  obtain ⟨cm, _, hreg, _⟩ := buildComments_registry_full E af af1 T h
  refine ⟨?_, ?_, ?_, ?_⟩
  · intro i fd hd
    obtain ⟨g, e1, _⟩ := hreg i _ hd
    simp [e1]
  · intro i gd hd hk
    obtain ⟨g, e1, _⟩ := (registryHolds_type cm i gd hk).mp (hreg i _ hd)
    simp [e1]
  · intro i gd hd hv hu
    obtain ⟨g, e1, _⟩ := (registryHolds_ungrouped cm i gd hv hu).mp (hreg i _ hd)
    simp [e1]
  · intro i j gd vs hd hv hu hj
    obtain ⟨vs1, g, e0, e1, _⟩ :=
      (registryHolds_grouped cm i gd hv hu).mp (hreg i _ hd) j _ hj
    cases e0
    simp [e1]

/-- C17 at the file holding `const ( A = 1; B = 2 )` with the injected
comment as its comment list: `buildComments` returns, and the spec of `A` in
its result has a doc. -/
theorem c17_visited_declarations_witness :
    buildComments sampleEnv fileConstAB "// %s ..." = .ok fileConstABDone ∧
    (⟨some ⟨⟨28, "\t// A ..."⟩, []⟩, [⟨29, "A"⟩], none, [], none⟩ : ValueSpec).Doc ≠ none :=
  ⟨by decide,
    ((c17_visited_declarations_have_docs sampleEnv fileConstAB "// %s ...").1
      fileConstABDone (by decide)).2.2.2 0 0
      { constAB with
        Specs :=
          [.Value ⟨some ⟨⟨28, "\t// A ..."⟩, []⟩, [⟨29, "A"⟩], none, [], none⟩,
           .Value ⟨some ⟨⟨35, "\t// B ..."⟩, []⟩, [⟨36, "B"⟩], none, [], none⟩] }
      ⟨some ⟨⟨28, "\t// A ..."⟩, []⟩, [⟨29, "A"⟩], none, [], none⟩
      rfl (by decide) (by decide) rfl⟩

end Gocmt
